import Mathlib

/-!
# Bistro simulation: kitchen stations and the station manager

A shallow embedding of `Project 5/Dish.cpp`, `Project 5/KitchenStation.cpp` and
`Project 5/StationManager.cpp`, followed by the properties proved about them.

Conventions of the embedding.

* A C++ `int` is an `Int` between `INT_MIN` and `INT_MAX`.  Where the code
  stores in an `int` a sum or difference that can leave this range on operands
  inside it (`quantity += ingredient.quantity` in
  `replenishStationIngredients`, `spiciness_level_ -= 2` and
  `sweetness_level_ -= 3` in `dietaryAccommodations`), the embedding stores
  `wrapInt` of the exact result, the value that the 32-bit two's complement
  machine keeps.  The differences taken by `prepareDish` and the running totals
  of the kitchens are exact: what is proved about them concerns operands for
  which the result stays in the range.
* A `double` price is only ever stored and copied by the station code; it is
  carried as a `Rat`.
* A `Dish*` is an address `DishPtr`; the dishes themselves live in a store
  `DishStore` that the station operations only read.
* A `KitchenStation*` is an address `StationPtr`; the station objects live in
  the `stations` component of a `StationManager`, next to the list of
  addresses that the manager's linked list holds.  `nullptr` results are
  `none`.
* A member function that mutates its object returns the new object (paired
  with its return value when it has one).
* A `std::string` is a `String`.  The character classifiers `std::isalpha`
  and `std::isspace` are those of the "C" locale, in which the program runs;
  they hold of no character outside ASCII.
-/

/-! ## The type `int` -/

/-- The library constant `INT_MIN`, the least value of a 32-bit `int`. -/
def INT_MIN : Int := -2147483648

/-- The library constant `INT_MAX`, the greatest value of a 32-bit `int`. -/
def INT_MAX : Int := 2147483647

/-- The `int` that the machine stores for the exact result `x` of a sum or
difference of two `int` values: `x` itself when it lies between `INT_MIN` and
`INT_MAX`, and otherwise the value in that range that differs from `x` by a
multiple of `2 ^ 32`. -/
def wrapInt (x : Int) : Int :=
  (x - INT_MIN) % 4294967296 + INT_MIN

namespace Project5

/-! ## Data model (`Dish.cpp`) -/

/-- The cuisine labels handled by `Dish::getCuisineType`. -/
inductive CuisineType where
  | ITALIAN | MEXICAN | CHINESE | INDIAN | AMERICAN | FRENCH | OTHER
  deriving DecidableEq, Repr

/-- The `Ingredient` record, fields as initialised by its constructors. -/
structure Ingredient where
  name : String
  quantity : Int
  required_quantity : Int
  price : Rat
  deriving DecidableEq

/-- The data members of `Dish`, as initialised by its constructors. -/
structure Dish where
  name_ : String
  ingredients_ : List Ingredient
  prep_time_ : Int
  price_ : Rat
  cuisine_type_ : CuisineType
  deriving DecidableEq

namespace Dish

/-- The library classifier `std::isalpha` in the "C" locale, the locale the
program runs in: the letters `A`-`Z` and `a`-`z`. -/
def isalpha (c : Char) : Bool :=
  (65 ≤ c.toNat && c.toNat ≤ 90) || (97 ≤ c.toNat && c.toNat ≤ 122)

/-- The library classifier `std::isspace` in the "C" locale: space, and the
control characters `\t`, `\n`, `\v`, `\f`, `\r` (codes 9 to 13). -/
def isspace (c : Char) : Bool :=
  c.toNat = 32 || (9 ≤ c.toNat && c.toNat ≤ 13)

/-- The loop of `Dish::isValidName`, run on the characters still to visit. -/
def isValidNameLoop : List Char → Bool
  | [] => true
  | c :: rest => if !isalpha c && !isspace c then false else isValidNameLoop rest

/-- The helper `Dish::isValidName(name)`. -/
def isValidName (name : String) : Bool :=
  isValidNameLoop name.toList

/-- The mutator `Dish::setName(name)`: the new dish. -/
def setName (d : Dish) (name : String) : Dish :=
  if isValidName name then { d with name_ := name } else { d with name_ := "UNKNOWN" }

/-- The accessor `Dish::getName`. -/
def getName (d : Dish) : String := d.name_

/-- The parameterized constructor of `Dish`: the member initialisers, then
`setName(name)`. -/
def mk_checked (name : String) (ingredients : List Ingredient) (prep_time : Int) (price : Rat)
    (cuisine_type : CuisineType) : Dish :=
  setName ⟨"", ingredients, prep_time, price, cuisine_type⟩ name

/-- The whitespace characters: space, tab, line feed, vertical tab, form feed
and carriage return. -/
def whitespaceChars : List Char :=
  [Char.ofNat 32, Char.ofNat 9, Char.ofNat 10, Char.ofNat 11, Char.ofNat 12, Char.ofNat 13]

/-- The operator `Dish::operator==` of Project 5. -/
def operator_eq (a rhs : Dish) : Bool :=
  decide (a.name_ = rhs.name_) && decide (a.prep_time_ = rhs.prep_time_) &&
    decide (a.price_ = rhs.price_) && decide (a.cuisine_type_ = rhs.cuisine_type_)

/-- The operator `Dish::operator!=` of Project 5: `!(*this == rhs)`. -/
def operator_ne (a rhs : Dish) : Bool :=
  !(operator_eq a rhs)

end Dish

/-- Address of a `Dish` object. -/
abbrev DishPtr := Nat

/-- The dish objects, by address. -/
abbrev DishStore := DishPtr → Dish

/-- Address of a `KitchenStation` object. -/
abbrev StationPtr := Nat

/-! ## `KitchenStation` -/

/-- The data members of `KitchenStation`. -/
structure KitchenStation where
  station_name_ : String
  dishes_ : List DishPtr
  ingredients_stock_ : List Ingredient
  deriving DecidableEq

namespace KitchenStation

/-- The parameterized constructor `KitchenStation(station_name)`. -/
def mk_named (station_name : String) : KitchenStation :=
  { station_name_ := station_name, dishes_ := [], ingredients_stock_ := [] }

/-- The accessor `getName`. -/
def getName (s : KitchenStation) : String := s.station_name_

/-- The accessor `getDishes`. -/
def getDishes (s : KitchenStation) : List DishPtr := s.dishes_

/-- The accessor `getIngredientsStock`. -/
def getIngredientsStock (s : KitchenStation) : List Ingredient := s.ingredients_stock_

/-- The scan of `assignDishToStation`: is some assigned dish named like `dish`? -/
def nameAssigned (D : DishStore) (dishes : List DishPtr) (dish : DishPtr) : Bool :=
  dishes.any (fun p => decide ((D p).name_ = (D dish).name_))

/-- The member `assignDishToStation(dish)`: the return value and the new station. -/
def assignDishToStation (D : DishStore) (s : KitchenStation) (dish : DishPtr) :
    Bool × KitchenStation :=
  if nameAssigned D s.dishes_ dish then (false, s)
  else (true, { s with dishes_ := s.dishes_ ++ [dish] })

/-- The loop body of `replenishStationIngredients` on one stock entry:
`quantity += ingredient.quantity` stores the sum in an `int`. -/
def addQuantity (ingredient : Ingredient) (e : Ingredient) : Ingredient :=
  if e.name = ingredient.name then
    { e with quantity := wrapInt (e.quantity + ingredient.quantity) }
  else e

/-- The flag `update` of `replenishStationIngredients` after its loop. -/
def inStock (stock : List Ingredient) (name : String) : Bool :=
  stock.any (fun e => decide (e.name = name))

/-- The member `replenishStationIngredients(ingredient)`: the new station. -/
def replenishStationIngredients (s : KitchenStation) (ingredient : Ingredient) :
    KitchenStation :=
  let stock := s.ingredients_stock_.map (addQuantity ingredient)
  if inStock s.ingredients_stock_ ingredient.name then { s with ingredients_stock_ := stock }
  else { s with ingredients_stock_ := stock ++ [ingredient] }

/-- The first loop of `canCompleteOrder`: the ingredients of the first dish
named `dish_name` (the loop breaks there), the empty vector when there is none. -/
def firstIngredients (D : DishStore) (dish_name : String) : List DishPtr → List Ingredient
  | [] => []
  | p :: rest =>
    if (D p).name_ = dish_name then (D p).ingredients_ else firstIngredients D dish_name rest

/-- The loop over `k` of `canCompleteOrder` for one ingredient name, run on the
stock entries from `k` on with the current value of `found`: `none` when the
loop leaves the function with `false`, else the value of `found` at its end. -/
def stockScan (name : String) : List Ingredient → Bool → Option Bool
  | [], found => some found
  | e :: rest, found =>
    if name = e.name then
      if e.quantity < e.required_quantity then none else stockScan name rest true
    else stockScan name rest found

/-- The loop over `j` of `canCompleteOrder`, run on the ingredients from `j` on. -/
def allInStock (stock : List Ingredient) : List Ingredient → Bool
  | [] => true
  | g :: rest =>
    match stockScan g.name stock false with
    | some true => allInStock stock rest
    | _ => false

/-- The member `canCompleteOrder(dish_name)`; it does not change the station. -/
def canCompleteOrder (D : DishStore) (s : KitchenStation) (dish_name : String) : Bool :=
  let ingre := firstIngredients D dish_name s.dishes_
  if ingre.length = 0 then false
  else allInStock s.ingredients_stock_ ingre

/-- The first loop of `prepareDish`: it has no `break`, so `ingre` ends as the
ingredients of the last dish named `dish_name`. -/
def lastIngredients (D : DishStore) (dish_name : String) (dishes : List DishPtr) :
    List Ingredient :=
  dishes.foldl (fun ingre p => if (D p).name_ = dish_name then (D p).ingredients_ else ingre) []

/-- The loop over `k` of `prepareDish` for one ingredient name, at index `k`
of the current stock; `fuel` bounds the number of iterations still allowed.
An erased entry shifts the rest down while `k` still advances. -/
def depleteFrom (name : String) : Nat → Nat → List Ingredient → List Ingredient
  | 0, _, stock => stock
  | fuel + 1, k, stock =>
    if h : k < stock.length then
      let e := stock.get ⟨k, h⟩
      if name = e.name then
        let e1 : Ingredient := { e with quantity := e.quantity - e.required_quantity }
        if e1.quantity = 0 then depleteFrom name fuel (k + 1) (stock.eraseIdx k)
        else depleteFrom name fuel (k + 1) (stock.set k e1)
      else depleteFrom name fuel (k + 1) stock
    else stock

/-- The whole loop over `k` of `prepareDish` for one ingredient name: every
iteration advances `k`, so `stock.length` iterations are enough. -/
def deplete (stock : List Ingredient) (name : String) : List Ingredient :=
  depleteFrom name stock.length 0 stock

/-- The member `prepareDish(dish_name)`: the return value and the new station. -/
def prepareDish (D : DishStore) (s : KitchenStation) (dish_name : String) :
    Bool × KitchenStation :=
  if ¬ canCompleteOrder D s dish_name then (false, s)
  else
    let ingre := lastIngredients D dish_name s.dishes_
    (true, { s with
      ingredients_stock_ :=
        ingre.foldl (fun stock g => deplete stock g.name) s.ingredients_stock_ })

/-- The effect on `station1` of the second loop of `mergeStations`:
`assignDishToStation` for every dish of `dishes` in turn. -/
def assignEach (D : DishStore) (s : KitchenStation) (dishes : List DishPtr) : KitchenStation :=
  dishes.foldl (fun st d => (st.assignDishToStation D d).2) s

/-- The effect on `station1` of the third loop of `mergeStations`:
`replenishStationIngredients` for every entry of `ingre` in turn. -/
def replenishEach (s : KitchenStation) (ingre : List Ingredient) : KitchenStation :=
  ingre.foldl replenishStationIngredients s

/-- The quantity held under `name` in a stock, `0` when no entry has that name. -/
def quantityOf (stock : List Ingredient) (name : String) : Int :=
  match stock.filter (fun e => decide (e.name = name)) with
  | [] => 0
  | e :: _ => e.quantity

/-- What the loop over `k` of `prepareDish` leaves of the stock entries it has
not visited yet: an entry named `name` loses its `required_quantity`; when that
empties it, it is erased and the entry behind it, which moves into its place,
is never looked at. -/
def afterDeplete (name : String) : List Ingredient → List Ingredient
  | [] => []
  | [e] =>
    if name = e.name then
      if e.quantity - e.required_quantity = 0 then []
      else [{ e with quantity := e.quantity - e.required_quantity }]
    else [e]
  | e :: f :: rest =>
    if name = e.name then
      if e.quantity - e.required_quantity = 0 then f :: afterDeplete name rest
      else { e with quantity := e.quantity - e.required_quantity } :: afterDeplete name (f :: rest)
    else e :: afterDeplete name (f :: rest)

/-- One use of a stock entry: its quantity less its `required_quantity`, and no
entry at all when that leaves exactly `0`. -/
def usedOnce (e : Ingredient) : Option Ingredient :=
  if e.quantity - e.required_quantity = 0 then none
  else some { e with quantity := e.quantity - e.required_quantity }

/-- The stock that preparing a dish with ingredient names `names` is said to
leave: the old stock in its order, every entry named in `names` used once (and
removed when that empties it), every other entry as it was. -/
def stockAfterPreparing (names : List String) (stock : List Ingredient) : List Ingredient :=
  stock.filterMap (fun e => if e.name ∈ names then usedOnce e else some e)

end KitchenStation

/-- A call of one of the three mutating members of `KitchenStation`. -/
inductive StationCall where
  | assignDishToStation (dish : DishPtr)
  | replenishStationIngredients (ingredient : Ingredient)
  | prepareDish (dish_name : String)

namespace KitchenStation

/-- The station after one call, with the dishes as they are at that call. -/
def afterCall (D : DishStore) (s : KitchenStation) : StationCall → KitchenStation
  | StationCall.assignDishToStation dish => (s.assignDishToStation D dish).2
  | StationCall.replenishStationIngredients ingredient => s.replenishStationIngredients ingredient
  | StationCall.prepareDish dish_name => (s.prepareDish D dish_name).2

/-- The station after a sequence of calls; every call comes with the dish
store of its moment, since dishes can be changed between two calls. -/
def afterCalls (s : KitchenStation) (calls : List (DishStore × StationCall)) : KitchenStation :=
  calls.foldl (fun st c => afterCall c.1 st c.2) s

end KitchenStation

/-! ## `LinkedList` -/

namespace LinkedList

/-- Modelled from the spec: `LinkedList.hpp` is not among the sources; the
manager is "a singly-linked ordered list of station pointers", so the list is
the sequence of its items and `getLength` is its length. -/
def getLength {α : Type} (l : List α) : Nat := l.length

/-- Modelled from the spec: `LinkedList.hpp` is not among the sources;
`getEntry(position)` is the item at the zero-based `position` ("reinsert at
index 0" puts an item in front). -/
def getEntry {α : Type} (l : List α) (position : Nat) (h : position < getLength l) : α :=
  l.get ⟨position, h⟩

/-- Modelled from the spec: `LinkedList.hpp` is not among the sources;
`insert(position, item)` puts `item` at the zero-based `position`
("add (append)" inserts at `getLength()`), and fails past the end. -/
def insert {α : Type} (l : List α) (position : Nat) (item : α) : Bool × List α :=
  if position ≤ l.length then (true, l.take position ++ item :: l.drop position)
  else (false, l)

/-- Modelled from the spec: `LinkedList.hpp` is not among the sources;
`remove(position)` unlinks the item at the zero-based `position` and keeps the
order of the others, and fails when there is no such item. -/
def remove {α : Type} (l : List α) (position : Nat) : Bool × List α :=
  if position < l.length then (true, l.eraseIdx position) else (false, l)

end LinkedList

/-! ## `StationManager` -/

/-- A `StationManager`: the items of its linked list, in list order, and the
station objects those addresses point to. -/
structure StationManager where
  items : List StationPtr
  stations : StationPtr → KitchenStation

namespace StationManager

/-- The member `findStation(station_name)`; `none` is `nullptr`. -/
def findStation (m : StationManager) (station_name : String) : Option StationPtr :=
  m.items.find? (fun p => decide ((m.stations p).getName = station_name))

/-- The first loop of `mergeStations` at index `i` of the current list, with
`name` the value of `station2->getName()`; `fuel` bounds the number of
iterations still allowed.  After `remove(i)` the index still advances. -/
def unlinkFrom (stations : StationPtr → KitchenStation) (name : String) :
    Nat → Nat → List StationPtr → List StationPtr
  | 0, _, items => items
  | fuel + 1, i, items =>
    if h : i < LinkedList.getLength items then
      if name = (stations (LinkedList.getEntry items i h)).getName then
        unlinkFrom stations name fuel (i + 1) (LinkedList.remove items i).2
      else unlinkFrom stations name fuel (i + 1) items
    else items

/-- The whole first loop of `mergeStations`: every iteration advances `i`, so
`getLength()` iterations are enough. -/
def unlinkNamed (stations : StationPtr → KitchenStation) (name : String)
    (items : List StationPtr) : List StationPtr :=
  unlinkFrom stations name (LinkedList.getLength items) 0 items

/-- The second loop of `mergeStations`: `station1->assignDishToStation` for
every dish of the copied vector `dishes`, return values dropped. -/
def assignAll (D : DishStore) (stations : StationPtr → KitchenStation) (station1 : StationPtr)
    (dishes : List DishPtr) : StationPtr → KitchenStation :=
  dishes.foldl
    (fun st d =>
      Function.update st station1 (KitchenStation.assignDishToStation D (st station1) d).2)
    stations

/-- The third loop of `mergeStations`: `station1->replenishStationIngredients`
for every entry of the copied vector `ingre`. -/
def replenishAll (stations : StationPtr → KitchenStation) (station1 : StationPtr)
    (ingre : List Ingredient) : StationPtr → KitchenStation :=
  ingre.foldl
    (fun st x =>
      Function.update st station1 (KitchenStation.replenishStationIngredients (st station1) x))
    stations

/-- The member `mergeStations(station_name1, station_name2)`: the return value
and the new manager.  `station1` and `station2` may be the same address. -/
def mergeStations (D : DishStore) (m : StationManager) (station_name1 station_name2 : String) :
    Bool × StationManager :=
  match findStation m station_name1, findStation m station_name2 with
  | some station1, some station2 =>
    let items := unlinkNamed m.stations (m.stations station2).getName m.items
    let dishes := (m.stations station2).getDishes
    let st1 := assignAll D m.stations station1 dishes
    let ingre := (st1 station2).getIngredientsStock
    let st2 := replenishAll st1 station1 ingre
    (true, { items := items, stations := st2 })
  | _, _ => (false, m)

/-- What the first loop of `mergeStations` leaves of the items it has not
visited yet: an item named `name` is unlinked and the item behind it, which
moves into its place, is never looked at. -/
def afterUnlink (stations : StationPtr → KitchenStation) (name : String) :
    List StationPtr → List StationPtr
  | [] => []
  | [p] => if name = (stations p).getName then [] else [p]
  | p :: q :: rest =>
    if name = (stations p).getName then q :: afterUnlink stations name rest
    else p :: afterUnlink stations name (q :: rest)

/-- No two neighbours in the list are both named `name`. -/
def noNeighboursNamed (stations : StationPtr → KitchenStation) (name : String) :
    List StationPtr → Bool
  | [] => true
  | [_] => true
  | p :: q :: rest =>
    !(decide ((stations p).getName = name) && decide ((stations q).getName = name))
      && noNeighboursNamed stations name (q :: rest)

/-- The loop `for (int i = 0; i < getLength(); i++)` that `removeStation`,
`findStation` and `moveStationToFront` share, at index `i`: at the first entry
named `station_name` the function returns `onMatch i station`, and `onEnd`
when the loop runs out; `fuel` bounds the number of iterations still allowed. -/
def scanFrom {β : Type} (stations : StationPtr → KitchenStation) (station_name : String)
    (items : List StationPtr) (onMatch : Nat → StationPtr → β) (onEnd : β) : Nat → Nat → β
  | 0, _ => onEnd
  | fuel + 1, i =>
    if h : i < LinkedList.getLength items then
      let station := LinkedList.getEntry items i h
      if (stations station).getName = station_name then onMatch i station
      else scanFrom stations station_name items onMatch onEnd fuel (i + 1)
    else onEnd

/-- The member `addStation(station)`: the return value and the new manager. -/
def addStation (m : StationManager) (station : StationPtr) : Bool × StationManager :=
  let r := LinkedList.insert m.items (LinkedList.getLength m.items) station
  (r.1, { m with items := r.2 })

/-- The member `removeStation(station_name)`: the return value and the new
manager.  `delete getEntry(i)` ends the lifetime of the station object; the
manager no longer refers to it once `remove(i)` has unlinked it. -/
def removeStation (m : StationManager) (station_name : String) : Bool × StationManager :=
  scanFrom m.stations station_name m.items
    (fun i _ => (true, { m with items := (LinkedList.remove m.items i).2 }))
    (false, m) (LinkedList.getLength m.items) 0

/-- The member `findStation(station_name)` as the loop of the source, with the
manager as the call leaves it: the loop only calls `getLength` and `getEntry`. -/
def findStationLoop (m : StationManager) (station_name : String) :
    Option StationPtr × StationManager :=
  scanFrom m.stations station_name m.items (fun _ station => (some station, m)) (none, m)
    (LinkedList.getLength m.items) 0

/-- The member `moveStationToFront(station_name)`: the return value and the new
manager. -/
def moveStationToFront (m : StationManager) (station_name : String) : Bool × StationManager :=
  scanFrom m.stations station_name m.items
    (fun i station =>
      (true, { m with items := (LinkedList.insert (LinkedList.remove m.items i).2 0 station).2 }))
    (false, m) (LinkedList.getLength m.items) 0

/-- The member `assignDishToStation(station_name, dish)` of the manager: the
return value and the new manager.  The return value of the station's
`assignDishToStation` is dropped. -/
def assignDishToStation (D : DishStore) (m : StationManager) (station_name : String)
    (dish : DishPtr) : Bool × StationManager :=
  match findStation m station_name with
  | some station =>
    let st := (KitchenStation.assignDishToStation D (m.stations station) dish).2
    (true, { m with stations := Function.update m.stations station st })
  | none => (false, m)

/-- The member `replenishIngredientAtStation(station_name, ingredient)`: the
return value and the new manager. -/
def replenishIngredientAtStation (m : StationManager) (station_name : String)
    (ingredient : Ingredient) : Bool × StationManager :=
  match findStation m station_name with
  | some station =>
    let st := KitchenStation.replenishStationIngredients (m.stations station) ingredient
    (true, { m with stations := Function.update m.stations station st })
  | none => (false, m)

/-- The member `prepareDishAtStation(station_name, dish_name_)`: the return
value and the new manager.  The last statement of the function is
`return true;`. -/
def prepareDishAtStation (D : DishStore) (m : StationManager) (station_name : String)
    (dish_name_ : String) : Bool × StationManager :=
  match findStation m station_name with
  | some station =>
    let r := KitchenStation.prepareDish D (m.stations station) dish_name_
    (r.1, { m with stations := Function.update m.stations station r.2 })
  | none => (true, m)

end StationManager

/-! ## States used in the examples -/

/-- A dish store: two different dishes that are both named "Soup" (addresses
`0` and `1`), a dish "Water" without ingredients (`2`), a dish "Stew" (`3`),
and default-constructed dishes elsewhere. -/
def exampleDishes : DishStore := fun p =>
  match p with
  | 0 => ⟨"Soup", [⟨"Salt", 1, 1, 2⟩], 5, 3, CuisineType.ITALIAN⟩
  | 1 => ⟨"Soup", [⟨"Pepper", 1, 1, 2⟩], 7, 4, CuisineType.FRENCH⟩
  | 2 => ⟨"Water", [], 1, 1, CuisineType.OTHER⟩
  | 3 => ⟨"Stew", [⟨"Salt", 1, 1, 2⟩, ⟨"Rice", 1, 1, 2⟩], 9, 6, CuisineType.INDIAN⟩
  | _ => ⟨"UNKNOWN", [], 0, 0, CuisineType.OTHER⟩

/-- A manager with stations "A", "B", "B" in this order, all empty. -/
def exampleThreeStations : StationManager :=
  { items := [0, 1, 2],
    stations := fun p =>
      match p with
      | 0 => ⟨"A", [], []⟩
      | 1 => ⟨"B", [], []⟩
      | 2 => ⟨"B", [], []⟩
      | _ => ⟨"UNKNOWN", [], []⟩ }

/-- A manager with stations "A" and "B": "A" holds the first dish named
"Soup", "B" holds the second one and "Stew". -/
def exampleTwoStations : StationManager :=
  { items := [0, 1],
    stations := fun p =>
      match p with
      | 0 => ⟨"A", [0], [⟨"Salt", 5, 1, 2⟩, ⟨"Oil", 2, 1, 3⟩]⟩
      | 1 => ⟨"B", [1, 3], [⟨"Salt", 3, 1, 2⟩, ⟨"Rice", 4, 2, 1⟩]⟩
      | _ => ⟨"UNKNOWN", [], []⟩ }

/-- A station whose two assigned dishes are both named "Soup"; it arises when
a dish is renamed through `Dish::setName` after it was assigned. -/
def exampleTwoSoups : KitchenStation :=
  ⟨"Grill", [0, 1], [⟨"Salt", 5, 2, 1⟩, ⟨"Pepper", 5, 2, 1⟩]⟩

/-- A station that can prepare "Stew" and uses up its salt doing so. -/
def exampleStewStation : KitchenStation :=
  ⟨"Grill", [3], [⟨"Salt", 2, 2, 1⟩, ⟨"Rice", 5, 2, 1⟩, ⟨"Oil", 1, 1, 1⟩]⟩

/-- A station whose only dish, "Water", has no ingredients. -/
def exampleWaterStation : KitchenStation :=
  ⟨"Bar", [2], [⟨"Ice", 4, 1, 1⟩]⟩

/-- A dish store in which every dish is a "Soup" that lists "Salt" twice. -/
def exampleSaltTwice : DishStore := fun _ =>
  ⟨"Soup", [⟨"Salt", 1, 1, 2⟩, ⟨"Salt", 1, 1, 2⟩], 5, 3, CuisineType.ITALIAN⟩

/-- A station with that soup assigned and enough salt for one use and a half. -/
def exampleSaltStation : KitchenStation :=
  ⟨"Grill", [0], [⟨"Salt", 3, 2, 1⟩]⟩

/-- A station whose salt is at the greatest quantity an `int` holds. -/
def exampleFullSaltStation : KitchenStation :=
  ⟨"Pantry", [], [⟨"Salt", 2147483647, 1, 2⟩]⟩

/-- A manager with the stations "A" and "B": "A" holds the greatest quantity
of salt an `int` holds, "B" holds one more unit of it. -/
def exampleFullStations : StationManager :=
  { items := [0, 1],
    stations := fun p =>
      match p with
      | 0 => ⟨"A", [], [⟨"Salt", 2147483647, 1, 2⟩]⟩
      | 1 => ⟨"B", [], [⟨"Salt", 1, 1, 2⟩]⟩
      | _ => ⟨"UNKNOWN", [], []⟩ }

/-- The dishes of `exampleDishes` with other quantities, required quantities
and prices inside their ingredient lists. -/
def exampleDishesRepriced : DishStore := fun p =>
  match p with
  | 0 => ⟨"Soup", [⟨"Salt", 40, 50, 7⟩], 5, 3, CuisineType.ITALIAN⟩
  | 1 => ⟨"Soup", [⟨"Pepper", 0, 9, 1⟩], 7, 4, CuisineType.FRENCH⟩
  | 2 => ⟨"Water", [], 1, 1, CuisineType.OTHER⟩
  | 3 => ⟨"Stew", [⟨"Salt", 0, 100, 0⟩, ⟨"Rice", 30, 0, 5⟩], 9, 6, CuisineType.INDIAN⟩
  | _ => ⟨"UNKNOWN", [], 0, 0, CuisineType.OTHER⟩

end Project5

/-! # Kitchen of Project 3 and Project 4

`Project 3/Dish.cpp`, `Project 3/Kitchen.cpp`, `Project 4/Kitchen.cpp` and the
`dietaryAccommodations` members of `Project 4`.  Here the ingredients of a
dish are strings.  `double` arithmetic is carried out on rationals; it agrees
with the machine on operands and results that a `double` represents exactly,
which is all that the statements below evaluate. -/

namespace Project3

/-- The enum `Dish::CuisineType` (`Project 1/Dish.hpp`). -/
inductive CuisineType where
  | ITALIAN | MEXICAN | CHINESE | INDIAN | AMERICAN | FRENCH | OTHER
  deriving DecidableEq

/-- The data members of `Dish` (`Project 1/Dish.hpp`). -/
structure Dish where
  name_ : String
  ingredients_ : List String
  prep_time_ : Int
  price_ : Rat
  cuisine_type_ : CuisineType
  deriving DecidableEq

namespace Dish

/-- The default constructor `Dish()`. -/
def default : Dish := ⟨"UNKNOWN", [], 0, 0, CuisineType.OTHER⟩

/-- The accessor `getName`. -/
def getName (d : Dish) : String := d.name_

/-- The accessor `getIngredients`. -/
def getIngredients (d : Dish) : List String := d.ingredients_

/-- The accessor `getPrepTime`. -/
def getPrepTime (d : Dish) : Int := d.prep_time_

/-- The accessor `getPrice`. -/
def getPrice (d : Dish) : Rat := d.price_

/-- The accessor `getCuisineType`: the label of the cuisine type. -/
def getCuisineType (d : Dish) : String :=
  match d.cuisine_type_ with
  | CuisineType.ITALIAN => "ITALIAN"
  | CuisineType.MEXICAN => "MEXICAN"
  | CuisineType.CHINESE => "CHINESE"
  | CuisineType.INDIAN => "INDIAN"
  | CuisineType.AMERICAN => "AMERICAN"
  | CuisineType.FRENCH => "FRENCH"
  | _ => "OTHER"

/-- The operator `Dish::operator==` of Project 3, four nested tests. -/
def operator_eq (a rhs : Dish) : Bool :=
  if a.getName = rhs.getName then
    if a.getCuisineType = rhs.getCuisineType then
      if a.getPrepTime = rhs.getPrepTime then
        if a.getPrice = rhs.getPrice then true else false
      else false
    else false
  else false

/-- The operator `Dish::operator!=` of Project 3, the same four nested tests
with the two results exchanged. -/
def operator_ne (a rhs : Dish) : Bool :=
  if a.getName = rhs.getName then
    if a.getCuisineType = rhs.getCuisineType then
      if a.getPrepTime = rhs.getPrepTime then
        if a.getPrice = rhs.getPrice then false else true
      else true
    else true
  else true

/-- The test that `newOrder` and `serveDish` make of a dish: five or more
ingredients and a preparation time of an hour or more. -/
def isElaborate (d : Dish) : Bool :=
  decide (5 ≤ d.getIngredients.length) && decide (60 ≤ d.getPrepTime)

end Dish

end Project3

/-! ## `ArrayBag` -/

/-- Modelled from the spec: `ArrayBag.hpp` is not among the sources; the Kitchen
is "a bag of Dish/Dish*", kept in the array `items_` that `Kitchen.cpp` indexes
up to `getCurrentSize()`.  The first `item_count_` slots hold the items of the
bag; every other slot keeps what was last written to it. -/
structure ArrayBag (α : Type) where
  items_ : Nat → α
  item_count_ : Nat

namespace ArrayBag

/-- Modelled from the spec: `ArrayBag.hpp` is not among the sources;
`getCurrentSize()` is the number of items in the bag. -/
def getCurrentSize {α : Type} (b : ArrayBag α) : Nat := b.item_count_

/-- The items that are in the bag, slot by slot. -/
def toList {α : Type} (b : ArrayBag α) : List α :=
  (List.range b.item_count_).map b.items_

/-- Modelled from the spec: `ArrayBag.hpp` is not among the sources; the index
of the first slot of the bag whose item equals `target` under the `==` of the
item type, which `contains` and `remove` look for. -/
def getIndexOf {α : Type} (eq : α → α → Bool) (b : ArrayBag α) (target : α) : Option Nat :=
  (List.range b.item_count_).find? (fun i => eq (b.items_ i) target)

/-- Modelled from the spec: `ArrayBag.hpp` is not among the sources;
`contains(entry)` tells whether an item equal to `entry` is in the bag. -/
def contains {α : Type} (eq : α → α → Bool) (b : ArrayBag α) (entry : α) : Bool :=
  (getIndexOf eq b entry).isSome

/-- Modelled from the spec: `ArrayBag.hpp` is not among the sources;
`add(entry)` puts `entry` into the first free slot and fails when all
`capacity` slots (the constant `DEFAULT_CAPACITY`) are taken. -/
def add {α : Type} (capacity : Nat) (b : ArrayBag α) (entry : α) : Bool × ArrayBag α :=
  if b.item_count_ < capacity then
    (true, { items_ := Function.update b.items_ b.item_count_ entry,
             item_count_ := b.item_count_ + 1 })
  else (false, b)

/-- Modelled from the spec: `ArrayBag.hpp` is not among the sources;
`remove(entry)` decrements the count and overwrites the slot of the first item
equal to `entry` with the last item of the bag; it fails when there is no such
item. -/
def remove {α : Type} (eq : α → α → Bool) (b : ArrayBag α) (entry : α) : Bool × ArrayBag α :=
  match getIndexOf eq b entry with
  | some found_index =>
    (true, { items_ := Function.update b.items_ found_index (b.items_ (b.item_count_ - 1)),
             item_count_ := b.item_count_ - 1 })
  | none => (false, b)

end ArrayBag

namespace Project3

/-- The `Kitchen` of Project 3: its base `ArrayBag<Dish>` and its two data
members. -/
structure Kitchen where
  bag : ArrayBag Dish
  total_prep_time_ : Int
  count_elaborate_ : Int

namespace Kitchen

/-- The default constructor `Kitchen()`; the slots of the array hold
default-constructed dishes. -/
def empty : Kitchen :=
  { bag := { items_ := fun _ => Dish.default, item_count_ := 0 },
    total_prep_time_ := 0, count_elaborate_ := 0 }

/-- The member `newOrder(dish)`: the return value and the new kitchen.  The
loop tests `contains(dish)` once for every item of the bag. -/
def newOrder (capacity : Nat) (k : Kitchen) (dish : Dish) : Bool × Kitchen :=
  if (List.range k.bag.getCurrentSize).any (fun _ => k.bag.contains Dish.operator_eq dish) then
    (false, k)
  else
    let r := k.bag.add capacity dish
    if r.1 then
      (true, { bag := r.2,
               total_prep_time_ := k.total_prep_time_ + dish.getPrepTime,
               count_elaborate_ :=
                 if dish.isElaborate then k.count_elaborate_ + 1 else k.count_elaborate_ })
    else (false, k)

/-- The member `serveDish(dish)`: the return value and the new kitchen. -/
def serveDish (k : Kitchen) (dish : Dish) : Bool × Kitchen :=
  let r := k.bag.remove Dish.operator_eq dish
  if r.1 then
    (true, { bag := r.2,
             total_prep_time_ := k.total_prep_time_ - dish.getPrepTime,
             count_elaborate_ :=
               if dish.isElaborate then k.count_elaborate_ - 1 else k.count_elaborate_ })
  else (false, k)

/-- The accessor `getPrepTimeSum`. -/
def getPrepTimeSum (k : Kitchen) : Int := k.total_prep_time_

/-- The accessor `elaborateDishCount`. -/
def elaborateDishCount (k : Kitchen) : Int := k.count_elaborate_

/-- The loops of `releaseDishesBelowPrepTime` and `releaseDishesOfCuisineType`
at index `i`: `remove(items_[i])` when `test` holds of `items_[i]`, and
`count++` in every iteration (it stands outside the `if`); `fuel` bounds the
number of iterations still allowed. -/
def releaseFrom (test : Dish → Bool) : Nat → Nat → Int × Kitchen → Int × Kitchen
  | 0, _, st => st
  | fuel + 1, i, (count, k) =>
    if i < k.bag.getCurrentSize then
      let k1 : Kitchen :=
        if test (k.bag.items_ i) then
          { k with bag := (k.bag.remove Dish.operator_eq (k.bag.items_ i)).2 }
        else k
      releaseFrom test fuel (i + 1) (count + 1, k1)
    else (count, k)

/-- The member `releaseDishesBelowPrepTime(prep_time)`: the return value and
the new kitchen.  The bag never grows, so `getCurrentSize()` iterations are
enough. -/
def releaseDishesBelowPrepTime (k : Kitchen) (prep_time : Int) : Int × Kitchen :=
  if prep_time = 0 then
    releaseFrom (fun _ => true) k.bag.getCurrentSize 0 (0, k)
  else
    releaseFrom (fun d => decide (d.getPrepTime < prep_time)) k.bag.getCurrentSize 0 (0, k)

/-- The member `releaseDishesOfCuisineType(cuisine_type)`: the return value and
the new kitchen. -/
def releaseDishesOfCuisineType (k : Kitchen) (cuisine_type : String) : Int × Kitchen :=
  if cuisine_type = "ALL" then
    releaseFrom (fun _ => true) k.bag.getCurrentSize 0 (0, k)
  else
    releaseFrom (fun d => decide (d.getCuisineType = cuisine_type)) k.bag.getCurrentSize 0 (0, k)

end Kitchen

/-- A call of one of the four mutators of the `Kitchen` of Project 3. -/
inductive KitchenCall where
  | newOrder (dish : Dish)
  | serveDish (dish : Dish)
  | releaseDishesBelowPrepTime (prep_time : Int)
  | releaseDishesOfCuisineType (cuisine_type : String)

namespace Kitchen

/-- The kitchen after one call. -/
def afterCall (capacity : Nat) (k : Kitchen) : KitchenCall → Kitchen
  | KitchenCall.newOrder dish => (k.newOrder capacity dish).2
  | KitchenCall.serveDish dish => (k.serveDish dish).2
  | KitchenCall.releaseDishesBelowPrepTime prep_time => (k.releaseDishesBelowPrepTime prep_time).2
  | KitchenCall.releaseDishesOfCuisineType cuisine_type =>
    (k.releaseDishesOfCuisineType cuisine_type).2

/-- The kitchen after a sequence of calls. -/
def afterCalls (capacity : Nat) (k : Kitchen) (calls : List KitchenCall) : Kitchen :=
  calls.foldl (afterCall capacity) k

/-- The sum of the preparation times of the dishes that are in the kitchen. -/
def prepTimeOfDishes (k : Kitchen) : Int :=
  (k.bag.toList.map Dish.getPrepTime).sum

/-- The number of dishes in the kitchen that are elaborate. -/
def elaborateDishes (k : Kitchen) : Int :=
  ((k.bag.toList.filter Dish.isElaborate).length : Int)

end Kitchen

/-! ## States used in the examples -/

/-- A dish that takes three minutes. -/
def exampleSoup : Dish := ⟨"Soup", ["Salt"], 3, 2, CuisineType.ITALIAN⟩

/-- An elaborate dish: five ingredients, sixty minutes. -/
def exampleFeast : Dish :=
  ⟨"Feast", ["Duck", "Wine", "Thyme", "Onion", "Butter"], 60, 9, CuisineType.FRENCH⟩

/-- A dish that `operator==` does not tell from `exampleFeast`, with no
ingredients. -/
def exampleFeastBare : Dish := ⟨"Feast", [], 60, 9, CuisineType.FRENCH⟩

end Project3

namespace Project4

/-- Modelled from the spec: `Project 4/Dish.hpp` and `Project 4/Dish.cpp` are not
among the sources; the base class is "immutable-ish data holder with validated
name, ingredient list, prep time, price, cuisine enum", ingredients "as strings
in Projects 1-4", which is the `Dish` of Project 3. -/
abbrev Dish := Project3.Dish

/-- Address of a `Dish` object. -/
abbrev DishPtr := Nat

/-- The dish objects, by address. -/
abbrev DishStore := DishPtr → Dish

/-- The `Kitchen` of Project 4: its base `ArrayBag<Dish*>` and its two data
members. -/
structure Kitchen where
  bag : ArrayBag DishPtr
  total_prep_time_ : Int
  count_elaborate_ : Int

namespace Kitchen

/-- The default constructor `Kitchen()`; `slots` is what the array happens to
hold. -/
def empty (slots : Nat → DishPtr) : Kitchen :=
  { bag := { items_ := slots, item_count_ := 0 }, total_prep_time_ := 0, count_elaborate_ := 0 }

/-- The member `newOrder(new_dish)`: the return value and the new kitchen. -/
def newOrder (D : DishStore) (capacity : Nat) (k : Kitchen) (new_dish : DishPtr) :
    Bool × Kitchen :=
  let r := k.bag.add capacity new_dish
  if r.1 then
    (true, { bag := r.2,
             total_prep_time_ := k.total_prep_time_ + (D new_dish).getPrepTime,
             count_elaborate_ :=
               if 5 ≤ (D new_dish).getIngredients.length ∧ 60 ≤ (D new_dish).getPrepTime then
                 k.count_elaborate_ + 1
               else k.count_elaborate_ })
  else (false, k)

/-- The member `serveDish(dish_to_remove)`: the return value and the new
kitchen.  Pointers are compared by address. -/
def serveDish (D : DishStore) (k : Kitchen) (dish_to_remove : DishPtr) : Bool × Kitchen :=
  if k.bag.getCurrentSize = 0 then (false, k)
  else
    let r := k.bag.remove (fun p q => decide (p = q)) dish_to_remove
    if r.1 then
      (true, { bag := r.2,
               total_prep_time_ := k.total_prep_time_ - (D dish_to_remove).getPrepTime,
               count_elaborate_ :=
                 if 5 ≤ (D dish_to_remove).getIngredients.length ∧
                     60 ≤ (D dish_to_remove).getPrepTime then
                   k.count_elaborate_ - 1
                 else k.count_elaborate_ })
    else (false, k)

/-- The member `elaborateDishCount`. -/
def elaborateDishCount (k : Kitchen) : Int :=
  if k.bag.getCurrentSize = 0 ∨ k.count_elaborate_ = 0 then 0 else k.count_elaborate_

/-- The library function `round` of `<cmath>`: the nearest integer, halfway
cases away from zero. -/
def round (x : Rat) : Int :=
  if 0 ≤ x then ⌊x + 1 / 2⌋ else ⌈x - 1 / 2⌉

/-- The member `calculateElaboratePercentage`. -/
def calculateElaboratePercentage (k : Kitchen) : Rat :=
  if k.bag.getCurrentSize = 0 ∨ k.count_elaborate_ = 0 then 0
  else (round ((k.count_elaborate_ : Rat) / (k.bag.getCurrentSize : Rat) * 10000) : Rat) / 100

/-- One iteration of the loop of `releaseDishesBelowPrepTime`, at index `i`. -/
def releaseBelowStep (D : DishStore) (prep_time : Int) (st : Int × Kitchen) (i : Nat) :
    Int × Kitchen :=
  if (D (st.2.bag.items_ i)).getPrepTime < prep_time then
    (st.1 + 1, (serveDish D st.2 (st.2.bag.items_ i)).2)
  else st

/-- The member `releaseDishesBelowPrepTime(prep_time)`: the return value and
the new kitchen.  The loop runs over the indices below `num`, the size of the
bag at the start. -/
def releaseDishesBelowPrepTime (D : DishStore) (k : Kitchen) (prep_time : Int) :
    Int × Kitchen :=
  let num := k.bag.getCurrentSize
  (List.range num).foldl (releaseBelowStep D prep_time) (0, k)

/-- The loop of `releaseDishesOfCuisineType` at index `i`, which is compared
with the current `getCurrentSize()`; `fuel` bounds the number of iterations
still allowed. -/
def releaseCuisineFrom (D : DishStore) (cuisine_type : String) :
    Nat → Nat → Int × Kitchen → Int × Kitchen
  | 0, _, st => st
  | fuel + 1, i, (count, k) =>
    if i < k.bag.getCurrentSize then
      if (D (k.bag.items_ i)).getCuisineType = cuisine_type then
        releaseCuisineFrom D cuisine_type fuel (i + 1)
          (count + 1, (serveDish D k (k.bag.items_ i)).2)
      else releaseCuisineFrom D cuisine_type fuel (i + 1) (count, k)
    else (count, k)

/-- The member `releaseDishesOfCuisineType(cuisine_type)`: the return value and
the new kitchen.  The bag never grows, so `getCurrentSize()` iterations are
enough. -/
def releaseDishesOfCuisineType (D : DishStore) (k : Kitchen) (cuisine_type : String) :
    Int × Kitchen :=
  releaseCuisineFrom D cuisine_type k.bag.getCurrentSize 0 (0, k)

end Kitchen

/-! ## The dish classes of Project 4 -/

/-- Modelled from the spec: `Project 4/Dish.hpp` is not among the sources;
`DietaryRequest` holds the "boolean flags (vegetarian/vegan/low_sodium/
gluten_free/nut_free/low_sugar)". -/
structure DietaryRequest where
  vegetarian : Bool
  vegan : Bool
  gluten_free : Bool
  nut_free : Bool
  low_sodium : Bool
  low_sugar : Bool

/-- The inner loop over `j` that every accommodation runs for one ingredient:
`count` is the number of entries of `listed` that differ from it. -/
def countDiffering (listed : List String) (ingredient : String) : Nat :=
  (listed.filter (fun entry => decide (ingredient ≠ entry))).length

/-- The loops that remove the listed ingredients (gluten, nuts, dairy and egg):
an ingredient is pushed to `set` when it differs from every entry of `listed`. -/
def withoutListed (listed : List String) : List String → List String
  | [] => []
  | x :: rest =>
    if countDiffering listed x = listed.length then x :: withoutListed listed rest
    else withoutListed listed rest

/-- The vector `nonVegetarian` of the `vegetarian` branch. -/
def nonVegetarian : List String :=
  ["Meat", "Chicken", "Fish", "Beef", "Pork", "Lamb", "Shrimp", "Bacon"]

/-- The vector `glutenContaining` of `Appetizer::dietaryAccommodations`. -/
def glutenContaining : List String :=
  ["Wheat", "Flour", "Bread", "Pasta", "Barley", "Rye", "Oats", "Crust"]

/-- The vector `dairyAndEgg` of the `vegan` branches. -/
def dairyAndEgg : List String :=
  ["Milk", "Eggs", "Cheese", "Butter", "Cream", "Yogurt"]

/-- The vector `nuts` of `Dessert::dietaryAccommodations`. -/
def nuts : List String :=
  ["Almonds", "Walnuts", "Pecans", "Hazelnuts", "Peanuts", "Cashews", "Pistachios"]

/-- The loop over `i` of the `vegetarian` branch (the same in `Appetizer` and
`MainCourse`), run on the ingredients still to visit with the current value of
`occurrence`; the result is what is pushed to `set` from here on. -/
def vegetarianLoop : List String → Nat → List String
  | [], _ => []
  | x :: rest, occurrence =>
    if countDiffering nonVegetarian x = nonVegetarian.length then
      x :: vegetarianLoop rest occurrence
    else if occurrence = 0 then "Beans" :: vegetarianLoop rest (occurrence + 1)
    else if occurrence = 1 then "Mushrooms" :: vegetarianLoop rest (occurrence + 1)
    else vegetarianLoop rest occurrence

/-- The enum `Appetizer::ServingStyle`. -/
inductive ServingStyle where
  | PLATED | FAMILY_STYLE | BUFFET
  deriving DecidableEq

/-- The data members of `Appetizer`, those of its base `Dish` included. -/
structure Appetizer extends Project3.Dish where
  serving_style_ : ServingStyle
  spiciness_level_ : Int
  vegetarian_ : Bool

/-- The member `Appetizer::dietaryAccommodations(request)`: the new appetizer.
`spiciness_level_ -= 2` stores the difference in an `int`. -/
def Appetizer.dietaryAccommodations (a : Appetizer) (request : DietaryRequest) : Appetizer :=
  let a1 : Appetizer :=
    if request.vegetarian then
      { a with vegetarian_ := true, ingredients_ := vegetarianLoop a.ingredients_ 0 }
    else a
  let a2 : Appetizer :=
    if request.low_sodium then
      if wrapInt (a1.spiciness_level_ - 2) < 0 then { a1 with spiciness_level_ := 0 }
      else { a1 with spiciness_level_ := wrapInt (a1.spiciness_level_ - 2) }
    else a1
  if request.gluten_free then
    { a2 with ingredients_ := withoutListed glutenContaining a2.ingredients_ }
  else a2

/-- The enum `MainCourse::CookingMethod`, with the values that
`Project 4/Kitchen.cpp` names. -/
inductive CookingMethod where
  | GRILLED | BAKED | BOILED | FRIED | STEAMED | RAW
  deriving DecidableEq

/-- The enum `MainCourse::Category`. -/
inductive Category where
  | GRAIN | PASTA | LEGUME | BREAD | SALAD | SOUP | STARCHES | VEGETABLE
  deriving DecidableEq

/-- The struct `MainCourse::SideDish`. -/
structure SideDish where
  name : String
  category : Category
  deriving DecidableEq

/-- The data members of `MainCourse`, those of its base `Dish` included. -/
structure MainCourse extends Project3.Dish where
  cooking_method_ : CookingMethod
  protein_type_ : String
  side_dishes_ : List SideDish
  gluten_free_ : Bool

/-- The categories of the vector `glutenContaining` of
`MainCourse::dietaryAccommodations`. -/
def glutenCategories : List Category :=
  [Category.GRAIN, Category.PASTA, Category.BREAD, Category.STARCHES]

/-- The loop of the `gluten_free` branch of `MainCourse`: a side dish is added
back when its category differs from every gluten-containing category. -/
def sideDishesWithoutGluten : List SideDish → List SideDish
  | [] => []
  | x :: rest =>
    if (glutenCategories.filter (fun c => decide (x.category ≠ c))).length
        = glutenCategories.length then
      x :: sideDishesWithoutGluten rest
    else sideDishesWithoutGluten rest

/-- The member `MainCourse::dietaryAccommodations(request)`: the new main
course. -/
def MainCourse.dietaryAccommodations (m : MainCourse) (request : DietaryRequest) : MainCourse :=
  let m1 : MainCourse :=
    if request.vegetarian then
      { m with protein_type_ := "Tofu", ingredients_ := vegetarianLoop m.ingredients_ 0 }
    else m
  let m2 : MainCourse :=
    if request.vegan then
      { m1 with protein_type_ := "Tofu",
                ingredients_ := withoutListed dairyAndEgg m1.ingredients_ }
    else m1
  if request.gluten_free then
    { m2 with gluten_free_ := true, side_dishes_ := sideDishesWithoutGluten m2.side_dishes_ }
  else m2

/-- The enum `Dessert::FlavorProfile`. -/
inductive FlavorProfile where
  | SWEET | BITTER | SOUR | SALTY | UMAMI
  deriving DecidableEq

/-- The data members of `Dessert`, those of its base `Dish` included. -/
structure Dessert extends Project3.Dish where
  flavor_profile_ : FlavorProfile
  sweetness_level_ : Int
  contains_nuts_ : Bool

/-- The member `Dessert::dietaryAccommodations(request)`: the new dessert.
`sweetness_level_ -= 3` stores the difference in an `int`. -/
def Dessert.dietaryAccommodations (d : Dessert) (request : DietaryRequest) : Dessert :=
  let d1 : Dessert :=
    if request.nut_free then
      { d with contains_nuts_ := false, ingredients_ := withoutListed nuts d.ingredients_ }
    else d
  let d2 : Dessert :=
    if request.low_sugar then
      if wrapInt (d1.sweetness_level_ - 3) < 0 then { d1 with sweetness_level_ := 0 }
      else { d1 with sweetness_level_ := wrapInt (d1.sweetness_level_ - 3) }
    else d1
  if request.vegan then
    { d2 with ingredients_ := withoutListed dairyAndEgg d2.ingredients_ }
  else d2

/-- A vegetarian ingredient: one that is not in the list of the
non-vegetarian ingredients. -/
def isVegetarianIngredient (x : String) : Bool :=
  decide (x ∉ nonVegetarian)

/-- The ingredient list that the vegetarian accommodation is said to leave
behind the first two non-vegetarian ingredients: the vegetarian ones, in their
order. -/
def vegetarianRest (l : List String) : List String :=
  l.filter isVegetarianIngredient

/-- The ingredient list that the vegetarian accommodation is said to leave
behind the first non-vegetarian ingredient: the next one becomes "Mushrooms". -/
def vegetarianAfterFirst (l : List String) : List String :=
  l.takeWhile isVegetarianIngredient ++
    match l.dropWhile isVegetarianIngredient with
    | [] => []
    | _ :: rest => "Mushrooms" :: vegetarianRest rest

/-- The ingredient list that the vegetarian accommodation is said to make:
the vegetarian ingredients in their order, the first non-vegetarian one
replaced in place by "Beans", the second by "Mushrooms", the others removed. -/
def vegetarianVersion (l : List String) : List String :=
  l.takeWhile isVegetarianIngredient ++
    match l.dropWhile isVegetarianIngredient with
    | [] => []
    | _ :: rest => "Beans" :: vegetarianAfterFirst rest

/-! ## States used in the examples -/

/-- A dish store with two Italian dishes at the addresses `0` and `1`. -/
def exampleMenu : DishStore := fun p =>
  match p with
  | 0 => ⟨"Pasta", ["Flour", "Eggs"], 20, 8, Project3.CuisineType.ITALIAN⟩
  | 1 => ⟨"Pizza", ["Flour", "Cheese"], 25, 9, Project3.CuisineType.ITALIAN⟩
  | _ => Project3.Dish.default

/-- The kitchen after `newOrder` of the two Italian dishes. -/
def exampleItalianKitchen : Kitchen :=
  (Kitchen.newOrder exampleMenu 10
    (Kitchen.newOrder exampleMenu 10 (Kitchen.empty (fun _ => 0)) 0).2 1).2

/-- An appetizer with three non-vegetarian ingredients. -/
def exampleAppetizer : Appetizer :=
  { name_ := "Skewers", ingredients_ := ["Onion", "Beef", "Pepper", "Bacon", "Lamb", "Salt"],
    prep_time_ := 15, price_ := 7, cuisine_type_ := Project3.CuisineType.AMERICAN,
    serving_style_ := ServingStyle.PLATED, spiciness_level_ := 1, vegetarian_ := false }

/-- An appetizer whose spiciness level is the least `int`. -/
def exampleMildAppetizer : Appetizer :=
  { name_ := "Broth", ingredients_ := ["Water", "Leek"],
    prep_time_ := 10, price_ := 4, cuisine_type_ := Project3.CuisineType.FRENCH,
    serving_style_ := ServingStyle.PLATED, spiciness_level_ := -2147483648,
    vegetarian_ := true }

/-- A dessert whose sweetness level is the least `int`. -/
def exampleTartDessert : Dessert :=
  { name_ := "Lemon Ice", ingredients_ := ["Lemon", "Water"],
    prep_time_ := 10, price_ := 4, cuisine_type_ := Project3.CuisineType.ITALIAN,
    flavor_profile_ := FlavorProfile.SOUR, sweetness_level_ := -2147483648,
    contains_nuts_ := false }

/-- A main course with one non-vegetarian ingredient. -/
def exampleMainCourse : MainCourse :=
  { name_ := "Roast", ingredients_ := ["Chicken", "Butter", "Thyme"],
    prep_time_ := 70, price_ := 18, cuisine_type_ := Project3.CuisineType.FRENCH,
    cooking_method_ := CookingMethod.BAKED, protein_type_ := "Chicken",
    side_dishes_ := [⟨"Rolls", Category.BREAD⟩, ⟨"Greens", Category.SALAD⟩],
    gluten_free_ := false }

end Project4

/-! # Desserts of Project 2

`Project 2/Dessert.hpp` and the member `displayDessert` of
`Project 2/Dessert.cpp`. -/

namespace Project2

/-- The enum `Dessert::FlavorProfile` of `Project 2/Dessert.hpp`. -/
inductive FlavorProfile where
  | SWEET | BITTER | SOUR | SALTY | UMAMI
  deriving DecidableEq

namespace FlavorProfile

/-- The value of an enumerator: the declaration numbers them from `0` in the
order in which it lists them. -/
def toInt : FlavorProfile → Int
  | SWEET => 0
  | BITTER => 1
  | SOUR => 2
  | SALTY => 3
  | UMAMI => 4

/-- The name of an enumerator, as the declaration spells it. -/
def name : FlavorProfile → String
  | SWEET => "SWEET"
  | BITTER => "BITTER"
  | SOUR => "SOUR"
  | SALTY => "SALTY"
  | UMAMI => "UMAMI"

end FlavorProfile

/-- The data members of `Dessert`, those of its base `Dish` included. -/
structure Dessert extends Project3.Dish where
  flavor_profile_ : FlavorProfile
  sweetness_level_ : Int
  contains_nuts_ : Bool

namespace Dessert

/-- The accessor `getSweetnessLevel`. -/
def getSweetnessLevel (d : Dessert) : Int := d.sweetness_level_

/-- The accessor `containsNuts`. -/
def containsNuts (d : Dessert) : Bool := d.contains_nuts_

/-- The `if` chain of `displayDessert` on `flavor_profile_`: the label it
writes after "Flavor Profile: ". -/
def flavorLabel (d : Dessert) : String :=
  if d.flavor_profile_.toInt = 0 then "SWEET"
  else if d.flavor_profile_.toInt = 1 then "BITTER"
  else if d.flavor_profile_.toInt = 2 then "SOUR"
  else if d.flavor_profile_.toInt = 3 then "UMAMI"
  else if d.flavor_profile_.toInt = 4 then "SALTY"
  else ""

/-- The line of `displayDessert` that starts with "Flavor Profile: ", without
its line end. -/
def flavorProfileLine (d : Dessert) : String :=
  "Flavor Profile: " ++ d.flavorLabel

/-- The member `displayDessert`: the text it writes to `std::cout`.  The text
of `display()`, a member of the base class whose file is not among the sources,
is the parameter `dishText`. -/
def displayDessert (dishText : String) (d : Dessert) : String :=
  dishText ++ d.flavorProfileLine ++ "\n" ++
    "Sweetness Level: " ++ toString d.getSweetnessLevel ++ "\n" ++
    (if d.containsNuts = true then "Contains Nuts: True\n" else "Contains Nuts: False\n")

end Dessert

/-- A salty dessert. -/
def exampleSaltyDessert : Dessert :=
  { name_ := "Pretzel Tart", ingredients_ := ["Flour", "Salt", "Butter"],
    prep_time_ := 40, price_ := 6, cuisine_type_ := Project3.CuisineType.FRENCH,
    flavor_profile_ := FlavorProfile.SALTY, sweetness_level_ := 2, contains_nuts_ := false }

end Project2

/-! # Properties -/

/-- A result inside the range of `int` is stored as it is. -/
theorem wrapInt_of_inRange (x : Int) (h1 : INT_MIN ≤ x) (h2 : x ≤ INT_MAX) : wrapInt x = x := by
  unfold wrapInt
  unfold INT_MIN at h1 ⊢
  unfold INT_MAX at h2
  omega

namespace Project5

open KitchenStation StationManager

/-! ## `KitchenStation` -/

theorem nameAssigned_iff (D : DishStore) (dishes : List DishPtr) (d : DishPtr) :
    KitchenStation.nameAssigned D dishes d = true ↔ ∃ p ∈ dishes, (D p).name_ = (D d).name_ := by
  simp [KitchenStation.nameAssigned]

theorem inStock_iff (stock : List Ingredient) (name : String) :
    KitchenStation.inStock stock name = true ↔ ∃ e ∈ stock, e.name = name := by
  simp [KitchenStation.inStock]

/-- C7: `assignDishToStation(d)` returns `false` exactly when an assigned dish
already has the name of `d`; then the dish list is unchanged, otherwise `d` is
appended at its end; the ingredient stock is unchanged either way. -/
theorem assignDishToStation_spec (D : DishStore) (s : KitchenStation) (d : DishPtr) :
    ((s.assignDishToStation D d).1 = false ↔ ∃ p ∈ s.dishes_, (D p).name_ = (D d).name_) ∧
    ((s.assignDishToStation D d).1 = false → (s.assignDishToStation D d).2.dishes_ = s.dishes_) ∧
    ((s.assignDishToStation D d).1 = true →
      (s.assignDishToStation D d).2.dishes_ = s.dishes_ ++ [d]) ∧
    (s.assignDishToStation D d).2.ingredients_stock_ = s.ingredients_stock_ := by
  unfold KitchenStation.assignDishToStation
  by_cases h : KitchenStation.nameAssigned D s.dishes_ d = true
  · have h2 := (nameAssigned_iff D s.dishes_ d).1 h
    simp [h, h2]
  · have h2 : ¬ ∃ p ∈ s.dishes_, (D p).name_ = (D d).name_ :=
      fun hex => h ((nameAssigned_iff D s.dishes_ d).2 hex)
    simp [h, h2]

/-- C8: after `assignDishToStation(d1)`, `assignDishToStation(d2)` for a dish
`d2` with the name of `d1` returns `false` and leaves the number of assigned
dishes as it was after the first call. -/
theorem assignDishToStation_same_name_again (D : DishStore) (s : KitchenStation) (d1 d2 : DishPtr)
    (h : (D d1).name_ = (D d2).name_) :
    ((s.assignDishToStation D d1).2.assignDishToStation D d2).1 = false ∧
    ((s.assignDishToStation D d1).2.assignDishToStation D d2).2.dishes_.length
      = (s.assignDishToStation D d1).2.dishes_.length := by
  have key : KitchenStation.nameAssigned D (s.assignDishToStation D d1).2.dishes_ d2 = true := by
    rw [nameAssigned_iff]
    unfold KitchenStation.assignDishToStation
    by_cases h1 : KitchenStation.nameAssigned D s.dishes_ d1 = true
    · obtain ⟨p, hp, hpn⟩ := (nameAssigned_iff D s.dishes_ d1).1 h1
      exact ⟨p, by simp [h1, hp], hpn.trans h⟩
    · exact ⟨d1, by simp [h1], h⟩
  generalize (s.assignDishToStation D d1).2 = s1 at key ⊢
  simp [KitchenStation.assignDishToStation, key]

theorem map_addQuantity_absent (x : Ingredient) (stock : List Ingredient)
    (h : ∀ e ∈ stock, e.name ≠ x.name) : stock.map (KitchenStation.addQuantity x) = stock := by
  induction stock with
  | nil => rfl
  | cons e rest ih =>
    have he : e.name ≠ x.name := h e (List.mem_cons_self _ _)
    have hr : ∀ a ∈ rest, a.name ≠ x.name := fun a ha => h a (List.mem_cons_of_mem _ ha)
    simp [KitchenStation.addQuantity, he, ih hr]

theorem map_addQuantity_set (x : Ingredient) (stock : List Ingredient)
    (hnd : (stock.map Ingredient.name).Nodup) (i : Nat) (hi : i < stock.length)
    (hname : (stock.get ⟨i, hi⟩).name = x.name) :
    stock.map (KitchenStation.addQuantity x)
      = stock.set i { stock.get ⟨i, hi⟩ with
          quantity := wrapInt ((stock.get ⟨i, hi⟩).quantity + x.quantity) } := by
  induction stock generalizing i with
  | nil => simp at hi
  | cons e rest ih =>
    rw [List.map_cons, List.nodup_cons] at hnd
    cases i with
    | zero =>
      have he : e.name = x.name := hname
      have hr : ∀ a ∈ rest, a.name ≠ x.name := by
        intro a ha hax
        exact hnd.1 (List.mem_map.2 ⟨a, ha, hax.trans he.symm⟩)
      simp [KitchenStation.addQuantity, he, map_addQuantity_absent x rest hr]
    | succ j =>
      have hj : j < rest.length := by simpa using hi
      have hjn : (rest.get ⟨j, hj⟩).name = x.name := hname
      have he : e.name ≠ x.name := by
        intro hex
        exact hnd.1 (List.mem_map.2 ⟨rest.get ⟨j, hj⟩, List.get_mem _ _ _, hjn.trans hex.symm⟩)
      have := ih hnd.2 j hj hjn
      simp [KitchenStation.addQuantity, he] at this ⊢
      exact this

theorem replenish_stock_present (s : KitchenStation) (x : Ingredient)
    (h : ∃ e ∈ s.ingredients_stock_, e.name = x.name) :
    (s.replenishStationIngredients x).ingredients_stock_
      = s.ingredients_stock_.map (KitchenStation.addQuantity x) := by
  have hin := (inStock_iff _ _).2 h
  simp [KitchenStation.replenishStationIngredients, hin]

theorem replenish_stock_absent (s : KitchenStation) (x : Ingredient)
    (h : ∀ e ∈ s.ingredients_stock_, e.name ≠ x.name) :
    (s.replenishStationIngredients x).ingredients_stock_ = s.ingredients_stock_ ++ [x] := by
  have hin : KitchenStation.inStock s.ingredients_stock_ x.name = false := by
    rw [Bool.eq_false_iff, Ne, inStock_iff]
    rintro ⟨e, he, hen⟩
    exact h e he hen
  simp [KitchenStation.replenishStationIngredients, hin, map_addQuantity_absent x _ h]

/-- C9, amended: on a stock with pairwise distinct names,
`replenishStationIngredients(x)` replaces the entry named `x.name`, when there
is one and the sum of its quantity and `x.quantity` is in the range of `int`,
by the same entry with `x.quantity` added to its quantity (nothing else in the
stock changes), and appends `x` as the last entry when there is none; dish list
and station name are unchanged. -/
theorem replenishStationIngredients_spec (s : KitchenStation) (x : Ingredient)
    (hnd : (s.ingredients_stock_.map Ingredient.name).Nodup) :
    (∀ (i : Nat) (hi : i < s.ingredients_stock_.length),
        (s.ingredients_stock_.get ⟨i, hi⟩).name = x.name →
        INT_MIN ≤ (s.ingredients_stock_.get ⟨i, hi⟩).quantity + x.quantity →
        (s.ingredients_stock_.get ⟨i, hi⟩).quantity + x.quantity ≤ INT_MAX →
        (s.replenishStationIngredients x).ingredients_stock_
          = s.ingredients_stock_.set i { s.ingredients_stock_.get ⟨i, hi⟩ with
              quantity := (s.ingredients_stock_.get ⟨i, hi⟩).quantity + x.quantity }) ∧
    ((∀ e ∈ s.ingredients_stock_, e.name ≠ x.name) →
        (s.replenishStationIngredients x).ingredients_stock_ = s.ingredients_stock_ ++ [x]) ∧
    (s.replenishStationIngredients x).dishes_ = s.dishes_ ∧
    (s.replenishStationIngredients x).station_name_ = s.station_name_ := by
  refine ⟨?_, ?_, ?_, ?_⟩
  · intro i hi hname hmin hmax
    rw [replenish_stock_present s x ⟨_, List.get_mem _ _ _, hname⟩,
      map_addQuantity_set x _ hnd i hi hname, wrapInt_of_inRange _ hmin hmax]
  · intro h
    exact replenish_stock_absent s x h
  · unfold KitchenStation.replenishStationIngredients
    split <;> rfl
  · unfold KitchenStation.replenishStationIngredients
    split <;> rfl

/-- C10, amended: when the stock has no entry named `n`, `x` and `y` are both
named `n` and `x.quantity + y.quantity` is in the range of `int`, replenishing
`x` and then `y` leaves exactly one entry named `n`, the entry `x` with
quantity `x.quantity + y.quantity`. -/
theorem replenishStationIngredients_twice (s : KitchenStation) (x y : Ingredient) (n : String)
    (hx : x.name = n) (hy : y.name = n) (hno : ∀ e ∈ s.ingredients_stock_, e.name ≠ n)
    (hmin : INT_MIN ≤ x.quantity + y.quantity) (hmax : x.quantity + y.quantity ≤ INT_MAX) :
    ((s.replenishStationIngredients x).replenishStationIngredients y).ingredients_stock_.filter
        (fun e => decide (e.name = n))
      = [{ x with quantity := x.quantity + y.quantity }] := by
  subst hx
  have hs1 := replenish_stock_absent s x hno
  have hno2 : ∀ e ∈ s.ingredients_stock_, e.name ≠ y.name := fun e he => hy ▸ hno e he
  have hs2 : ((s.replenishStationIngredients x).replenishStationIngredients y).ingredients_stock_
      = s.ingredients_stock_ ++ [{ x with quantity := x.quantity + y.quantity }] := by
    rw [replenish_stock_present _ y ⟨x, by simp [hs1], hy.symm⟩, hs1, List.map_append,
      map_addQuantity_absent y _ hno2]
    simp [KitchenStation.addQuantity, hy, wrapInt_of_inRange _ hmin hmax]
  rw [hs2, List.filter_append]
  have hf : s.ingredients_stock_.filter (fun e => decide (e.name = x.name)) = [] := by
    rw [List.filter_eq_nil_iff]
    intro e he
    simpa using hno e he
  simp [hf]

/-- C5: `prepareDish(n)` returns what `canCompleteOrder(n)` returns on the
state before the call, and a call that returns `false` leaves the whole
station (name, dish list, ingredient stock) unchanged. -/
theorem prepareDish_returns_canCompleteOrder (D : DishStore) (s : KitchenStation) (n : String) :
    (s.prepareDish D n).1 = s.canCompleteOrder D n ∧
    ((s.prepareDish D n).1 = false → (s.prepareDish D n).2 = s) := by
  unfold KitchenStation.prepareDish
  by_cases h : s.canCompleteOrder D n = true
  · simp [h]
  · simp [h]

/-! ## The loops that erase while they iterate

The two index loops are given as many iterations as the list is long.  The
lemmas below show that this is enough: each loop ends because its index
reaches the end of the list, and what it leaves is the list described by
`afterDeplete`, respectively `afterUnlink`. -/

theorem depleteFrom_of_length_le (name : String) (fuel k : Nat) (stock : List Ingredient)
    (h : stock.length ≤ k) : KitchenStation.depleteFrom name fuel k stock = stock := by
  cases fuel with
  | zero => rfl
  | succ f =>
    have : ¬ k < stock.length := by omega
    simp [KitchenStation.depleteFrom, this]

theorem depleteFrom_eq (name : String) :
    ∀ (fuel : Nat) (pre suf : List Ingredient), suf.length ≤ fuel →
      KitchenStation.depleteFrom name fuel pre.length (pre ++ suf)
        = pre ++ KitchenStation.afterDeplete name suf := by
  intro fuel
  induction fuel with
  | zero =>
    intro pre suf h
    have : suf = [] := List.length_eq_zero.1 (Nat.le_zero.1 h)
    subst this
    simp [KitchenStation.depleteFrom, KitchenStation.afterDeplete]
  | succ f ih =>
    intro pre suf h
    cases suf with
    | nil =>
      rw [depleteFrom_of_length_le _ _ _ _ (by simp)]
      simp [KitchenStation.afterDeplete]
    | cons e rest =>
      have hlt : pre.length < (pre ++ e :: rest).length := by simp
      have hget : (pre ++ e :: rest).get ⟨pre.length, hlt⟩ = e := by
        simp only [List.get_eq_getElem]
        rw [List.getElem_append_right (le_refl _)]
        simp
      have hrem : (pre ++ e :: rest).eraseIdx pre.length = pre ++ rest := by
        rw [List.eraseIdx_append_of_length_le (le_refl _)]
        simp
      have hset : ∀ a : Ingredient, (pre ++ e :: rest).set pre.length a = pre ++ a :: rest := by
        intro a
        rw [List.set_append_right _ _ (le_refl _)]
        simp
      have hrest : rest.length ≤ f := by simpa using h
      have hkeep : ∀ a : Ingredient,
          KitchenStation.depleteFrom name f (pre.length + 1) (pre ++ a :: rest)
            = pre ++ a :: KitchenStation.afterDeplete name rest := by
        intro a
        have := ih (pre ++ [a]) rest hrest
        simpa only [List.length_append, List.length_singleton, List.append_assoc,
          List.singleton_append] using this
      rw [KitchenStation.depleteFrom]
      simp only [hlt, dif_pos, hget, hrem, hset]
      by_cases hn : name = e.name
      · rw [if_pos hn]
        by_cases hz : e.quantity - e.required_quantity = 0
        · rw [if_pos hz]
          cases rest with
          | nil =>
            rw [depleteFrom_of_length_le _ _ _ _ (by simp)]
            simp [KitchenStation.afterDeplete, if_pos hn, hz]
          | cons g rest2 =>
            have h2 : rest2.length ≤ f := by
              simp at hrest; omega
            have := ih (pre ++ [g]) rest2 h2
            simp only [List.length_append, List.length_singleton, List.append_assoc,
              List.singleton_append] at this
            rw [this]
            simp [KitchenStation.afterDeplete, if_pos hn, hz]
        · rw [if_neg hz, hkeep]
          cases rest with
          | nil => simp [KitchenStation.afterDeplete, if_pos hn, hz]
          | cons g rest2 => simp [KitchenStation.afterDeplete, if_pos hn, hz]
      · rw [if_neg hn, hkeep]
        cases rest with
        | nil => simp [KitchenStation.afterDeplete, if_neg hn]
        | cons g rest2 => simp [KitchenStation.afterDeplete, if_neg hn]

theorem deplete_eq (stock : List Ingredient) (name : String) :
    KitchenStation.deplete stock name = KitchenStation.afterDeplete name stock := by
  have := depleteFrom_eq name stock.length [] stock (le_refl _)
  simpa [KitchenStation.deplete] using this

theorem unlinkFrom_of_length_le (st : StationPtr → KitchenStation) (name : String)
    (fuel i : Nat) (items : List StationPtr) (h : items.length ≤ i) :
    StationManager.unlinkFrom st name fuel i items = items := by
  cases fuel with
  | zero => rfl
  | succ f =>
    have : ¬ i < LinkedList.getLength items := by simpa [LinkedList.getLength] using h
    simp [StationManager.unlinkFrom, this]

theorem unlinkFrom_eq (st : StationPtr → KitchenStation) (name : String) :
    ∀ (fuel : Nat) (pre suf : List StationPtr), suf.length ≤ fuel →
      StationManager.unlinkFrom st name fuel pre.length (pre ++ suf)
        = pre ++ StationManager.afterUnlink st name suf := by
  intro fuel
  induction fuel with
  | zero =>
    intro pre suf h
    have : suf = [] := List.length_eq_zero.1 (Nat.le_zero.1 h)
    subst this
    simp [StationManager.unlinkFrom, StationManager.afterUnlink]
  | succ f ih =>
    intro pre suf h
    cases suf with
    | nil =>
      rw [unlinkFrom_of_length_le _ _ _ _ _ (by simp)]
      simp [StationManager.afterUnlink]
    | cons p rest =>
      have hlt : pre.length < LinkedList.getLength (pre ++ p :: rest) := by
        simp [LinkedList.getLength]
      have hget : LinkedList.getEntry (pre ++ p :: rest) pre.length hlt = p := by
        simp only [LinkedList.getEntry, List.get_eq_getElem]
        rw [List.getElem_append_right (le_refl _)]
        simp
      have hrem : (LinkedList.remove (pre ++ p :: rest) pre.length).2 = pre ++ rest := by
        have : pre.length < (pre ++ p :: rest).length := hlt
        simp only [LinkedList.remove, this, if_true]
        rw [List.eraseIdx_append_of_length_le (le_refl _)]
        simp
      rw [StationManager.unlinkFrom]
      simp only [hlt, dif_pos, hget, hrem]
      have hrest : rest.length ≤ f := by simpa using h
      by_cases hn : name = (st p).getName
      · rw [if_pos hn]
        cases rest with
        | nil =>
          rw [unlinkFrom_of_length_le _ _ _ _ _ (by simp)]
          simp [StationManager.afterUnlink, if_pos hn]
        | cons q rest2 =>
          have h2 : rest2.length ≤ f := by
            simp at hrest; omega
          have := ih (pre ++ [q]) rest2 h2
          simp only [List.length_append, List.length_singleton, List.append_assoc,
            List.singleton_append] at this
          rw [this]
          simp [StationManager.afterUnlink, if_pos hn]
      · rw [if_neg hn]
        have := ih (pre ++ [p]) rest hrest
        simp only [List.length_append, List.length_singleton, List.append_assoc,
          List.singleton_append] at this
        rw [this]
        cases rest with
        | nil => simp [StationManager.afterUnlink, hn]
        | cons q rest2 => simp [StationManager.afterUnlink, hn]

theorem unlinkNamed_eq (st : StationPtr → KitchenStation) (name : String)
    (items : List StationPtr) :
    StationManager.unlinkNamed st name items = StationManager.afterUnlink st name items := by
  have := unlinkFrom_eq st name items.length [] items (le_refl _)
  simpa [StationManager.unlinkNamed, LinkedList.getLength] using this

/-! ## `StationManager.mergeStations` -/

/-! ### names are stable -/

theorem assign_name (D : DishStore) (s : KitchenStation) (d : DishPtr) :
    (s.assignDishToStation D d).2.station_name_ = s.station_name_ := by
  unfold KitchenStation.assignDishToStation
  split <;> rfl

theorem assign_stock (D : DishStore) (s : KitchenStation) (d : DishPtr) :
    (s.assignDishToStation D d).2.ingredients_stock_ = s.ingredients_stock_ := by
  unfold KitchenStation.assignDishToStation
  split <;> rfl

theorem replenish_name (s : KitchenStation) (x : Ingredient) :
    (s.replenishStationIngredients x).station_name_ = s.station_name_ := by
  unfold KitchenStation.replenishStationIngredients
  split <;> rfl

theorem replenish_dishes (s : KitchenStation) (x : Ingredient) :
    (s.replenishStationIngredients x).dishes_ = s.dishes_ := by
  unfold KitchenStation.replenishStationIngredients
  split <;> rfl

theorem assignEach_name (D : DishStore) (ds : List DishPtr) :
    ∀ s : KitchenStation, (s.assignEach D ds).station_name_ = s.station_name_ := by
  induction ds with
  | nil => intro s; rfl
  | cons d rest ih =>
    intro s
    simp only [KitchenStation.assignEach, List.foldl_cons] at ih ⊢
    rw [ih, assign_name]

theorem assignEach_stock (D : DishStore) (ds : List DishPtr) :
    ∀ s : KitchenStation, (s.assignEach D ds).ingredients_stock_ = s.ingredients_stock_ := by
  induction ds with
  | nil => intro s; rfl
  | cons d rest ih =>
    intro s
    simp only [KitchenStation.assignEach, List.foldl_cons] at ih ⊢
    rw [ih, assign_stock]

theorem replenishEach_name (xs : List Ingredient) :
    ∀ s : KitchenStation, (s.replenishEach xs).station_name_ = s.station_name_ := by
  induction xs with
  | nil => intro s; rfl
  | cons x rest ih =>
    intro s
    simp only [KitchenStation.replenishEach, List.foldl_cons] at ih ⊢
    rw [ih, replenish_name]

theorem replenishEach_dishes (xs : List Ingredient) :
    ∀ s : KitchenStation, (s.replenishEach xs).dishes_ = s.dishes_ := by
  induction xs with
  | nil => intro s; rfl
  | cons x rest ih =>
    intro s
    simp only [KitchenStation.replenishEach, List.foldl_cons] at ih ⊢
    rw [ih, replenish_dishes]

/-! ### the loops of `mergeStations` write to `station1` only -/

theorem assignAll_eq (D : DishStore) (p1 : StationPtr) (ds : List DishPtr) :
    ∀ st : StationPtr → KitchenStation,
      StationManager.assignAll D st p1 ds = Function.update st p1 ((st p1).assignEach D ds) := by
  induction ds with
  | nil =>
    intro st
    simp [StationManager.assignAll, KitchenStation.assignEach]
  | cons d rest ih =>
    intro st
    simp only [StationManager.assignAll, KitchenStation.assignEach, List.foldl_cons] at ih ⊢
    rw [ih]
    simp

theorem replenishAll_eq (p1 : StationPtr) (xs : List Ingredient) :
    ∀ st : StationPtr → KitchenStation,
      StationManager.replenishAll st p1 xs = Function.update st p1 ((st p1).replenishEach xs) := by
  induction xs with
  | nil =>
    intro st
    simp [StationManager.replenishAll, KitchenStation.replenishEach]
  | cons x rest ih =>
    intro st
    simp only [StationManager.replenishAll, KitchenStation.replenishEach, List.foldl_cons] at ih ⊢
    rw [ih]
    simp

/-- What `mergeStations` does when both lookups succeed. -/
theorem mergeStations_found (D : DishStore) (m : StationManager) (n1 n2 : String)
    (p1 p2 : StationPtr) (h1 : m.findStation n1 = some p1) (h2 : m.findStation n2 = some p2) :
    StationManager.mergeStations D m n1 n2
      = (true,
          { items := StationManager.afterUnlink m.stations (m.stations p2).getName m.items,
            stations :=
              let st1 := Function.update m.stations p1
                ((m.stations p1).assignEach D (m.stations p2).dishes_)
              Function.update st1 p1 ((st1 p1).replenishEach (st1 p2).ingredients_stock_) }) := by
  simp only [StationManager.mergeStations, h1, h2, unlinkNamed_eq, assignAll_eq, replenishAll_eq,
    KitchenStation.getDishes, KitchenStation.getIngredientsStock]

theorem mergeStations_fst (D : DishStore) (m : StationManager) (n1 n2 : String) :
    (StationManager.mergeStations D m n1 n2).1 = true ↔
      (m.findStation n1 ≠ none ∧ m.findStation n2 ≠ none) := by
  unfold StationManager.mergeStations
  cases h1 : m.findStation n1 <;> cases h2 : m.findStation n2 <;> simp

theorem findStation_some_name (m : StationManager) (n : String) (p : StationPtr)
    (h : m.findStation n = some p) : (m.stations p).getName = n ∧ p ∈ m.items := by
  unfold StationManager.findStation at h
  have h1 := List.find?_some h
  have h2 := List.mem_of_find?_eq_some h
  exact ⟨by simpa using h1, h2⟩

theorem mergeStations_name (D : DishStore) (m : StationManager) (n1 n2 : String)
    (p : StationPtr) :
    ((StationManager.mergeStations D m n1 n2).2.stations p).getName = (m.stations p).getName := by
  cases h1 : m.findStation n1 with
  | none => simp [StationManager.mergeStations, h1]
  | some p1 =>
    cases h2 : m.findStation n2 with
    | none => simp [StationManager.mergeStations, h1, h2]
    | some p2 =>
      rw [mergeStations_found D m n1 n2 p1 p2 h1 h2]
      by_cases hp : p = p1
      · subst hp
        simp [KitchenStation.getName, replenishEach_name, assignEach_name]
      · simp [Function.update_noteq hp]

/-! ### what the unlinking loop leaves -/

theorem noNeighboursNamed_cons_cons (st : StationPtr → KitchenStation) (name : String)
    (a b : StationPtr) (rest : List StationPtr)
    (h : StationManager.noNeighboursNamed st name (a :: b :: rest) = true) :
    ¬ ((st a).getName = name ∧ (st b).getName = name) ∧
      StationManager.noNeighboursNamed st name (b :: rest) = true := by
  simp only [StationManager.noNeighboursNamed, Bool.and_eq_true, Bool.not_eq_true',
    Bool.and_eq_false_iff, decide_eq_false_iff_not, decide_eq_true_eq] at h
  refine ⟨?_, h.2⟩
  rintro ⟨ha, hb⟩
  rcases h.1 with h1 | h1
  · exact h1 ha
  · exact h1 hb

theorem noNeighboursNamed_tail (st : StationPtr → KitchenStation) (name : String)
    (b : StationPtr) (rest : List StationPtr)
    (h : StationManager.noNeighboursNamed st name (b :: rest) = true) :
    StationManager.noNeighboursNamed st name rest = true := by
  cases rest with
  | nil => rfl
  | cons c rest2 => exact (noNeighboursNamed_cons_cons st name b c rest2 h).2

theorem afterUnlink_no_name (st : StationPtr → KitchenStation) (name : String) :
    ∀ (n : Nat) (items : List StationPtr), items.length ≤ n →
      StationManager.noNeighboursNamed st name items = true →
      ∀ p ∈ StationManager.afterUnlink st name items, (st p).getName ≠ name := by
  intro n
  induction n with
  | zero =>
    intro items h _ p hp
    have : items = [] := List.length_eq_zero.1 (Nat.le_zero.1 h)
    subst this
    simp [StationManager.afterUnlink] at hp
  | succ k ih =>
    intro items h hch p hp
    match items, h, hch, hp with
    | [], _, _, hp => simp [StationManager.afterUnlink] at hp
    | [a], _, _, hp =>
      by_cases hn : name = (st a).getName
      · simp [StationManager.afterUnlink, hn] at hp
      · simp only [StationManager.afterUnlink, if_neg hn, List.mem_singleton] at hp
        subst hp
        exact fun h => hn h.symm
    | a :: b :: rest, h, hch, hp =>
      have hch2 := noNeighboursNamed_cons_cons st name a b rest hch
      by_cases hn : name = (st a).getName
      · simp only [StationManager.afterUnlink, if_pos hn, List.mem_cons] at hp
        rcases hp with hp | hp
        · subst hp
          intro hb
          exact hch2.1 ⟨hn.symm, hb⟩
        · have hlen : rest.length ≤ k := by
            simp at h; omega
          exact ih rest hlen (noNeighboursNamed_tail st name b rest hch2.2) p hp
      · simp only [StationManager.afterUnlink, if_neg hn, List.mem_cons] at hp
        rcases hp with hp | hp
        · subst hp
          exact fun h => hn h.symm
        · have hlen : (b :: rest).length ≤ k := by
            simp at h ⊢; omega
          exact ih (b :: rest) hlen hch2.2 p hp

theorem find_afterUnlink_other (st : StationPtr → KitchenStation) (name other : String)
    (hne : other ≠ name) :
    ∀ (n : Nat) (items : List StationPtr), items.length ≤ n →
      (StationManager.afterUnlink st name items).find? (fun p => decide ((st p).getName = other))
        = items.find? (fun p => decide ((st p).getName = other)) := by
  intro n
  induction n with
  | zero =>
    intro items h
    have : items = [] := List.length_eq_zero.1 (Nat.le_zero.1 h)
    subst this
    simp [StationManager.afterUnlink]
  | succ k ih =>
    intro items h
    match items, h with
    | [], _ => simp [StationManager.afterUnlink]
    | [a], _ =>
      by_cases hn : name = (st a).getName
      · have : ¬ (st a).getName = other := fun h => hne (h.symm.trans hn.symm)
        simp [StationManager.afterUnlink, if_pos hn, this]
      · simp [StationManager.afterUnlink, if_neg hn]
    | a :: b :: rest, h =>
      by_cases hn : name = (st a).getName
      · have hlen : rest.length ≤ k := by
          simp at h; omega
        have ha : ¬ (st a).getName = other := fun h => hne (h.symm.trans hn.symm)
        simp only [StationManager.afterUnlink, if_pos hn, List.find?_cons, ih rest hlen]
        simp [ha]
      · have hlen : (b :: rest).length ≤ k := by
          simp at h ⊢; omega
        simp only [StationManager.afterUnlink, if_neg hn]
        rw [List.find?_cons, ih (b :: rest) hlen]
        simp only [List.find?_cons]

theorem findStation_congr (m m2 : StationManager) (n : String)
    (hitems : m2.items = m.items)
    (hname : ∀ p, (m2.stations p).getName = (m.stations p).getName) :
    m2.findStation n = m.findStation n := by
  unfold StationManager.findStation
  rw [hitems]
  congr 1
  funext p
  rw [hname]

theorem mergeStations_items (D : DishStore) (m : StationManager) (A B : String)
    (p1 p2 : StationPtr) (h1 : m.findStation A = some p1) (h2 : m.findStation B = some p2) :
    (StationManager.mergeStations D m A B).2.items
      = StationManager.afterUnlink m.stations B m.items := by
  rw [mergeStations_found D m A B p1 p2 h1 h2, (findStation_some_name m B p2 h2).1]

theorem noNeighboursNamed_of_countP_le_one (st : StationPtr → KitchenStation) (name : String)
    (items : List StationPtr)
    (h : items.countP (fun p => decide ((st p).getName = name)) ≤ 1) :
    StationManager.noNeighboursNamed st name items = true := by
  induction items with
  | nil => rfl
  | cons a rest ih =>
    cases rest with
    | nil => rfl
    | cons b rest2 =>
      have hrest : (b :: rest2).countP (fun p => decide ((st p).getName = name)) ≤ 1 := by
        rw [List.countP_cons] at h
        omega
      have hboth : ¬ ((st a).getName = name ∧ (st b).getName = name) := by
        rintro ⟨ha, hb⟩
        simp only [List.countP_cons, ha, hb, decide_True, if_true] at h
        omega
      simp only [StationManager.noNeighboursNamed, ih hrest, Bool.and_true, Bool.not_eq_true',
        Bool.and_eq_false_iff, decide_eq_false_iff_not]
      by_cases ha : (st a).getName = name
      · exact Or.inr (fun hb => hboth ⟨ha, hb⟩)
      · exact Or.inl ha

/-- C1, amended: when `findStation(A)` and `findStation(B)` are both non-null
and exactly one station in the list is named `B`, `findStation(B)` is
`nullptr` after `mergeStations(A, B)` has returned `true`. -/
theorem mergeStations_findStation_second (D : DishStore) (m : StationManager) (A B : String)
    (hA : m.findStation A ≠ none) (hB : m.findStation B ≠ none)
    (hone : m.items.countP (fun p => decide ((m.stations p).getName = B)) = 1)
    (_hret : (StationManager.mergeStations D m A B).1 = true) :
    (StationManager.mergeStations D m A B).2.findStation B = none := by
  obtain ⟨p1, h1⟩ := Option.ne_none_iff_exists'.1 hA
  obtain ⟨p2, h2⟩ := Option.ne_none_iff_exists'.1 hB
  have hname := mergeStations_name D m A B
  have hadj := noNeighboursNamed_of_countP_le_one m.stations B m.items (le_of_eq hone)
  unfold StationManager.findStation
  rw [List.find?_eq_none]
  intro p hp
  rw [mergeStations_items D m A B p1 p2 h1 h2] at hp
  have := afterUnlink_no_name m.stations B m.items.length m.items (le_refl _) hadj p hp
  simpa [hname] using this

/-! ### dishes taken over by `assignEach` -/

theorem assign_dishes_mem (D : DishStore) (s : KitchenStation) (d a : DishPtr)
    (ha : a ∈ s.dishes_) : a ∈ (s.assignDishToStation D d).2.dishes_ := by
  unfold KitchenStation.assignDishToStation
  split
  · exact ha
  · exact List.mem_append_left _ ha

theorem assign_dishes_sub (D : DishStore) (s : KitchenStation) (d a : DishPtr)
    (ha : a ∈ (s.assignDishToStation D d).2.dishes_) : a ∈ s.dishes_ ∨ a = d := by
  unfold KitchenStation.assignDishToStation at ha
  split at ha
  · exact Or.inl ha
  · simpa using ha

theorem assign_name_covered (D : DishStore) (s : KitchenStation) (d : DishPtr) :
    ∃ a ∈ (s.assignDishToStation D d).2.dishes_, (D a).name_ = (D d).name_ := by
  unfold KitchenStation.assignDishToStation
  by_cases h : KitchenStation.nameAssigned D s.dishes_ d = true
  · obtain ⟨p, hp, hpn⟩ := (nameAssigned_iff D s.dishes_ d).1 h
    exact ⟨p, by simp [h, hp], hpn⟩
  · exact ⟨d, by simp [h], rfl⟩

theorem assign_mem_of_fresh (D : DishStore) (s : KitchenStation) (d : DishPtr)
    (h : ∀ a ∈ s.dishes_, (D a).name_ ≠ (D d).name_) :
    d ∈ (s.assignDishToStation D d).2.dishes_ := by
  have hn : ¬ KitchenStation.nameAssigned D s.dishes_ d = true := by
    rw [nameAssigned_iff]
    rintro ⟨p, hp, hpn⟩
    exact h p hp hpn
  simp [KitchenStation.assignDishToStation, hn]

theorem assignEach_cons (D : DishStore) (s : KitchenStation) (d : DishPtr) (ds : List DishPtr) :
    s.assignEach D (d :: ds) = (s.assignDishToStation D d).2.assignEach D ds := rfl

theorem assignEach_dishes_mem (D : DishStore) (ds : List DishPtr) :
    ∀ (s : KitchenStation) (a : DishPtr), a ∈ s.dishes_ → a ∈ (s.assignEach D ds).dishes_ := by
  induction ds with
  | nil => intro s a ha; exact ha
  | cons d rest ih =>
    intro s a ha
    rw [assignEach_cons]
    exact ih _ a (assign_dishes_mem D s d a ha)

theorem assignEach_name_covered (D : DishStore) (ds : List DishPtr) :
    ∀ (s : KitchenStation), ∀ d ∈ ds,
      ∃ a ∈ (s.assignEach D ds).dishes_, (D a).name_ = (D d).name_ := by
  induction ds with
  | nil => intro s d hd; simp at hd
  | cons x rest ih =>
    intro s d hd
    rw [assignEach_cons]
    rcases List.mem_cons.1 hd with hdx | hdr
    · subst hdx
      obtain ⟨a, ha, han⟩ := assign_name_covered D s d
      exact ⟨a, assignEach_dishes_mem D rest _ a ha, han⟩
    · exact ih _ d hdr

theorem assignEach_mem_of_fresh (D : DishStore) (ds : List DishPtr) :
    ∀ (s : KitchenStation), ∀ d ∈ ds,
      (∀ a ∈ s.dishes_, (D a).name_ ≠ (D d).name_) →
      (∀ d2 ∈ ds, (D d2).name_ = (D d).name_ → d2 = d) →
      d ∈ (s.assignEach D ds).dishes_ := by
  induction ds with
  | nil => intro s d hd; simp at hd
  | cons x rest ih =>
    intro s d hd hfresh huniq
    rw [assignEach_cons]
    by_cases hxd : x = d
    · subst hxd
      exact assignEach_dishes_mem D rest _ x (assign_mem_of_fresh D s x hfresh)
    · have hdr : d ∈ rest := by
        rcases List.mem_cons.1 hd with h | h
        · exact absurd h.symm hxd
        · exact h
      have hxn : (D x).name_ ≠ (D d).name_ :=
        fun h => hxd (huniq x (List.mem_cons_self _ _) h)
      apply ih _ d hdr
      · intro a ha
        rcases assign_dishes_sub D s x a ha with h | h
        · exact hfresh a h
        · rw [h]; exact hxn
      · intro d2 hd2 h
        exact huniq d2 (List.mem_cons_of_mem _ hd2) h

/-- The state of `station1` after `mergeStations` when it is not `station2`. -/
theorem mergeStations_station1 (D : DishStore) (m : StationManager) (A B : String)
    (p1 p2 : StationPtr) (h1 : m.findStation A = some p1) (h2 : m.findStation B = some p2)
    (hne : p1 ≠ p2) :
    (StationManager.mergeStations D m A B).2.stations p1
      = ((m.stations p1).assignEach D (m.stations p2).dishes_).replenishEach
          (m.stations p2).ingredients_stock_ := by
  rw [mergeStations_found D m A B p1 p2 h1 h2]
  simp [Function.update_noteq (Ne.symm hne)]

theorem mergeStations_findStation_first (D : DishStore) (m : StationManager) (A B : String)
    (p1 p2 : StationPtr) (h1 : m.findStation A = some p1) (h2 : m.findStation B = some p2)
    (hne : A ≠ B) :
    (StationManager.mergeStations D m A B).2.findStation A = some p1 := by
  have hname := mergeStations_name D m A B
  have hitems := mergeStations_items D m A B p1 p2 h1 h2
  rw [← h1]
  unfold StationManager.findStation
  rw [hitems]
  have hfun : (fun p => decide (((StationManager.mergeStations D m A B).2.stations p).getName = A))
      = (fun p => decide ((m.stations p).getName = A)) := by
    funext p
    rw [hname]
  rw [hfun]
  exact find_afterUnlink_other m.stations B A hne m.items.length m.items (le_refl _)

/-- C2, amended: for two different names `A` and `B` of stations in the list,
after `mergeStations(A, B)` the station found under `A` is the same as before
and, for every dish `d` that was in the dish list of `B`: the dish list of `A`
holds a dish named like `d`, and it holds `d` itself when no dish of `A` had
that name before the call and no other dish of `B` has it. -/
theorem mergeStations_takes_over_dishes (D : DishStore) (m : StationManager) (A B : String)
    (p1 p2 : StationPtr)
    (h1 : m.findStation A = some p1) (h2 : m.findStation B = some p2) (hne : A ≠ B) :
    (StationManager.mergeStations D m A B).2.findStation A = some p1 ∧
    ∀ d ∈ (m.stations p2).getDishes,
      (∃ a ∈ ((StationManager.mergeStations D m A B).2.stations p1).getDishes,
        (D a).name_ = (D d).name_) ∧
      ((∀ a ∈ (m.stations p1).getDishes, (D a).name_ ≠ (D d).name_) →
        (∀ d2 ∈ (m.stations p2).getDishes, (D d2).name_ = (D d).name_ → d2 = d) →
        d ∈ ((StationManager.mergeStations D m A B).2.stations p1).getDishes) := by
  have hp : p1 ≠ p2 := by
    intro h
    subst h
    exact hne ((findStation_some_name m A p1 h1).1.symm.trans (findStation_some_name m B p1 h2).1)
  refine ⟨mergeStations_findStation_first D m A B p1 p2 h1 h2 hne, ?_⟩
  intro d hd
  rw [mergeStations_station1 D m A B p1 p2 h1 h2 hp]
  simp only [KitchenStation.getDishes, replenishEach_dishes] at hd ⊢
  exact ⟨assignEach_name_covered D _ _ d hd, assignEach_mem_of_fresh D _ _ d hd⟩

/-! ### the stock built up by `replenishEach`, one name at a time -/

theorem addQuantity_name (x e : Ingredient) : (KitchenStation.addQuantity x e).name = e.name := by
  unfold KitchenStation.addQuantity
  split <;> rfl

theorem filter_map_addQuantity_other (x : Ingredient) (n : String) (hn : x.name ≠ n)
    (l : List Ingredient) :
    (l.map (KitchenStation.addQuantity x)).filter (fun e => decide (e.name = n))
      = l.filter (fun e => decide (e.name = n)) := by
  induction l with
  | nil => rfl
  | cons e rest ih =>
    by_cases he : e.name = n
    · have hex : e.name ≠ x.name := fun h => hn (h.symm.trans he)
      have hadd : KitchenStation.addQuantity x e = e := by
        simp [KitchenStation.addQuantity, hex]
      simp [List.filter_cons, hadd, he, ih]
    · have : (KitchenStation.addQuantity x e).name ≠ n := by
        rw [addQuantity_name]; exact he
      simp [List.filter_cons, this, he, ih]

theorem filter_map_addQuantity_same (x : Ingredient) (l : List Ingredient) :
    (l.map (KitchenStation.addQuantity x)).filter (fun e => decide (e.name = x.name))
      = (l.filter (fun e => decide (e.name = x.name))).map
          (fun e => { e with quantity := wrapInt (e.quantity + x.quantity) }) := by
  induction l with
  | nil => rfl
  | cons e rest ih =>
    by_cases he : e.name = x.name
    · have hadd : KitchenStation.addQuantity x e
          = { e with quantity := wrapInt (e.quantity + x.quantity) } := by
        simp [KitchenStation.addQuantity, he]
      simp [List.filter_cons, hadd, he, ih]
    · have : (KitchenStation.addQuantity x e).name ≠ x.name := by
        rw [addQuantity_name]; exact he
      simp [List.filter_cons, this, he, ih]

theorem replenish_filter_other (s : KitchenStation) (x : Ingredient) (n : String)
    (hn : x.name ≠ n) :
    (s.replenishStationIngredients x).ingredients_stock_.filter (fun e => decide (e.name = n))
      = s.ingredients_stock_.filter (fun e => decide (e.name = n)) := by
  unfold KitchenStation.replenishStationIngredients
  split
  · exact filter_map_addQuantity_other x n hn _
  · simp [List.filter_append, filter_map_addQuantity_other x n hn, hn]

theorem replenishEach_cons (s : KitchenStation) (x : Ingredient) (xs : List Ingredient) :
    s.replenishEach (x :: xs) = (s.replenishStationIngredients x).replenishEach xs := rfl

theorem replenishEach_filter_other (n : String) (xs : List Ingredient)
    (hn : ∀ x ∈ xs, x.name ≠ n) :
    ∀ s : KitchenStation,
      (s.replenishEach xs).ingredients_stock_.filter (fun e => decide (e.name = n))
        = s.ingredients_stock_.filter (fun e => decide (e.name = n)) := by
  induction xs with
  | nil => intro s; rfl
  | cons x rest ih =>
    intro s
    rw [replenishEach_cons, ih (fun y hy => hn y (List.mem_cons_of_mem _ hy)),
      replenish_filter_other s x n (hn x (List.mem_cons_self _ _))]

theorem filter_name_length_le_one (n : String) (l : List Ingredient)
    (hnd : (l.map Ingredient.name).Nodup) :
    (l.filter (fun e => decide (e.name = n))).length ≤ 1 := by
  induction l with
  | nil => simp
  | cons e rest ih =>
    rw [List.map_cons, List.nodup_cons] at hnd
    by_cases he : e.name = n
    · have hrest : rest.filter (fun a => decide (a.name = n)) = [] := by
        rw [List.filter_eq_nil_iff]
        intro a ha
        have : a.name ≠ n := fun h => hnd.1 (List.mem_map.2 ⟨a, ha, h.trans he.symm⟩)
        simpa using this
      simp [List.filter_cons, he, hrest]
    · simpa [List.filter_cons, he] using ih hnd.2

theorem replenish_filter_same (s : KitchenStation) (x : Ingredient)
    (hlen : (s.ingredients_stock_.filter (fun e => decide (e.name = x.name))).length ≤ 1)
    (hmin : INT_MIN ≤ KitchenStation.quantityOf s.ingredients_stock_ x.name + x.quantity)
    (hmax : KitchenStation.quantityOf s.ingredients_stock_ x.name + x.quantity ≤ INT_MAX) :
    ∃ e, (s.replenishStationIngredients x).ingredients_stock_.filter
          (fun e => decide (e.name = x.name)) = [e] ∧
      e.quantity = KitchenStation.quantityOf s.ingredients_stock_ x.name + x.quantity := by
  by_cases hin : ∃ e ∈ s.ingredients_stock_, e.name = x.name
  · rw [replenish_stock_present s x hin, filter_map_addQuantity_same]
    unfold KitchenStation.quantityOf at hmin hmax ⊢
    generalize hf : s.ingredients_stock_.filter (fun e => decide (e.name = x.name)) = fl
      at hlen hmin hmax
    rcases fl with _ | ⟨a, _ | ⟨b, rest⟩⟩
    · obtain ⟨e, he, hen⟩ := hin
      have : e ∈ s.ingredients_stock_.filter (fun e => decide (e.name = x.name)) := by
        simp [List.mem_filter, he, hen]
      rw [hf] at this
      simp at this
    · exact ⟨_, rfl, wrapInt_of_inRange _ hmin hmax⟩
    · simp at hlen
  · have habs : ∀ e ∈ s.ingredients_stock_, e.name ≠ x.name := fun e he hen => hin ⟨e, he, hen⟩
    have hf : s.ingredients_stock_.filter (fun e => decide (e.name = x.name)) = [] := by
      rw [List.filter_eq_nil_iff]
      intro e he
      simpa using habs e he
    rw [replenish_stock_absent s x habs]
    refine ⟨x, by simp [List.filter_append, hf], ?_⟩
    simp [KitchenStation.quantityOf, hf]

theorem replenishEach_filter (xs : List Ingredient) (hnd : (xs.map Ingredient.name).Nodup) :
    ∀ (s : KitchenStation), ∀ b ∈ xs,
      (s.ingredients_stock_.filter (fun e => decide (e.name = b.name))).length ≤ 1 →
      INT_MIN ≤ KitchenStation.quantityOf s.ingredients_stock_ b.name + b.quantity →
      KitchenStation.quantityOf s.ingredients_stock_ b.name + b.quantity ≤ INT_MAX →
      ∃ e, (s.replenishEach xs).ingredients_stock_.filter
            (fun e => decide (e.name = b.name)) = [e] ∧
        e.quantity = KitchenStation.quantityOf s.ingredients_stock_ b.name + b.quantity := by
  induction xs with
  | nil => intro s b hb; simp at hb
  | cons x rest ih =>
    intro s b hb hlen hmin hmax
    rw [List.map_cons, List.nodup_cons] at hnd
    rw [replenishEach_cons]
    by_cases hxb : x = b
    · subst hxb
      have hrest : ∀ y ∈ rest, y.name ≠ x.name :=
        fun y hy h => hnd.1 (List.mem_map.2 ⟨y, hy, h⟩)
      rw [replenishEach_filter_other x.name rest hrest]
      exact replenish_filter_same s x hlen hmin hmax
    · have hbr : b ∈ rest := by
        rcases List.mem_cons.1 hb with h | h
        · exact absurd h.symm hxb
        · exact h
      have hxn : x.name ≠ b.name :=
        fun h => hnd.1 (List.mem_map.2 ⟨b, hbr, h.symm⟩)
      have hsame := replenish_filter_other s x b.name hxn
      have := ih hnd.2 (s.replenishStationIngredients x) b hbr (by rw [hsame]; exact hlen)
        (by simpa only [KitchenStation.quantityOf, hsame] using hmin)
        (by simpa only [KitchenStation.quantityOf, hsame] using hmax)
      simpa only [KitchenStation.quantityOf, hsame] using this

/-! ### stock entries that `replenishEach` does not touch -/

theorem replenish_getElem_other (s : KitchenStation) (x a : Ingredient) (i : Nat)
    (hi : s.ingredients_stock_[i]? = some a) (hne : x.name ≠ a.name) :
    (s.replenishStationIngredients x).ingredients_stock_[i]? = some a := by
  have hlt : i < s.ingredients_stock_.length := by
    by_contra h
    rw [List.getElem?_eq_none (by omega)] at hi
    exact Option.noConfusion hi
  have hax : ¬ a.name = x.name := fun h => hne h.symm
  have hadd : KitchenStation.addQuantity x a = a := by
    simp [KitchenStation.addQuantity, hax]
  have hmap : (s.ingredients_stock_.map (KitchenStation.addQuantity x))[i]? = some a := by
    rw [List.getElem?_map, hi, Option.map_some', hadd]
  unfold KitchenStation.replenishStationIngredients
  split
  · exact hmap
  · show (s.ingredients_stock_.map (KitchenStation.addQuantity x) ++ [x])[i]? = some a
    rw [List.getElem?_append_left (by simpa using hlt)]
    exact hmap

theorem replenishEach_getElem_other (xs : List Ingredient) (a : Ingredient) (i : Nat)
    (hne : ∀ x ∈ xs, x.name ≠ a.name) :
    ∀ s : KitchenStation, s.ingredients_stock_[i]? = some a →
      (s.replenishEach xs).ingredients_stock_[i]? = some a := by
  induction xs with
  | nil => intro s h; exact h
  | cons x rest ih =>
    intro s h
    rw [replenishEach_cons]
    exact ih (fun y hy => hne y (List.mem_cons_of_mem _ hy)) _
      (replenish_getElem_other s x a i h (hne x (List.mem_cons_self _ _)))

/-- C3, amended: for two different stations `A` and `B` of the manager whose
stocks have pairwise distinct names, after `mergeStations(A, B)` the stock of
`A` holds, for every name in the former stock of `B` for which the former
quantity of `A` under that name (`0` if none) plus the quantity of `B` is in the
range of `int`, exactly one entry of that name, with that sum as its quantity;
every entry of `A` whose name is not in the stock of `B` is unchanged and in
its old place. -/
theorem mergeStations_adds_stock (D : DishStore) (m : StationManager) (A B : String)
    (p1 p2 : StationPtr)
    (h1 : m.findStation A = some p1) (h2 : m.findStation B = some p2) (hne : p1 ≠ p2)
    (hndA : ((m.stations p1).getIngredientsStock.map Ingredient.name).Nodup)
    (hndB : ((m.stations p2).getIngredientsStock.map Ingredient.name).Nodup) :
    (∀ b ∈ (m.stations p2).getIngredientsStock,
      INT_MIN
        ≤ KitchenStation.quantityOf (m.stations p1).getIngredientsStock b.name + b.quantity →
      KitchenStation.quantityOf (m.stations p1).getIngredientsStock b.name + b.quantity
        ≤ INT_MAX →
      ∃ e, ((StationManager.mergeStations D m A B).2.stations p1).getIngredientsStock.filter
            (fun a => decide (a.name = b.name)) = [e] ∧
        e.quantity
          = KitchenStation.quantityOf (m.stations p1).getIngredientsStock b.name + b.quantity) ∧
    (∀ (i : Nat) (a : Ingredient), (m.stations p1).getIngredientsStock[i]? = some a →
      (∀ b ∈ (m.stations p2).getIngredientsStock, b.name ≠ a.name) →
      ((StationManager.mergeStations D m A B).2.stations p1).getIngredientsStock[i]? = some a) := by
  rw [mergeStations_station1 D m A B p1 p2 h1 h2 hne]
  simp only [KitchenStation.getIngredientsStock] at hndA hndB ⊢
  constructor
  · intro b hb hmin hmax
    have hlen := filter_name_length_le_one b.name _ hndA
    have := replenishEach_filter _ hndB ((m.stations p1).assignEach D (m.stations p2).dishes_) b hb
      (by rw [assignEach_stock]; exact hlen) (by rw [assignEach_stock]; exact hmin)
      (by rw [assignEach_stock]; exact hmax)
    simpa only [assignEach_stock] using this
  · intro i a hi hb
    exact replenishEach_getElem_other _ a i hb _ (by rw [assignEach_stock]; exact hi)

/-! ### the stock left by `prepareDish` -/

theorem afterDeplete_absent (g : String) (l : List Ingredient) (h : ∀ e ∈ l, e.name ≠ g) :
    KitchenStation.afterDeplete g l = l := by
  induction l with
  | nil => rfl
  | cons e rest ih =>
    have he : ¬ g = e.name := fun hg => h e (List.mem_cons_self _ _) hg.symm
    have hr := ih (fun a ha => h a (List.mem_cons_of_mem _ ha))
    cases rest with
    | nil => simp [KitchenStation.afterDeplete, he]
    | cons f rest2 => simp [KitchenStation.afterDeplete, he, hr]

theorem filterMap_use_absent (g : String) (l : List Ingredient) (h : ∀ e ∈ l, e.name ≠ g) :
    l.filterMap (fun e => if e.name = g then KitchenStation.usedOnce e else some e) = l := by
  induction l with
  | nil => rfl
  | cons e rest ih =>
    have he : ¬ e.name = g := h e (List.mem_cons_self _ _)
    simp [List.filterMap_cons, he, ih (fun a ha => h a (List.mem_cons_of_mem _ ha))]

theorem afterDeplete_nodup (g : String) (l : List Ingredient)
    (hnd : (l.map Ingredient.name).Nodup) :
    KitchenStation.afterDeplete g l
      = l.filterMap (fun e => if e.name = g then KitchenStation.usedOnce e else some e) := by
  induction l with
  | nil => rfl
  | cons e rest ih =>
    rw [List.map_cons, List.nodup_cons] at hnd
    by_cases he : g = e.name
    · have hr : ∀ a ∈ rest, a.name ≠ g := by
        intro a ha hag
        exact hnd.1 (List.mem_map.2 ⟨a, ha, hag.trans he⟩)
      rw [List.filterMap_cons, if_pos he.symm, filterMap_use_absent g rest hr]
      cases rest with
      | nil =>
        by_cases hz : e.quantity - e.required_quantity = 0
        · simp [KitchenStation.afterDeplete, KitchenStation.usedOnce, he, hz]
        · simp [KitchenStation.afterDeplete, KitchenStation.usedOnce, he, hz]
      | cons f rest2 =>
        have h2 : KitchenStation.afterDeplete g rest2 = rest2 :=
          afterDeplete_absent g rest2 (fun a ha => hr a (List.mem_cons_of_mem _ ha))
        have h3 : KitchenStation.afterDeplete g (f :: rest2) = f :: rest2 :=
          afterDeplete_absent g (f :: rest2) hr
        by_cases hz : e.quantity - e.required_quantity = 0
        · simp only [KitchenStation.afterDeplete, if_pos he, if_pos hz, h2,
            KitchenStation.usedOnce]
        · simp only [KitchenStation.afterDeplete, if_pos he, if_neg hz, h3,
            KitchenStation.usedOnce]
    · have he2 : ¬ e.name = g := fun h => he h.symm
      rw [List.filterMap_cons, if_neg he2, ← ih hnd.2]
      cases rest with
      | nil => simp [KitchenStation.afterDeplete, he]
      | cons f rest2 => simp [KitchenStation.afterDeplete, he]

theorem usedOnce_name (e a : Ingredient) (h : KitchenStation.usedOnce e = some a) :
    a.name = e.name := by
  unfold KitchenStation.usedOnce at h
  split at h
  · exact Option.noConfusion h
  · have := Option.some.inj h
    rw [← this]

theorem filterMap_use_names_sublist (g : String) (l : List Ingredient) :
    ((l.filterMap (fun e => if e.name = g then KitchenStation.usedOnce e else some e)).map
        Ingredient.name).Sublist (l.map Ingredient.name) := by
  induction l with
  | nil => simp
  | cons e rest ih =>
    rw [List.filterMap_cons]
    split
    · exact ih.trans (by simp)
    · rename_i a ha
      have hname : a.name = e.name := by
        by_cases he : e.name = g
        · rw [if_pos he] at ha
          exact usedOnce_name e a ha
        · rw [if_neg he] at ha
          rw [← Option.some.inj ha]
      rw [List.map_cons, List.map_cons, hname]
      exact ih.cons₂ _

theorem foldl_deplete (gs : List Ingredient) (hgs : (gs.map Ingredient.name).Nodup) :
    ∀ stock : List Ingredient, (stock.map Ingredient.name).Nodup →
      gs.foldl (fun st g => KitchenStation.deplete st g.name) stock
        = KitchenStation.stockAfterPreparing (gs.map Ingredient.name) stock := by
  induction gs with
  | nil =>
    intro stock _
    simp [KitchenStation.stockAfterPreparing]
  | cons g rest ih =>
    intro stock hnd
    rw [List.map_cons, List.nodup_cons] at hgs
    rw [List.foldl_cons, deplete_eq, afterDeplete_nodup g.name stock hnd,
      ih hgs.2 _ ((filterMap_use_names_sublist g.name stock).nodup hnd)]
    unfold KitchenStation.stockAfterPreparing
    rw [List.filterMap_filterMap]
    apply List.filterMap_congr
    intro e _
    by_cases he : e.name = g.name
    · have hin : e.name ∉ rest.map Ingredient.name := by rw [he]; exact hgs.1
      simp only [if_pos he, List.map_cons, List.mem_cons, he, true_or, if_true]
      cases hu : KitchenStation.usedOnce e with
      | none => rfl
      | some a =>
        have han : a.name = e.name := usedOnce_name e a hu
        have : a.name ∉ rest.map Ingredient.name := by rw [han]; exact hin
        simp only [Option.some_bind, if_neg this]
    · simp [he]

theorem lastIngredients_eq (D : DishStore) (n : String) (pre post : List DishPtr) (p : DishPtr)
    (hp : (D p).name_ = n) (hpost : ∀ q ∈ post, (D q).name_ ≠ n) :
    KitchenStation.lastIngredients D n (pre ++ p :: post) = (D p).ingredients_ := by
  unfold KitchenStation.lastIngredients
  rw [List.foldl_append, List.foldl_cons, if_pos hp]
  generalize (D p).ingredients_ = acc
  induction post generalizing acc with
  | nil => rfl
  | cons q rest ih =>
    rw [List.foldl_cons, if_neg (hpost q (List.mem_cons_self _ _))]
    exact ih (fun a ha => hpost a (List.mem_cons_of_mem _ ha)) acc

theorem lastIngredients_unique (D : DishStore) (n : String) (p : DishPtr)
    (dishes : List DishPtr) (huniq : ∀ q ∈ dishes, (D q).name_ = n → q = p) :
    ∀ acc : List Ingredient,
      dishes.foldl (fun ingre q => if (D q).name_ = n then (D q).ingredients_ else ingre) acc
        = if ∃ q ∈ dishes, (D q).name_ = n then (D p).ingredients_ else acc := by
  induction dishes with
  | nil => intro acc; simp
  | cons q rest ih =>
    intro acc
    have hrest : ∀ a ∈ rest, (D a).name_ = n → a = p :=
      fun a ha => huniq a (List.mem_cons_of_mem _ ha)
    rw [List.foldl_cons, ih hrest]
    by_cases hq : (D q).name_ = n
    · have hqp : q = p := huniq q (List.mem_cons_self _ _) hq
      have hex : ∃ a ∈ q :: rest, (D a).name_ = n := ⟨q, List.mem_cons_self _ _, hq⟩
      rw [if_pos hq, if_pos hex, hqp]
      split <;> rfl
    · rw [if_neg hq]
      by_cases hex : ∃ a ∈ rest, (D a).name_ = n
      · have hex2 : ∃ a ∈ q :: rest, (D a).name_ = n := by
          obtain ⟨a, ha, han⟩ := hex
          exact ⟨a, List.mem_cons_of_mem _ ha, han⟩
        rw [if_pos hex, if_pos hex2]
      · have hex2 : ¬ ∃ a ∈ q :: rest, (D a).name_ = n := by
          rintro ⟨a, ha, han⟩
          rcases List.mem_cons.1 ha with h | h
          · rw [h] at han; exact hq han
          · exact hex ⟨a, h, han⟩
        rw [if_neg hex, if_neg hex2]

theorem stockScan_eq_some_true (g : String) (stock : List Ingredient) :
    ∀ found : Bool, KitchenStation.stockScan g stock found = some true ↔
      (∀ e ∈ stock, e.name = g → ¬ e.quantity < e.required_quantity) ∧
      (found = true ∨ ∃ e ∈ stock, e.name = g) := by
  induction stock with
  | nil => intro found; simp [KitchenStation.stockScan]
  | cons e rest ih =>
    intro found
    by_cases he : g = e.name
    · by_cases hq : e.quantity < e.required_quantity
      · simp only [KitchenStation.stockScan, if_pos he, if_pos hq]
        constructor
        · intro h; exact Option.noConfusion h
        · intro h
          exact absurd hq (h.1 e (List.mem_cons_self _ _) he.symm)
      · simp only [KitchenStation.stockScan, if_pos he, if_neg hq]
        rw [ih true]
        constructor
        · intro h
          refine ⟨?_, Or.inr ⟨e, List.mem_cons_self _ _, he.symm⟩⟩
          intro a ha han
          rcases List.mem_cons.1 ha with h1 | h1
          · rw [h1]; exact hq
          · exact h.1 a h1 han
        · intro h
          exact ⟨fun a ha han => h.1 a (List.mem_cons_of_mem _ ha) han, Or.inl rfl⟩
    · simp only [KitchenStation.stockScan, if_neg he]
      rw [ih found]
      have he2 : ¬ e.name = g := fun h => he h.symm
      constructor
      · rintro ⟨h1, h2⟩
        refine ⟨?_, ?_⟩
        · intro a ha han
          rcases List.mem_cons.1 ha with h3 | h3
          · rw [h3] at han; exact absurd han he2
          · exact h1 a h3 han
        · rcases h2 with h2 | ⟨a, ha, han⟩
          · exact Or.inl h2
          · exact Or.inr ⟨a, List.mem_cons_of_mem _ ha, han⟩
      · rintro ⟨h1, h2⟩
        refine ⟨fun a ha han => h1 a (List.mem_cons_of_mem _ ha) han, ?_⟩
        rcases h2 with h2 | ⟨a, ha, han⟩
        · exact Or.inl h2
        · rcases List.mem_cons.1 ha with h3 | h3
          · rw [h3] at han; exact absurd han he2
          · exact Or.inr ⟨a, h3, han⟩

theorem allInStock_iff (stock ingre : List Ingredient) :
    KitchenStation.allInStock stock ingre = true ↔
      ∀ g ∈ ingre, (∀ e ∈ stock, e.name = g.name → ¬ e.quantity < e.required_quantity) ∧
        ∃ e ∈ stock, e.name = g.name := by
  induction ingre with
  | nil => simp [KitchenStation.allInStock]
  | cons g rest ih =>
    have hscan := stockScan_eq_some_true g.name stock false
    simp only [Bool.false_eq_true, false_or] at hscan
    have hcons : KitchenStation.allInStock stock (g :: rest)
        = match KitchenStation.stockScan g.name stock false with
          | some true => KitchenStation.allInStock stock rest
          | _ => false := rfl
    rw [List.forall_mem_cons, ← ih, ← hscan, hcons]
    cases h : KitchenStation.stockScan g.name stock false with
    | none => simp
    | some b => cases b <;> simp

theorem firstIngredients_eq (D : DishStore) (n : String) (pre post : List DishPtr) (p : DishPtr)
    (hpre : ∀ q ∈ pre, (D q).name_ ≠ n) (hp : (D p).name_ = n) :
    KitchenStation.firstIngredients D n (pre ++ p :: post) = (D p).ingredients_ := by
  induction pre with
  | nil => simp [KitchenStation.firstIngredients, hp]
  | cons q rest ih =>
    have hq : ¬ (D q).name_ = n := hpre q (List.mem_cons_self _ _)
    simp only [List.cons_append, KitchenStation.firstIngredients, if_neg hq]
    exact ih (fun a ha => hpre a (List.mem_cons_of_mem _ ha))

theorem firstIngredients_absent (D : DishStore) (n : String) (dishes : List DishPtr)
    (h : ∀ q ∈ dishes, (D q).name_ ≠ n) :
    KitchenStation.firstIngredients D n dishes = [] := by
  induction dishes with
  | nil => rfl
  | cons q rest ih =>
    have hq : ¬ (D q).name_ = n := h q (List.mem_cons_self _ _)
    simp only [KitchenStation.firstIngredients, if_neg hq]
    exact ih (fun a ha => h a (List.mem_cons_of_mem _ ha))

/-- With pairwise distinct stock names, for the first assigned dish named `n`,
when it has at least one ingredient: `canCompleteOrder(n)` is `true` exactly
when every ingredient of the dish has a stock entry of its name whose quantity
is not below its `required_quantity`. -/
theorem canCompleteOrder_iff (D : DishStore) (s : KitchenStation) (n : String)
    (pre post : List DishPtr) (p : DishPtr)
    (hstock : (s.ingredients_stock_.map Ingredient.name).Nodup)
    (hdishes : s.dishes_ = pre ++ p :: post)
    (hpre : ∀ q ∈ pre, (D q).name_ ≠ n) (hp : (D p).name_ = n)
    (hing : (D p).ingredients_ ≠ []) :
    s.canCompleteOrder D n = true ↔
      ∀ g ∈ (D p).ingredients_, ∃ e ∈ s.ingredients_stock_,
        e.name = g.name ∧ ¬ e.quantity < e.required_quantity := by
  unfold KitchenStation.canCompleteOrder
  rw [hdishes, firstIngredients_eq D n pre post p hpre hp]
  have hlen : ¬ (D p).ingredients_.length = 0 := fun h => hing (List.length_eq_zero.1 h)
  simp only [if_neg hlen]
  rw [allInStock_iff]
  constructor
  · intro h g hg
    obtain ⟨hall, e, he, hen⟩ := h g hg
    exact ⟨e, he, hen, hall e he hen⟩
  · intro h g hg
    obtain ⟨e, he, hen, hq⟩ := h g hg
    refine ⟨?_, e, he, hen⟩
    intro a ha han
    have : a = e := List.inj_on_of_nodup_map hstock ha he (han.trans hen.symm)
    rw [this]; exact hq

/-- A dish that is not assigned cannot be completed. -/
theorem canCompleteOrder_absent (D : DishStore) (s : KitchenStation) (n : String)
    (h : ∀ q ∈ s.dishes_, (D q).name_ ≠ n) : s.canCompleteOrder D n = false := by
  unfold KitchenStation.canCompleteOrder
  rw [firstIngredients_absent D n s.dishes_ h]
  rfl

/-! ## The claims at concrete states -/

/-- C1 fails as stated: with stations "A", "B", "B" in the list, both lookups
succeed and `mergeStations("A","B")` returns `true`, yet `findStation("B")`
still finds a station afterwards (the second "B", which the loop skipped). -/
theorem merge_leaves_neighbour_named_B :
    exampleThreeStations.findStation "A" ≠ none ∧
    exampleThreeStations.findStation "B" ≠ none ∧
    (mergeStations exampleDishes exampleThreeStations "A" "B").1 = true ∧
    (mergeStations exampleDishes exampleThreeStations "A" "B").2.findStation "B" ≠ none := by
  decide

/-- Witness for C1, amended: the manager with the two stations "A" and "B". -/
theorem mergeStations_findStation_second_witness :
    (exampleTwoStations.findStation "A" ≠ none ∧
      exampleTwoStations.findStation "B" ≠ none ∧
      exampleTwoStations.items.countP
        (fun p => decide ((exampleTwoStations.stations p).getName = "B")) = 1 ∧
      (mergeStations exampleDishes exampleTwoStations "A" "B").1 = true) ∧
    (mergeStations exampleDishes exampleTwoStations "A" "B").2.findStation "B" = none :=
  ⟨by decide, mergeStations_findStation_second exampleDishes exampleTwoStations "A" "B"
    (by decide) (by decide) (by decide) (by decide)⟩

/-- C2 fails as stated: station "B" holds the dish at address `1`, named
"Soup"; station "A" already holds another dish named "Soup", so after
`mergeStations("A","B")` the dish at address `1` is not in the dish list of
the station found under "A". -/
theorem merge_drops_second_soup :
    exampleTwoStations.findStation "A" = some 0 ∧
    exampleTwoStations.findStation "B" = some 1 ∧
    1 ∈ (exampleTwoStations.stations 1).getDishes ∧
    (mergeStations exampleDishes exampleTwoStations "A" "B").2.findStation "A" = some 0 ∧
    1 ∉ ((mergeStations exampleDishes exampleTwoStations "A" "B").2.stations 0).getDishes := by
  decide

/-- Witness for C2, amended: the dish "Stew" of station "B" is taken over. -/
theorem mergeStations_takes_over_dishes_witness :
    (exampleTwoStations.findStation "A" = some 0 ∧
      exampleTwoStations.findStation "B" = some 1 ∧ "A" ≠ "B") ∧
    3 ∈ ((mergeStations exampleDishes exampleTwoStations "A" "B").2.stations 0).getDishes :=
  ⟨by decide,
    ((mergeStations_takes_over_dishes exampleDishes exampleTwoStations "A" "B" 0 1
      (by decide) (by decide) (by decide)).2 3 (by decide)).2 (by decide) (by decide)⟩

/-- C3 fails as stated: "A" holds `INT_MAX` of salt and "B" one more unit; after
`mergeStations("A", "B")` the single entry "Salt" of "A" has the quantity
`INT_MIN`, not the sum of the two quantities. -/
theorem merge_full_salt_wraps_around :
    (exampleFullStations.findStation "A" = some 0 ∧
      exampleFullStations.findStation "B" = some 1 ∧ (0 : StationPtr) ≠ 1 ∧
      ((exampleFullStations.stations 0).getIngredientsStock.map Ingredient.name).Nodup ∧
      ((exampleFullStations.stations 1).getIngredientsStock.map Ingredient.name).Nodup) ∧
    quantityOf (exampleFullStations.stations 0).getIngredientsStock "Salt" + 1 = 2147483648 ∧
    ((mergeStations exampleDishes exampleFullStations "A" "B").2.stations
        0).getIngredientsStock.filter (fun a => decide (a.name = "Salt"))
      = [⟨"Salt", -2147483648, 1, 2⟩] := by
  decide

/-- Witness for C3: merging "B" into "A" in the manager with these two
stations; the entry "Salt" of "B" meets the entry "Salt" of "A". -/
theorem mergeStations_adds_stock_witness :
    (exampleTwoStations.findStation "A" = some 0 ∧
      exampleTwoStations.findStation "B" = some 1 ∧ (0 : StationPtr) ≠ 1 ∧
      ((exampleTwoStations.stations 0).getIngredientsStock.map Ingredient.name).Nodup ∧
      ((exampleTwoStations.stations 1).getIngredientsStock.map Ingredient.name).Nodup ∧
      INT_MIN ≤ quantityOf (exampleTwoStations.stations 0).getIngredientsStock "Salt" + 3 ∧
      quantityOf (exampleTwoStations.stations 0).getIngredientsStock "Salt" + 3 ≤ INT_MAX) ∧
    ∃ e, ((mergeStations exampleDishes exampleTwoStations "A" "B").2.stations
            0).getIngredientsStock.filter
          (fun a => decide (a.name = "Salt")) = [e] ∧
      e.quantity
        = quantityOf (exampleTwoStations.stations 0).getIngredientsStock "Salt" + 3 :=
  ⟨by decide,
    (mergeStations_adds_stock exampleDishes exampleTwoStations "A" "B" 0 1
      (by decide) (by decide) (by decide) (by decide) (by decide)).1 ⟨"Salt", 3, 1, 2⟩
      (by decide) (by decide) (by decide)⟩

/-- C4 at a dish without ingredients: "Water" is assigned and each of its (no)
ingredients is in stock, yet `canCompleteOrder("Water")` returns `false`. -/
theorem canCompleteOrder_water :
    exampleWaterStation.canCompleteOrder exampleDishes "Water" = false ∧
    ∃ p ∈ exampleWaterStation.dishes_, (exampleDishes p).name_ = "Water" ∧
      ∀ g ∈ (exampleDishes p).ingredients_, ∃ e ∈ exampleWaterStation.ingredients_stock_,
        e.name = g.name ∧ ¬ e.quantity < e.required_quantity := by
  refine ⟨by decide, 2, by decide, by decide, ?_⟩
  intro g hg
  simp [exampleDishes] at hg

/-- Witness for C8: the two dishes named "Soup", assigned to a station. -/
theorem assignDishToStation_same_name_again_witness :
    (exampleDishes 0).name_ = (exampleDishes 1).name_ ∧
    (((exampleWaterStation.assignDishToStation exampleDishes 0).2.assignDishToStation
        exampleDishes 1).1 = false ∧
      ((exampleWaterStation.assignDishToStation exampleDishes 0).2.assignDishToStation
        exampleDishes 1).2.dishes_.length
        = (exampleWaterStation.assignDishToStation exampleDishes 0).2.dishes_.length) :=
  ⟨by decide, assignDishToStation_same_name_again exampleDishes exampleWaterStation 0 1
    (by decide)⟩

/-- C9 fails as stated: the entry "Salt" holds `INT_MAX`, and
`replenishStationIngredients` with one more unit of salt leaves it with the
quantity `INT_MIN`, not with the sum. -/
theorem replenish_full_salt_wraps_around :
    ((exampleFullSaltStation.ingredients_stock_.map Ingredient.name).Nodup ∧
      (exampleFullSaltStation.ingredients_stock_.get ⟨0, by decide⟩).name = "Salt") ∧
    (exampleFullSaltStation.replenishStationIngredients ⟨"Salt", 1, 1, 2⟩).ingredients_stock_
      = [⟨"Salt", -2147483648, 1, 2⟩] ∧
    (exampleFullSaltStation.replenishStationIngredients ⟨"Salt", 1, 1, 2⟩).ingredients_stock_
      ≠ exampleFullSaltStation.ingredients_stock_.set 0
          { exampleFullSaltStation.ingredients_stock_.get ⟨0, by decide⟩ with
            quantity :=
              (exampleFullSaltStation.ingredients_stock_.get ⟨0, by decide⟩).quantity + 1 } := by
  decide

/-- Witness for C9: more rice for a station that has rice as its second entry. -/
theorem replenishStationIngredients_spec_witness :
    ((exampleStewStation.ingredients_stock_.map Ingredient.name).Nodup ∧
      (exampleStewStation.ingredients_stock_.get ⟨1, by decide⟩).name = "Rice" ∧
      INT_MIN ≤ (exampleStewStation.ingredients_stock_.get ⟨1, by decide⟩).quantity + 4 ∧
      (exampleStewStation.ingredients_stock_.get ⟨1, by decide⟩).quantity + 4 ≤ INT_MAX) ∧
    (exampleStewStation.replenishStationIngredients ⟨"Rice", 4, 2, 1⟩).ingredients_stock_
      = exampleStewStation.ingredients_stock_.set 1
          { exampleStewStation.ingredients_stock_.get ⟨1, by decide⟩ with
            quantity := (exampleStewStation.ingredients_stock_.get ⟨1, by decide⟩).quantity + 4 } :=
  ⟨by decide,
    (replenishStationIngredients_spec exampleStewStation ⟨"Rice", 4, 2, 1⟩ (by decide)).1 1
      (by decide) (by decide) (by decide) (by decide)⟩

/-- C10 fails as stated: a station without salt is replenished with `INT_MAX`
of salt and then with one more unit; its single entry "Salt" has the quantity
`INT_MIN`, not the sum of the two quantities. -/
theorem replenish_twice_wraps_around :
    ((⟨"Salt", 2147483647, 1, 2⟩ : Ingredient).name = "Salt" ∧
      (⟨"Salt", 1, 1, 2⟩ : Ingredient).name = "Salt" ∧
      ∀ e ∈ exampleWaterStation.ingredients_stock_, e.name ≠ "Salt") ∧
    ((exampleWaterStation.replenishStationIngredients
        ⟨"Salt", 2147483647, 1, 2⟩).replenishStationIngredients
        ⟨"Salt", 1, 1, 2⟩).ingredients_stock_.filter (fun e => decide (e.name = "Salt"))
      = [⟨"Salt", -2147483648, 1, 2⟩] ∧
    (⟨"Salt", 2147483647, 1, 2⟩ : Ingredient).quantity + (⟨"Salt", 1, 1, 2⟩ : Ingredient).quantity
      ≠ -2147483648 := by
  decide

/-- Witness for C10: salt twice for a station that has none. -/
theorem replenishStationIngredients_twice_witness :
    ((⟨"Salt", 3, 1, 2⟩ : Ingredient).name = "Salt" ∧
      (⟨"Salt", 4, 1, 2⟩ : Ingredient).name = "Salt" ∧
      (∀ e ∈ exampleWaterStation.ingredients_stock_, e.name ≠ "Salt") ∧
      INT_MIN ≤ (3 : Int) + 4 ∧ (3 : Int) + 4 ≤ INT_MAX) ∧
    ((exampleWaterStation.replenishStationIngredients ⟨"Salt", 3, 1, 2⟩).replenishStationIngredients
        ⟨"Salt", 4, 1, 2⟩).ingredients_stock_.filter (fun e => decide (e.name = "Salt"))
      = [{ (⟨"Salt", 3, 1, 2⟩ : Ingredient) with quantity := 3 + 4 }] :=
  ⟨by decide,
    replenishStationIngredients_twice exampleWaterStation ⟨"Salt", 3, 1, 2⟩ ⟨"Salt", 4, 1, 2⟩
      "Salt" (by decide) (by decide) (by decide) (by decide) (by decide)⟩

/-! ## The scanning loop of the manager -/

theorem scanFrom_none {β : Type} (st : StationPtr → KitchenStation) (n : String)
    (items : List StationPtr) (onMatch : Nat → StationPtr → β) (onEnd : β)
    (h : ∀ q ∈ items, (st q).getName ≠ n) :
    ∀ fuel i : Nat, StationManager.scanFrom st n items onMatch onEnd fuel i = onEnd := by
  intro fuel
  induction fuel with
  | zero => intro i; rfl
  | succ f ih =>
    intro i
    rw [StationManager.scanFrom]
    by_cases hi : i < LinkedList.getLength items
    · have hne : ¬ (st (LinkedList.getEntry items i hi)).getName = n :=
        h _ (List.get_mem _ _ _)
      simp only [hi, dif_pos, hne, if_false]
      exact ih (i + 1)
    · simp only [hi, dif_neg, not_false_eq_true]

theorem scanFrom_succ {β : Type} (st : StationPtr → KitchenStation) (n : String)
    (items : List StationPtr) (onMatch : Nat → StationPtr → β) (onEnd : β) (fuel i : Nat)
    (a : StationPtr) (h : items[i]? = some a) :
    StationManager.scanFrom st n items onMatch onEnd (fuel + 1) i
      = if (st a).getName = n then onMatch i a
        else StationManager.scanFrom st n items onMatch onEnd fuel (i + 1) := by
  obtain ⟨hi, ha⟩ := List.getElem?_eq_some.1 h
  have hlt : i < LinkedList.getLength items := hi
  have hget : LinkedList.getEntry items i hlt = a := by
    simpa [LinkedList.getEntry] using ha
  rw [StationManager.scanFrom]
  simp only [hlt, dif_pos, hget]

theorem drop_eq_cons {α : Type} (items : List α) (i : Nat) (a : α) (t : List α)
    (h : items.drop i = a :: t) : items[i]? = some a ∧ items.drop (i + 1) = t := by
  constructor
  · have := List.getElem?_drop (L := items) (i := i) (j := 0)
    rw [h] at this
    simpa using this.symm
  · have : items.drop (i + 1) = (items.drop i).drop 1 := by
      rw [List.drop_drop, Nat.add_comm]
    rw [this, h]
    rfl

theorem scanFrom_found {β : Type} (st : StationPtr → KitchenStation) (n : String)
    (items : List StationPtr) (onMatch : Nat → StationPtr → β) (onEnd : β) (p : StationPtr)
    (post : List StationPtr) (hp : (st p).getName = n) :
    ∀ (pre : List StationPtr) (i fuel : Nat), items.drop i = pre ++ p :: post →
      (∀ q ∈ pre, (st q).getName ≠ n) → pre.length < fuel →
      StationManager.scanFrom st n items onMatch onEnd fuel i = onMatch (i + pre.length) p := by
  intro pre
  induction pre with
  | nil =>
    intro i fuel hdrop _ hfuel
    obtain ⟨f, rfl⟩ : ∃ f, fuel = f + 1 := ⟨fuel - 1, by simp at hfuel; omega⟩
    rw [scanFrom_succ st n items onMatch onEnd f i p (drop_eq_cons items i p post hdrop).1,
      if_pos hp]
    rfl
  | cons a rest ih =>
    intro i fuel hdrop hpre hfuel
    obtain ⟨f, rfl⟩ : ∃ f, fuel = f + 1 := ⟨fuel - 1, by simp at hfuel; omega⟩
    have ha : ¬ (st a).getName = n := hpre a (List.mem_cons_self _ _)
    obtain ⟨hget, hdrop2⟩ := drop_eq_cons items i a (rest ++ p :: post) hdrop
    rw [scanFrom_succ st n items onMatch onEnd f i a hget, if_neg ha,
      ih (i + 1) f hdrop2 (fun q hq => hpre q (List.mem_cons_of_mem _ hq))
        (by simp at hfuel; omega)]
    congr 1
    simp only [List.length_cons]
    omega

/-- The loop started at index `0` with `getLength()` iterations allowed finds
the first entry named `n`. -/
theorem scan_found {β : Type} (st : StationPtr → KitchenStation) (n : String)
    (onMatch : Nat → StationPtr → β) (onEnd : β) (pre post : List StationPtr) (p : StationPtr)
    (hpre : ∀ q ∈ pre, (st q).getName ≠ n) (hp : (st p).getName = n) :
    StationManager.scanFrom st n (pre ++ p :: post) onMatch onEnd
        (LinkedList.getLength (pre ++ p :: post)) 0
      = onMatch pre.length p := by
  have := scanFrom_found st n (pre ++ p :: post) onMatch onEnd p post hp pre 0
    (LinkedList.getLength (pre ++ p :: post)) rfl hpre (by simp [LinkedList.getLength])
  simpa using this

/-- A list either has no entry named `n` or splits at its first entry named `n`. -/
theorem split_first_named (st : StationPtr → KitchenStation) (n : String)
    (items : List StationPtr) :
    (∀ q ∈ items, (st q).getName ≠ n) ∨
    ∃ pre p post, items = pre ++ p :: post ∧ (∀ q ∈ pre, (st q).getName ≠ n) ∧
      (st p).getName = n := by
  induction items with
  | nil => left; simp
  | cons a rest ih =>
    by_cases ha : (st a).getName = n
    · right
      exact ⟨[], a, rest, rfl, by simp, ha⟩
    · rcases ih with h | ⟨pre, p, post, hsplit, hpre, hp⟩
      · left
        intro q hq
        rcases List.mem_cons.1 hq with h1 | h1
        · rw [h1]; exact ha
        · exact h q h1
      · right
        refine ⟨a :: pre, p, post, by rw [hsplit]; rfl, ?_, hp⟩
        intro q hq
        rcases List.mem_cons.1 hq with h1 | h1
        · rw [h1]; exact ha
        · exact hpre q h1

theorem findStation_none_iff (m : StationManager) (n : String) :
    m.findStation n = none ↔ ∀ q ∈ m.items, (m.stations q).getName ≠ n := by
  unfold StationManager.findStation
  rw [List.find?_eq_none]
  simp

theorem findStation_first (m : StationManager) (n : String) (pre post : List StationPtr)
    (p : StationPtr) (hsplit : m.items = pre ++ p :: post)
    (hpre : ∀ q ∈ pre, (m.stations q).getName ≠ n) (hp : (m.stations p).getName = n) :
    m.findStation n = some p := by
  unfold StationManager.findStation
  rw [hsplit]
  clear hsplit
  induction pre with
  | nil => simp [hp]
  | cons a rest ih =>
    have ha : ¬ (m.stations a).getName = n := hpre a (List.mem_cons_self _ _)
    simp only [List.cons_append, List.find?_cons, ha, decide_False]
    exact ih (fun q hq => hpre q (List.mem_cons_of_mem _ hq))

/-- The loop of `findStation` computes `findStation`. -/
theorem findStationLoop_eq (m : StationManager) (n : String) :
    m.findStationLoop n = (m.findStation n, m) := by
  unfold StationManager.findStationLoop
  rcases split_first_named m.stations n m.items with h | ⟨pre, p, post, hsplit, hpre, hp⟩
  · rw [scanFrom_none m.stations n m.items _ _ h, (findStation_none_iff m n).2 h]
  · rw [findStation_first m n pre post p hsplit hpre hp, hsplit,
      scan_found m.stations n _ _ pre post p hpre hp]

/-! ## The list operations of the manager -/

theorem exists_named_iff_not_forall (st : StationPtr → KitchenStation) (n : String)
    (items : List StationPtr) :
    (∃ q ∈ items, (st q).getName = n) ↔ ¬ ∀ q ∈ items, (st q).getName ≠ n := by
  constructor
  · rintro ⟨q, hq, hn⟩ h
    exact h q hq hn
  · intro h
    by_contra hex
    exact h (fun q hq hn => hex ⟨q, hq, hn⟩)

theorem removeStation_none (m : StationManager) (n : String)
    (h : ∀ q ∈ m.items, (m.stations q).getName ≠ n) :
    m.removeStation n = (false, m) := by
  unfold StationManager.removeStation
  exact scanFrom_none m.stations n m.items _ _ h _ _

theorem removeStation_found (m : StationManager) (n : String) (pre post : List StationPtr)
    (p : StationPtr) (hsplit : m.items = pre ++ p :: post)
    (hpre : ∀ q ∈ pre, (m.stations q).getName ≠ n) (hp : (m.stations p).getName = n) :
    m.removeStation n = (true, { m with items := pre ++ post }) := by
  unfold StationManager.removeStation
  rw [hsplit, scan_found m.stations n _ _ pre post p hpre hp]
  have : pre.length < (pre ++ p :: post).length := by simp
  simp only [LinkedList.remove, this, if_true]
  rw [List.eraseIdx_append_of_length_le (le_refl _)]
  simp

theorem moveStationToFront_none (m : StationManager) (n : String)
    (h : ∀ q ∈ m.items, (m.stations q).getName ≠ n) :
    m.moveStationToFront n = (false, m) := by
  unfold StationManager.moveStationToFront
  exact scanFrom_none m.stations n m.items _ _ h _ _

theorem moveStationToFront_found (m : StationManager) (n : String) (pre post : List StationPtr)
    (p : StationPtr) (hsplit : m.items = pre ++ p :: post)
    (hpre : ∀ q ∈ pre, (m.stations q).getName ≠ n) (hp : (m.stations p).getName = n) :
    m.moveStationToFront n = (true, { m with items := p :: (pre ++ post) }) := by
  unfold StationManager.moveStationToFront
  rw [hsplit, scan_found m.stations n _ _ pre post p hpre hp]
  have : pre.length < (pre ++ p :: post).length := by simp
  simp only [LinkedList.remove, this, if_true]
  rw [List.eraseIdx_append_of_length_le (le_refl _)]
  simp [LinkedList.insert]

/-- C15: `findStation(n)` returns the first station in list order that is named
`n`, and `nullptr` exactly when no station of the list is named `n`; the loop of
the source computes this and leaves the manager as it was. -/
theorem findStation_spec (m : StationManager) (n : String) :
    (∀ (pre post : List StationPtr) (p : StationPtr), m.items = pre ++ p :: post →
      (∀ q ∈ pre, (m.stations q).getName ≠ n) → (m.stations p).getName = n →
      m.findStation n = some p) ∧
    (m.findStation n = none ↔ ∀ q ∈ m.items, (m.stations q).getName ≠ n) ∧
    m.findStationLoop n = (m.findStation n, m) :=
  ⟨fun pre post p => findStation_first m n pre post p, findStation_none_iff m n,
    findStationLoop_eq m n⟩

/-- C16: `removeStation(n)` returns `true` exactly when some station of the list
is named `n`; the list is then the old one without the first station named `n`,
the others in their order; when it returns `false` the list is unchanged. -/
theorem removeStation_spec (m : StationManager) (n : String) :
    ((m.removeStation n).1 = true ↔ ∃ q ∈ m.items, (m.stations q).getName = n) ∧
    (∀ (pre post : List StationPtr) (p : StationPtr), m.items = pre ++ p :: post →
      (∀ q ∈ pre, (m.stations q).getName ≠ n) → (m.stations p).getName = n →
      (m.removeStation n).2.items = pre ++ post) ∧
    ((m.removeStation n).1 = false → (m.removeStation n).2.items = m.items) := by
  refine ⟨?_, ?_, ?_⟩
  · rcases split_first_named m.stations n m.items with h | ⟨pre, p, post, hsplit, hpre, hp⟩
    · rw [removeStation_none m n h, exists_named_iff_not_forall]
      simpa using h
    · rw [removeStation_found m n pre post p hsplit hpre hp]
      simp only [true_iff]
      exact ⟨p, by rw [hsplit]; simp, hp⟩
  · intro pre post p hsplit hpre hp
    rw [removeStation_found m n pre post p hsplit hpre hp]
  · rcases split_first_named m.stations n m.items with h | ⟨pre, p, post, hsplit, hpre, hp⟩
    · rw [removeStation_none m n h]
      intro _; rfl
    · rw [removeStation_found m n pre post p hsplit hpre hp]
      intro hfalse
      exact Bool.noConfusion hfalse

/-- C17: `moveStationToFront(n)` returns `true` exactly when some station of the
list is named `n`; the first station named `n` is then at index `0`, followed by
the others in their order; when it returns `false` the list is unchanged; the
length never changes. -/
theorem moveStationToFront_spec (m : StationManager) (n : String) :
    ((m.moveStationToFront n).1 = true ↔ ∃ q ∈ m.items, (m.stations q).getName = n) ∧
    (∀ (pre post : List StationPtr) (p : StationPtr), m.items = pre ++ p :: post →
      (∀ q ∈ pre, (m.stations q).getName ≠ n) → (m.stations p).getName = n →
      (m.moveStationToFront n).2.items = p :: (pre ++ post)) ∧
    ((m.moveStationToFront n).1 = false → (m.moveStationToFront n).2.items = m.items) ∧
    (m.moveStationToFront n).2.items.length = m.items.length := by
  refine ⟨?_, ?_, ?_, ?_⟩
  · rcases split_first_named m.stations n m.items with h | ⟨pre, p, post, hsplit, hpre, hp⟩
    · rw [moveStationToFront_none m n h, exists_named_iff_not_forall]
      simpa using h
    · rw [moveStationToFront_found m n pre post p hsplit hpre hp]
      simp only [true_iff]
      exact ⟨p, by rw [hsplit]; simp, hp⟩
  · intro pre post p hsplit hpre hp
    rw [moveStationToFront_found m n pre post p hsplit hpre hp]
  · rcases split_first_named m.stations n m.items with h | ⟨pre, p, post, hsplit, hpre, hp⟩
    · rw [moveStationToFront_none m n h]
      intro _; rfl
    · rw [moveStationToFront_found m n pre post p hsplit hpre hp]
      intro hfalse
      exact Bool.noConfusion hfalse
  · rcases split_first_named m.stations n m.items with h | ⟨pre, p, post, hsplit, hpre, hp⟩
    · rw [moveStationToFront_none m n h]
    · rw [moveStationToFront_found m n pre post p hsplit hpre hp, hsplit]
      simp only [List.length_cons, List.length_append]
      omega

/-- C18: `addStation(s)` returns `true` and the list is the old one with `s`
appended as its last item, whatever names the list already holds. -/
theorem addStation_spec (m : StationManager) (station : StationPtr) :
    (m.addStation station).1 = true ∧
    (m.addStation station).2.items = m.items ++ [station] ∧
    (m.addStation station).2.stations = m.stations := by
  simp [StationManager.addStation, LinkedList.insert, LinkedList.getLength]

/-- C14: when no station is named `A` or no station is named `B`,
`mergeStations(A, B)` returns `false` and the manager (its list and every
station object) is unchanged. -/
theorem mergeStations_missing (D : DishStore) (m : StationManager) (A B : String)
    (h : (∀ q ∈ m.items, (m.stations q).getName ≠ A) ∨
      (∀ q ∈ m.items, (m.stations q).getName ≠ B)) :
    StationManager.mergeStations D m A B = (false, m) := by
  unfold StationManager.mergeStations
  rcases h with h | h
  · rw [(findStation_none_iff m A).2 h]
  · rw [(findStation_none_iff m B).2 h]
    cases m.findStation A <;> rfl

/-- What the manager's `assignDishToStation` does: `false` and nothing else
without a station of that name; otherwise `true`, whatever the station's own
`assignDishToStation` returned, and that station as its call left it. -/
theorem manager_assign_eq (D : DishStore) (m : StationManager) (s : String) (d : DishPtr) :
    (m.findStation s = none → StationManager.assignDishToStation D m s d = (false, m)) ∧
    (∀ p, m.findStation s = some p →
      (StationManager.assignDishToStation D m s d).1 = true ∧
      (StationManager.assignDishToStation D m s d).2.stations p
        = ((m.stations p).assignDishToStation D d).2) := by
  constructor
  · intro h
    simp [StationManager.assignDishToStation, h]
  · intro p h
    simp [StationManager.assignDishToStation, h]

theorem prepareDishAtStation_missing (D : DishStore) (m : StationManager) (s d : String)
    (h : ∀ q ∈ m.items, (m.stations q).getName ≠ s) :
    StationManager.prepareDishAtStation D m s d = (true, m) := by
  unfold StationManager.prepareDishAtStation
  rw [(findStation_none_iff m s).2 h]

theorem manager_assign_found (D : DishStore) (m : StationManager) (s : String) (d : DishPtr)
    (p : StationPtr) (h : m.findStation s = some p) :
    (StationManager.assignDishToStation D m s d).1 = true := by
  unfold StationManager.assignDishToStation
  rw [h]

/-! ## Stock names stay pairwise distinct -/

theorem map_name_addQuantity (x : Ingredient) (stock : List Ingredient) :
    (stock.map (KitchenStation.addQuantity x)).map Ingredient.name
      = stock.map Ingredient.name := by
  rw [List.map_map]
  apply List.map_congr_left
  intro e _
  exact addQuantity_name x e

theorem replenish_nodup (s : KitchenStation) (x : Ingredient)
    (h : (s.ingredients_stock_.map Ingredient.name).Nodup) :
    ((s.replenishStationIngredients x).ingredients_stock_.map Ingredient.name).Nodup := by
  by_cases hin : ∃ e ∈ s.ingredients_stock_, e.name = x.name
  · rw [replenish_stock_present s x hin, map_name_addQuantity]
    exact h
  · have habs : ∀ e ∈ s.ingredients_stock_, e.name ≠ x.name := fun e he hen => hin ⟨e, he, hen⟩
    rw [replenish_stock_absent s x habs, List.map_append, List.map_singleton]
    refine List.Nodup.append h (List.nodup_singleton _) ?_
    intro a ha hax
    obtain ⟨e, he, hea⟩ := List.mem_map.1 ha
    rw [List.mem_singleton] at hax
    exact habs e he (hea.trans hax)

theorem deplete_nodup (stock : List Ingredient) (g : String)
    (h : (stock.map Ingredient.name).Nodup) :
    ((KitchenStation.deplete stock g).map Ingredient.name).Nodup := by
  rw [deplete_eq, afterDeplete_nodup g stock h]
  exact (filterMap_use_names_sublist g stock).nodup h

theorem foldl_deplete_nodup (gs : List Ingredient) :
    ∀ stock : List Ingredient, (stock.map Ingredient.name).Nodup →
      ((gs.foldl (fun st g => KitchenStation.deplete st g.name) stock).map
        Ingredient.name).Nodup := by
  induction gs with
  | nil => intro stock h; exact h
  | cons g rest ih =>
    intro stock h
    rw [List.foldl_cons]
    exact ih _ (deplete_nodup stock g.name h)

theorem prepareDish_nodup (D : DishStore) (s : KitchenStation) (n : String)
    (h : (s.ingredients_stock_.map Ingredient.name).Nodup) :
    ((s.prepareDish D n).2.ingredients_stock_.map Ingredient.name).Nodup := by
  unfold KitchenStation.prepareDish
  split
  · exact h
  · exact foldl_deplete_nodup _ _ h

theorem afterCall_nodup (D : DishStore) (s : KitchenStation) (c : StationCall)
    (h : (s.ingredients_stock_.map Ingredient.name).Nodup) :
    ((s.afterCall D c).ingredients_stock_.map Ingredient.name).Nodup := by
  cases c with
  | assignDishToStation dish =>
    show (((s.assignDishToStation D dish).2).ingredients_stock_.map Ingredient.name).Nodup
    rw [assign_stock]
    exact h
  | replenishStationIngredients x => exact replenish_nodup s x h
  | prepareDish n => exact prepareDish_nodup D s n h

theorem afterCalls_nodup (calls : List (DishStore × StationCall)) :
    ∀ s : KitchenStation, (s.ingredients_stock_.map Ingredient.name).Nodup →
      ((s.afterCalls calls).ingredients_stock_.map Ingredient.name).Nodup := by
  induction calls with
  | nil => intro s h; exact h
  | cons c rest ih =>
    intro s h
    exact ih _ (afterCall_nodup c.1 s c.2 h)

/-- C11: in the station that any sequence of `assignDishToStation`,
`replenishStationIngredients` and `prepareDish` calls makes of a newly
constructed station, no two stock entries have the same name. -/
theorem stock_names_distinct_after_calls (station_name : String)
    (calls : List (DishStore × StationCall)) :
    (((KitchenStation.mk_named station_name).afterCalls calls).ingredients_stock_.map
      Ingredient.name).Nodup :=
  afterCalls_nodup calls _ List.nodup_nil

/-! ## `Dish::setName` -/

theorem isalpha_of_isAlpha (c : Char) (h : c.isAlpha = true) : Dish.isalpha c = true := by
  simp only [Char.isAlpha, Char.isUpper, Char.isLower, Bool.or_eq_true, Bool.and_eq_true,
    decide_eq_true_eq, UInt32.le_def, ge_iff_le] at h
  simp only [Dish.isalpha, Bool.or_eq_true, Bool.and_eq_true, decide_eq_true_eq, Char.toNat]
  rcases h with h | h
  · left; exact ⟨h.1, h.2⟩
  · right; exact ⟨h.1, h.2⟩

theorem isspace_space : Dish.isspace (Char.ofNat 32) = true := by decide

theorem isValidNameLoop_iff (cs : List Char) :
    Dish.isValidNameLoop cs = true ↔ ∀ c ∈ cs, Dish.isalpha c = true ∨ Dish.isspace c = true := by
  induction cs with
  | nil => simp [Dish.isValidNameLoop]
  | cons c rest ih =>
    rw [List.forall_mem_cons, ← ih]
    by_cases ha : Dish.isalpha c = true
    · simp [Dish.isValidNameLoop, ha]
    · by_cases hs : Dish.isspace c = true
      · simp [Dish.isValidNameLoop, hs]
      · simp [Dish.isValidNameLoop, ha, hs]

/-- C19: for a name made of letters (`A`-`Z`, `a`-`z`) and space characters
only, `setName(n)` and the parameterized constructor leave `getName()` equal
to `n`. -/
theorem setName_keeps_valid_name (d : Dish) (n : String)
    (h : ∀ c ∈ n.toList, c.isAlpha = true ∨ c = Char.ofNat 32) :
    (d.setName n).getName = n ∧
    ∀ (ingredients : List Ingredient) (prep_time : Int) (price : Rat) (cuisine : CuisineType),
      (Dish.mk_checked n ingredients prep_time price cuisine).getName = n := by
  have hvalid : Dish.isValidName n = true := by
    unfold Dish.isValidName
    rw [isValidNameLoop_iff]
    intro c hc
    rcases h c hc with h1 | h1
    · exact Or.inl (isalpha_of_isAlpha c h1)
    · right; rw [h1]; exact isspace_space
  constructor
  · simp [Dish.setName, hvalid, Dish.getName]
  · intro _ _ _ _
    simp [Dish.mk_checked, Dish.setName, hvalid, Dish.getName]

theorem isAlpha_of_isalpha (c : Char) (h : Dish.isalpha c = true) : c.isAlpha = true := by
  simp only [Dish.isalpha, Bool.or_eq_true, Bool.and_eq_true, decide_eq_true_eq, Char.toNat] at h
  simp only [Char.isAlpha, Char.isUpper, Char.isLower, Bool.or_eq_true, Bool.and_eq_true,
    decide_eq_true_eq, UInt32.le_def, ge_iff_le]
  rcases h with h | h
  · left; exact ⟨h.1, h.2⟩
  · right; exact ⟨h.1, h.2⟩

theorem mem_whitespaceChars_of_isspace (c : Char) (h : Dish.isspace c = true) :
    c ∈ Dish.whitespaceChars := by
  simp only [Dish.isspace, Bool.or_eq_true, Bool.and_eq_true, decide_eq_true_eq] at h
  have hc : c = Char.ofNat c.toNat := (Char.ofNat_toNat c).symm
  have hcases : c.toNat = 32 ∨ c.toNat = 9 ∨ c.toNat = 10 ∨ c.toNat = 11 ∨ c.toNat = 12 ∨
      c.toNat = 13 := by omega
  rw [hc]
  rcases hcases with h1 | h1 | h1 | h1 | h1 | h1 <;> rw [h1] <;> decide

/-- C20, amended: when the name holds a character that is neither a letter nor
a whitespace character (space, tab, line feed, vertical tab, form feed,
carriage return), `setName(n)` sets the name to "UNKNOWN". -/
theorem setName_rejects_invalid_name (d : Dish) (n : String)
    (h : ∃ c ∈ n.toList, c.isAlpha = false ∧ c ∉ Dish.whitespaceChars) :
    (d.setName n).getName = "UNKNOWN" := by
  obtain ⟨c, hc, hna, hnw⟩ := h
  have hinvalid : ¬ Dish.isValidName n = true := by
    unfold Dish.isValidName
    rw [isValidNameLoop_iff]
    intro hall
    rcases hall c hc with h1 | h1
    · rw [isAlpha_of_isalpha c h1] at hna
      exact Bool.noConfusion hna
    · exact hnw (mem_whitespaceChars_of_isspace c h1)
  simp [Dish.setName, hinvalid, Dish.getName]

/-! ## The manager and `Dish::setName` at concrete states -/

/-- C12 at a manager without a station "Oven": `prepareDishAtStation("Oven",
"Soup")` returns `true`. -/
theorem prepareDishAtStation_oven :
    (∀ q ∈ exampleTwoStations.items, (exampleTwoStations.stations q).getName ≠ "Oven") ∧
    (prepareDishAtStation exampleDishes exampleTwoStations "Oven" "Soup").1 = true := by
  decide

/-- C13 at a station that already holds a dish named "Soup": the manager's
`assignDishToStation("A", d)` for the other dish named "Soup" returns `true`
although the dish list of "A" is left as it was, without `d`. -/
theorem manager_assign_second_soup :
    exampleTwoStations.findStation "A" = some 0 ∧
    (∃ p ∈ (exampleTwoStations.stations 0).getDishes,
      (exampleDishes p).name_ = (exampleDishes 1).name_) ∧
    (StationManager.assignDishToStation exampleDishes exampleTwoStations "A" 1).1 = true ∧
    ((StationManager.assignDishToStation exampleDishes exampleTwoStations "A" 1).2.stations
        0).getDishes = (exampleTwoStations.stations 0).getDishes ∧
    1 ∉ ((StationManager.assignDishToStation exampleDishes exampleTwoStations "A" 1).2.stations
        0).getDishes := by
  decide

/-- Witness for C14: there is no station "Oven" to merge into "A". -/
theorem mergeStations_missing_witness :
    ((∀ q ∈ exampleTwoStations.items, (exampleTwoStations.stations q).getName ≠ "A") ∨
      (∀ q ∈ exampleTwoStations.items, (exampleTwoStations.stations q).getName ≠ "Oven")) ∧
    mergeStations exampleDishes exampleTwoStations "A" "Oven" = (false, exampleTwoStations) :=
  ⟨by decide, mergeStations_missing exampleDishes exampleTwoStations "A" "Oven" (by decide)⟩

/-- Witness for C19: the name "Fish Soup". -/
theorem setName_keeps_valid_name_witness :
    (∀ c ∈ "Fish Soup".toList, c.isAlpha = true ∨ c = Char.ofNat 32) ∧
    ((exampleDishes 0).setName "Fish Soup").getName = "Fish Soup" :=
  ⟨by decide, (setName_keeps_valid_name (exampleDishes 0) "Fish Soup" (by decide)).1⟩

/-- C20 fails as stated: the tab in "Fish\tSoup" is neither a letter nor a
space, yet `setName` keeps the name, because `std::isspace` accepts a tab. -/
theorem setName_keeps_tab :
    (∃ c ∈ "Fish\tSoup".toList, c.isAlpha = false ∧ c ≠ Char.ofNat 32) ∧
    ((exampleDishes 0).setName "Fish\tSoup").getName ≠ "UNKNOWN" := by
  decide

/-- Witness for C20, amended: the digit in "Soup 2". -/
theorem setName_rejects_invalid_name_witness :
    (∃ c ∈ "Soup 2".toList, c.isAlpha = false ∧ c ∉ Dish.whitespaceChars) ∧
    ((exampleDishes 0).setName "Soup 2").getName = "UNKNOWN" :=
  ⟨by decide, setName_rejects_invalid_name (exampleDishes 0) "Soup 2" (by decide)⟩

/-! ## Equality of dishes (Project 5) -/

theorem p5_operator_eq_iff (a b : Dish) :
    a.operator_eq b = true ↔
      a.name_ = b.name_ ∧ a.cuisine_type_ = b.cuisine_type_ ∧ a.prep_time_ = b.prep_time_ ∧
        a.price_ = b.price_ := by
  simp only [Dish.operator_eq, Bool.and_eq_true, decide_eq_true_eq]
  tauto

end Project5

namespace Project3

/-! ## Equality of dishes -/

theorem getCuisineType_injective (a b : Dish) (h : a.getCuisineType = b.getCuisineType) :
    a.cuisine_type_ = b.cuisine_type_ := by
  unfold Dish.getCuisineType at h
  cases ha : a.cuisine_type_ <;> cases hb : b.cuisine_type_ <;> rw [ha, hb] at h <;>
    first | rfl | exact absurd h (by decide)

theorem p3_operator_eq_iff (a b : Dish) :
    a.operator_eq b = true ↔
      a.name_ = b.name_ ∧ a.cuisine_type_ = b.cuisine_type_ ∧ a.prep_time_ = b.prep_time_ ∧
        a.price_ = b.price_ := by
  unfold Dish.operator_eq Dish.getName Dish.getPrepTime Dish.getPrice
  constructor
  · intro h
    split at h
    · split at h
      · split at h
        · split at h
          · rename_i h1 h2 h3 h4
            exact ⟨h1, getCuisineType_injective a b h2, h3, h4⟩
          · exact Bool.noConfusion h
        · exact Bool.noConfusion h
      · exact Bool.noConfusion h
    · exact Bool.noConfusion h
  · rintro ⟨h1, h2, h3, h4⟩
    have hc : a.getCuisineType = b.getCuisineType := by
      unfold Dish.getCuisineType
      rw [h2]
    simp [h1, hc, h3, h4]

theorem operator_ne_eq_not (a b : Dish) : a.operator_ne b = !(a.operator_eq b) := by
  unfold Dish.operator_ne Dish.operator_eq
  split <;> [skip; rfl]
  split <;> [skip; rfl]
  split <;> [skip; rfl]
  split <;> rfl

/-- C21: `a == b` holds exactly when `a` and `b` have the same name, cuisine
type, preparation time and price, in Project 3 and in Project 5 alike; a dish
is equal to itself with any other ingredient list. -/
theorem dish_equality_four_fields (a b : Dish) (c d : Project5.Dish) :
    (a.operator_eq b = true ↔
      a.name_ = b.name_ ∧ a.cuisine_type_ = b.cuisine_type_ ∧ a.prep_time_ = b.prep_time_ ∧
        a.price_ = b.price_) ∧
    (c.operator_eq d = true ↔
      c.name_ = d.name_ ∧ c.cuisine_type_ = d.cuisine_type_ ∧ c.prep_time_ = d.prep_time_ ∧
        c.price_ = d.price_) ∧
    (∀ l : List String, a.operator_eq { a with ingredients_ := l } = true) ∧
    (∀ l : List Project5.Ingredient, c.operator_eq { c with ingredients_ := l } = true) :=
  ⟨p3_operator_eq_iff a b, Project5.p5_operator_eq_iff c d,
    fun _ => (p3_operator_eq_iff _ _).2 ⟨rfl, rfl, rfl, rfl⟩,
    fun _ => (Project5.p5_operator_eq_iff _ _).2 ⟨rfl, rfl, rfl, rfl⟩⟩

/-- C22: the `!=` of Project 3, written as its own nested comparison, returns
the negation of `==`: it is `true` exactly when name, cuisine type,
preparation time or price differ; the `!=` of Project 5 is the negation of
`==` as well. -/
theorem dish_inequality_negates_equality (a b : Dish) (c d : Project5.Dish) :
    a.operator_ne b = !(a.operator_eq b) ∧
    (a.operator_ne b = true ↔
      a.name_ ≠ b.name_ ∨ a.cuisine_type_ ≠ b.cuisine_type_ ∨
        a.prep_time_ ≠ b.prep_time_ ∨
        a.price_ ≠ b.price_) ∧
    c.operator_ne d = !(c.operator_eq d) := by
  refine ⟨operator_ne_eq_not a b, ?_, rfl⟩
  rw [operator_ne_eq_not, Bool.not_eq_true', ← Bool.not_eq_true,
    p3_operator_eq_iff]
  tauto

/-! ## The running totals of the Project 3 kitchen at concrete states -/

/-- C24 at a kitchen that takes one order and releases it: after
`newOrder(Soup)` and `releaseDishesBelowPrepTime(5)` the kitchen is empty, yet
`getPrepTimeSum()` is still the three minutes of the soup. -/
theorem release_keeps_prep_time_sum :
    (Kitchen.afterCalls 10 Kitchen.empty
      [KitchenCall.newOrder exampleSoup, KitchenCall.releaseDishesBelowPrepTime 5]).bag.toList
        = [] ∧
    (Kitchen.afterCalls 10 Kitchen.empty
      [KitchenCall.newOrder exampleSoup,
        KitchenCall.releaseDishesBelowPrepTime 5]).prepTimeOfDishes = 0 ∧
    (Kitchen.afterCalls 10 Kitchen.empty
      [KitchenCall.newOrder exampleSoup,
        KitchenCall.releaseDishesBelowPrepTime 5]).getPrepTimeSum = 3 := by
  decide

/-- C25 at a kitchen that takes an elaborate dish and serves a dish that `==`
does not tell from it but that has no ingredients: the kitchen is empty, yet
`elaborateDishCount()` is still `1`. -/
theorem serve_bare_feast_keeps_count :
    exampleFeast.operator_eq exampleFeastBare = true ∧
    (Kitchen.afterCalls 10 Kitchen.empty
      [KitchenCall.newOrder exampleFeast, KitchenCall.serveDish exampleFeastBare]).bag.toList
        = [] ∧
    (Kitchen.afterCalls 10 Kitchen.empty
      [KitchenCall.newOrder exampleFeast,
        KitchenCall.serveDish exampleFeastBare]).elaborateDishes = 0 ∧
    (Kitchen.afterCalls 10 Kitchen.empty
      [KitchenCall.newOrder exampleFeast,
        KitchenCall.serveDish exampleFeastBare]).elaborateDishCount = 1 := by
  decide

end Project3

/-! ## The array bag with pairwise distinct items -/

namespace ArrayBag

theorem mem_toList {α : Type} (b : ArrayBag α) (q : α) :
    q ∈ b.toList ↔ ∃ i, i < b.item_count_ ∧ b.items_ i = q := by
  simp [toList]

theorem nodup_toList_iff {α : Type} (b : ArrayBag α) :
    b.toList.Nodup ↔
      ∀ i j, i < b.item_count_ → j < b.item_count_ → b.items_ i = b.items_ j → i = j := by
  unfold toList
  rw [List.nodup_map_iff_inj_on (List.nodup_range _)]
  simp only [List.mem_range]
  constructor
  · intro h i j hi hj hij
    exact h i hi j hj hij
  · intro h i hi j hj hij
    exact h i j hi hj hij

theorem getIndexOf_of_mem {α : Type} [DecidableEq α] (b : ArrayBag α) (p : α)
    (hp : ∃ i, i < b.item_count_ ∧ b.items_ i = p) :
    ∃ j, j < b.item_count_ ∧ b.items_ j = p ∧
      getIndexOf (fun x y => decide (x = y)) b p = some j := by
  unfold getIndexOf
  cases hfind : (List.range b.item_count_).find? (fun i => decide (b.items_ i = p)) with
  | none =>
    obtain ⟨i, hi, hip⟩ := hp
    rw [List.find?_eq_none] at hfind
    have := hfind i (List.mem_range.2 hi)
    simp [hip] at this
  | some j =>
    have h1 := List.find?_some hfind
    have h2 := List.mem_of_find?_eq_some hfind
    exact ⟨j, List.mem_range.1 h2, by simpa using h1, rfl⟩

/-- Removing an item that is in a bag of pairwise distinct items: some slot
`j` of the bag held it and now holds the former last item. -/
theorem remove_of_mem {α : Type} [DecidableEq α] (b : ArrayBag α) (p : α)
    (hp : ∃ i, i < b.item_count_ ∧ b.items_ i = p) :
    ∃ j, j < b.item_count_ ∧ b.items_ j = p ∧
      remove (fun x y => decide (x = y)) b p
        = (true, { items_ := Function.update b.items_ j (b.items_ (b.item_count_ - 1)),
                   item_count_ := b.item_count_ - 1 }) := by
  obtain ⟨j, hj, hjp, hidx⟩ := getIndexOf_of_mem b p hp
  exact ⟨j, hj, hjp, by simp [remove, hidx]⟩

/-- The slots of the bag after the last item was copied over slot `j`. -/
theorem swap_mem {α : Type} (f : Nat → α) (c j : Nat) (hj : j < c)
    (hinj : ∀ i k, i < c → k < c → f i = f k → i = k) (q : α) :
    (∃ i, i < c - 1 ∧ Function.update f j (f (c - 1)) i = q) ↔
      (∃ i, i < c ∧ f i = q) ∧ q ≠ f j := by
  constructor
  · rintro ⟨i, hi, hiq⟩
    by_cases hij : i = j
    · subst hij
      rw [Function.update_same] at hiq
      refine ⟨⟨c - 1, by omega, hiq⟩, ?_⟩
      intro h
      have := hinj (c - 1) i (by omega) hj (hiq.trans h)
      omega
    · rw [Function.update_noteq hij] at hiq
      refine ⟨⟨i, by omega, hiq⟩, ?_⟩
      intro h
      exact hij (hinj i j (by omega) hj (hiq.trans h))
  · rintro ⟨⟨i, hi, hiq⟩, hne⟩
    have hij : i ≠ j := by
      intro h
      rw [h] at hiq
      exact hne hiq.symm
    by_cases hlast : i = c - 1
    · refine ⟨j, by omega, ?_⟩
      rw [Function.update_same, ← hlast]
      exact hiq
    · refine ⟨i, by omega, ?_⟩
      rw [Function.update_noteq hij]
      exact hiq

theorem swap_inj {α : Type} (f : Nat → α) (c j : Nat) (hj : j < c)
    (hinj : ∀ i k, i < c → k < c → f i = f k → i = k) :
    ∀ i k, i < c - 1 → k < c - 1 →
      Function.update f j (f (c - 1)) i = Function.update f j (f (c - 1)) k → i = k := by
  intro i k hi hk h
  by_cases hij : i = j
  · by_cases hkj : k = j
    · rw [hij, hkj]
    · rw [hij, Function.update_same, Function.update_noteq hkj] at h
      have := hinj (c - 1) k (by omega) (by omega) h
      omega
  · by_cases hkj : k = j
    · rw [hkj, Function.update_same, Function.update_noteq hij] at h
      have := hinj i (c - 1) (by omega) (by omega) h
      omega
    · rw [Function.update_noteq hij, Function.update_noteq hkj] at h
      exact hinj i k (by omega) (by omega) h

end ArrayBag

namespace Project4

/-! ## The kitchen of Project 4 -/

theorem round_natCast (n : Nat) : Kitchen.round (n : Rat) = n := by
  unfold Kitchen.round
  have h0 : (0 : Rat) ≤ (n : Rat) := Nat.cast_nonneg n
  rw [if_pos h0, Int.floor_eq_iff]
  constructor
  · push_cast; linarith
  · push_cast; linarith

/-- C23: after `newOrder(d)` on an empty kitchen (with room for at least one
dish), `elaborateDishCount()` is `1` and `calculateElaboratePercentage()` is
`100` when `d` has at least 5 ingredients and a preparation time of at least
60 minutes, and both are `0` for every other dish. -/
theorem newOrder_on_empty_kitchen (D : DishStore) (capacity : Nat) (slots : Nat → DishPtr)
    (d : DishPtr) (hcap : 0 < capacity) :
    ((5 ≤ (D d).getIngredients.length ∧ 60 ≤ (D d).getPrepTime) →
      (Kitchen.newOrder D capacity (Kitchen.empty slots) d).2.elaborateDishCount = 1 ∧
      (Kitchen.newOrder D capacity (Kitchen.empty slots) d).2.calculateElaboratePercentage
        = 100) ∧
    (¬ (5 ≤ (D d).getIngredients.length ∧ 60 ≤ (D d).getPrepTime) →
      (Kitchen.newOrder D capacity (Kitchen.empty slots) d).2.elaborateDishCount = 0 ∧
      (Kitchen.newOrder D capacity (Kitchen.empty slots) d).2.calculateElaboratePercentage
        = 0) := by
  have hk : Kitchen.newOrder D capacity (Kitchen.empty slots) d
      = (true, { bag := { items_ := Function.update slots 0 d, item_count_ := 1 },
                 total_prep_time_ := 0 + (D d).getPrepTime,
                 count_elaborate_ :=
                   if 5 ≤ (D d).getIngredients.length ∧ 60 ≤ (D d).getPrepTime then 0 + 1
                   else 0 }) := by
    simp [Kitchen.newOrder, Kitchen.empty, ArrayBag.add, hcap]
  rw [hk]
  constructor
  · intro h
    have hr : Kitchen.round ((((0 + 1 : Int) : Rat)) / ((1 : Nat) : Rat) * 10000) = 10000 := by
      have := round_natCast 10000
      norm_num at this ⊢
      exact this
    simp only [Kitchen.elaborateDishCount, Kitchen.calculateElaboratePercentage,
      ArrayBag.getCurrentSize, if_pos h, hr]
    norm_num
  · intro h
    simp [Kitchen.elaborateDishCount, Kitchen.calculateElaboratePercentage, if_neg h]

theorem serveDish_of_mem (D : DishStore) (k : Kitchen) (p : DishPtr)
    (hp : ∃ i, i < k.bag.item_count_ ∧ k.bag.items_ i = p) :
    ∃ j, j < k.bag.item_count_ ∧ k.bag.items_ j = p ∧
      (Kitchen.serveDish D k p).2.bag
        = { items_ := Function.update k.bag.items_ j (k.bag.items_ (k.bag.item_count_ - 1)),
            item_count_ := k.bag.item_count_ - 1 } := by
  obtain ⟨j, hj, hjp, hrem⟩ := ArrayBag.remove_of_mem k.bag p hp
  refine ⟨j, hj, hjp, ?_⟩
  have hsize : ¬ k.bag.getCurrentSize = 0 := by
    unfold ArrayBag.getCurrentSize
    omega
  simp [Kitchen.serveDish, hsize, hrem]

/-- The state of the loop of `releaseDishesBelowPrepTime` after the indices
below `i`, in a kitchen of pairwise distinct dishes: the slots from `i` on are
untouched, the bag holds the dishes kept so far and those not yet visited, and
`count` is the number of dishes released so far. -/
theorem releaseBelow_loop (D : DishStore) (t : Int) (k : Kitchen)
    (hinj : ∀ i j, i < k.bag.item_count_ → j < k.bag.item_count_ →
      k.bag.items_ i = k.bag.items_ j → i = j) :
    ∀ i, i ≤ k.bag.item_count_ →
      ((List.range i).foldl (Kitchen.releaseBelowStep D t) (0, k)).2.bag.item_count_
          ≤ k.bag.item_count_ ∧
      (∀ j, i ≤ j →
        ((List.range i).foldl (Kitchen.releaseBelowStep D t) (0, k)).2.bag.items_ j
          = k.bag.items_ j) ∧
      (∀ a b,
        a < ((List.range i).foldl (Kitchen.releaseBelowStep D t) (0, k)).2.bag.item_count_ →
        b < ((List.range i).foldl (Kitchen.releaseBelowStep D t) (0, k)).2.bag.item_count_ →
        ((List.range i).foldl (Kitchen.releaseBelowStep D t) (0, k)).2.bag.items_ a
          = ((List.range i).foldl (Kitchen.releaseBelowStep D t) (0, k)).2.bag.items_ b →
        a = b) ∧
      (∀ q,
        (∃ j,
          j < ((List.range i).foldl (Kitchen.releaseBelowStep D t) (0, k)).2.bag.item_count_ ∧
          ((List.range i).foldl (Kitchen.releaseBelowStep D t) (0, k)).2.bag.items_ j = q) ↔
        (∃ j, j < i ∧ k.bag.items_ j = q ∧ ¬ (D q).getPrepTime < t) ∨
          (∃ j, i ≤ j ∧ j < k.bag.item_count_ ∧ k.bag.items_ j = q)) ∧
      ((List.range i).foldl (Kitchen.releaseBelowStep D t) (0, k)).1
        = (((List.range i).filter
            (fun j => decide ((D (k.bag.items_ j)).getPrepTime < t))).length : Int) := by
  intro i
  induction i with
  | zero =>
    intro _
    refine ⟨le_refl _, fun _ _ => rfl, hinj, ?_, rfl⟩
    intro q
    constructor
    · rintro ⟨j, hj, hjq⟩
      exact Or.inr ⟨j, Nat.zero_le _, hj, hjq⟩
    · rintro (⟨j, hj, _⟩ | ⟨j, _, hj, hjq⟩)
      · exact absurd hj (Nat.not_lt_zero _)
      · exact ⟨j, hj, hjq⟩
  | succ i ih =>
    intro hi
    obtain ⟨hcount, hslots, hinj', hmem, hret⟩ := ih (by omega)
    rw [List.range_succ, List.foldl_append, List.foldl_cons, List.foldl_nil,
      List.filter_append]
    generalize (List.range i).foldl (Kitchen.releaseBelowStep D t) (0, k) = st at *
    have hx : st.2.bag.items_ i = k.bag.items_ i := hslots i (le_refl _)
    unfold Kitchen.releaseBelowStep
    rw [hx]
    by_cases hlt : (D (k.bag.items_ i)).getPrepTime < t
    · -- the dish at slot `i` is released
      rw [if_pos hlt]
      have hin : ∃ j, j < st.2.bag.item_count_ ∧ st.2.bag.items_ j = k.bag.items_ i :=
        (hmem _).2 (Or.inr ⟨i, le_refl _, by omega, rfl⟩)
      obtain ⟨j0, hj0, hj0x, hbag⟩ := serveDish_of_mem D st.2 (k.bag.items_ i) hin
      have hj0i : j0 ≤ i := by
        by_contra hgt
        have h1 : st.2.bag.items_ j0 = k.bag.items_ j0 := hslots j0 (by omega)
        have := hinj j0 i (by omega) (by omega) (h1.symm.trans hj0x)
        omega
      simp only [hbag]
      refine ⟨by omega, ?_, ?_, ?_, ?_⟩
      · intro j hj
        rw [Function.update_noteq (by omega)]
        exact hslots j (by omega)
      · exact ArrayBag.swap_inj st.2.bag.items_ st.2.bag.item_count_ j0 hj0 hinj'
      · intro q
        rw [ArrayBag.swap_mem st.2.bag.items_ st.2.bag.item_count_ j0 hj0 hinj' q, hmem q, hj0x]
        constructor
        · rintro ⟨h | h, hne⟩
          · obtain ⟨j, hj, hjq, hkeep⟩ := h
            exact Or.inl ⟨j, by omega, hjq, hkeep⟩
          · obtain ⟨j, hj, hjc, hjq⟩ := h
            have hji : j ≠ i := by
              intro h
              rw [h] at hjq
              exact hne hjq.symm
            exact Or.inr ⟨j, by omega, hjc, hjq⟩
        · rintro (⟨j, hj, hjq, hkeep⟩ | ⟨j, hj, hjc, hjq⟩)
          · have hji : j ≠ i := by
              intro h
              rw [h] at hjq
              rw [← hjq] at hkeep
              exact hkeep hlt
            refine ⟨Or.inl ⟨j, by omega, hjq, hkeep⟩, ?_⟩
            intro h
            rw [← hjq] at h
            exact hji (hinj j i (by omega) (by omega) h)
          · refine ⟨Or.inr ⟨j, by omega, hjc, hjq⟩, ?_⟩
            intro h
            rw [← hjq] at h
            have := hinj j i hjc (by omega) h
            omega
      · simp [hret, hlt]
    · -- the dish at slot `i` stays
      rw [if_neg hlt]
      refine ⟨hcount, fun j hj => hslots j (by omega), hinj', ?_, ?_⟩
      · intro q
        rw [hmem q]
        constructor
        · rintro (⟨j, hj, hjq, hkeep⟩ | ⟨j, hj, hjc, hjq⟩)
          · exact Or.inl ⟨j, by omega, hjq, hkeep⟩
          · by_cases hji : j = i
            · rw [hji] at hjq
              exact Or.inl ⟨i, by omega, hjq, by rw [← hjq]; exact hlt⟩
            · exact Or.inr ⟨j, by omega, hjc, hjq⟩
        · rintro (⟨j, hj, hjq, hkeep⟩ | ⟨j, hj, hjc, hjq⟩)
          · by_cases hji : j = i
            · rw [hji] at hjq
              exact Or.inr ⟨i, le_refl _, by omega, hjq⟩
            · exact Or.inl ⟨j, by omega, hjq, hkeep⟩
          · exact Or.inr ⟨j, by omega, hjc, hjq⟩
      · simp [hret, hlt]

/-- C26: in a kitchen of pairwise distinct dish pointers,
`releaseDishesBelowPrepTime(t)` leaves exactly the dishes whose preparation
time is not less than `t` and returns the number of dishes whose preparation
time is less than `t`, the dishes it removed. -/
theorem releaseDishesBelowPrepTime_spec (D : DishStore) (k : Kitchen) (t : Int)
    (hdistinct : k.bag.toList.Nodup) :
    (Kitchen.releaseDishesBelowPrepTime D k t).2.bag.toList.Perm
      (k.bag.toList.filter (fun p => decide (¬ (D p).getPrepTime < t))) ∧
    (Kitchen.releaseDishesBelowPrepTime D k t).1
      = ((k.bag.toList.filter (fun p => decide ((D p).getPrepTime < t))).length : Int) := by
  have hinj := (ArrayBag.nodup_toList_iff k.bag).1 hdistinct
  obtain ⟨_, _, hinj', hmem, hret⟩ :=
    releaseBelow_loop D t k hinj k.bag.item_count_ (le_refl _)
  unfold Kitchen.releaseDishesBelowPrepTime ArrayBag.getCurrentSize
  constructor
  · rw [List.perm_ext_iff_of_nodup ((ArrayBag.nodup_toList_iff _).2 hinj')
      (hdistinct.filter _)]
    intro q
    rw [ArrayBag.mem_toList, hmem q, List.mem_filter, ArrayBag.mem_toList]
    constructor
    · rintro (⟨j, hj, hjq, hkeep⟩ | ⟨j, hj, hjc, _⟩)
      · exact ⟨⟨j, hj, hjq⟩, by simpa using hkeep⟩
      · omega
    · rintro ⟨⟨j, hj, hjq⟩, hkeep⟩
      exact Or.inl ⟨j, hj, hjq, by simpa using hkeep⟩
  · rw [hret]
    unfold ArrayBag.toList
    rw [List.filter_map, List.length_map]
    rfl

/-! ## Dietary accommodations -/

theorem countDiffering_eq_length_iff (listed : List String) (x : String) :
    countDiffering listed x = listed.length ↔ x ∉ listed := by
  unfold countDiffering
  rw [List.filter_length_eq_length]
  constructor
  · intro h hx
    have := h x hx
    simp at this
  · intro h a ha
    simp only [ne_eq, decide_not, Bool.not_eq_eq_eq_not, Bool.not_true, decide_eq_false_iff_not]
    intro hxa
    exact h (hxa ▸ ha)

theorem vegetarian_test (x : String) :
    countDiffering nonVegetarian x = nonVegetarian.length ↔ isVegetarianIngredient x = true := by
  rw [countDiffering_eq_length_iff]
  simp [isVegetarianIngredient]

theorem vegetarianLoop_rest (l : List String) :
    ∀ occurrence : Nat, 2 ≤ occurrence → vegetarianLoop l occurrence = vegetarianRest l := by
  induction l with
  | nil => intro _ _; rfl
  | cons x rest ih =>
    intro occ hocc
    have h0 : ¬ occ = 0 := by omega
    have h1 : ¬ occ = 1 := by omega
    by_cases hv : isVegetarianIngredient x = true
    · simp only [vegetarianLoop, if_pos ((vegetarian_test x).2 hv), ih occ hocc, vegetarianRest,
        List.filter_cons, hv, if_true]
    · have hc : ¬ countDiffering nonVegetarian x = nonVegetarian.length :=
        fun h => hv ((vegetarian_test x).1 h)
      simp only [vegetarianLoop, if_neg hc, if_neg h0, if_neg h1, ih occ hocc, vegetarianRest,
        List.filter_cons, hv, Bool.false_eq_true, if_false]

theorem vegetarianLoop_one (l : List String) :
    vegetarianLoop l 1 = vegetarianAfterFirst l := by
  induction l with
  | nil => rfl
  | cons x rest ih =>
    by_cases hv : isVegetarianIngredient x = true
    · simp only [vegetarianLoop, if_pos ((vegetarian_test x).2 hv), ih, vegetarianAfterFirst,
        List.takeWhile_cons, List.dropWhile_cons, hv, if_true, List.cons_append]
    · have hc : ¬ countDiffering nonVegetarian x = nonVegetarian.length :=
        fun h => hv ((vegetarian_test x).1 h)
      simp only [vegetarianLoop, if_neg hc, vegetarianLoop_rest rest 2 (le_refl _),
        vegetarianAfterFirst, List.takeWhile_cons, List.dropWhile_cons, hv]
      simp

theorem vegetarianLoop_zero (l : List String) :
    vegetarianLoop l 0 = vegetarianVersion l := by
  induction l with
  | nil => rfl
  | cons x rest ih =>
    by_cases hv : isVegetarianIngredient x = true
    · simp only [vegetarianLoop, if_pos ((vegetarian_test x).2 hv), ih, vegetarianVersion,
        List.takeWhile_cons, List.dropWhile_cons, hv, if_true, List.cons_append]
    · have hc : ¬ countDiffering nonVegetarian x = nonVegetarian.length :=
        fun h => hv ((vegetarian_test x).1 h)
      simp only [vegetarianLoop, if_neg hc, vegetarianLoop_one rest,
        vegetarianVersion, List.takeWhile_cons, List.dropWhile_cons, hv]
      simp

/-- C28: with only `request.vegetarian` set, `dietaryAccommodations` of an
appetizer and of a main course turns the ingredient list into the vegetarian
ingredients in their order, with the first non-vegetarian ingredient replaced
in place by "Beans", the second by "Mushrooms", and the others removed. -/
theorem vegetarian_accommodation (a : Appetizer) (m : MainCourse) (request : DietaryRequest)
    (hveg : request.vegetarian = true) (hvegan : request.vegan = false)
    (hgluten : request.gluten_free = false) (_hnut : request.nut_free = false)
    (hsodium : request.low_sodium = false) (_hsugar : request.low_sugar = false) :
    (a.dietaryAccommodations request).ingredients_ = vegetarianVersion a.ingredients_ ∧
    (m.dietaryAccommodations request).ingredients_ = vegetarianVersion m.ingredients_ := by
  constructor
  · simp [Appetizer.dietaryAccommodations, hveg, hgluten, hsodium, vegetarianLoop_zero]
  · simp [MainCourse.dietaryAccommodations, hveg, hvegan, hgluten, vegetarianLoop_zero]

theorem clamp_eq_max (x : Int) : (if x < 0 then 0 else x) = max 0 x := by
  split <;> omega

theorem appetizer_level (a : Appetizer) (request : DietaryRequest) :
    (a.dietaryAccommodations request).spiciness_level_
      = if request.low_sodium then
          (if wrapInt (a.spiciness_level_ - 2) < 0 then 0 else wrapInt (a.spiciness_level_ - 2))
        else a.spiciness_level_ := by
  unfold Appetizer.dietaryAccommodations
  cases request.vegetarian <;> cases request.low_sodium <;> cases request.gluten_free <;>
    simp only [Bool.false_eq_true, if_false, if_true] <;> first | rfl | (split <;> rfl)

theorem dessert_level (d : Dessert) (request : DietaryRequest) :
    (d.dietaryAccommodations request).sweetness_level_
      = if request.low_sugar then
          (if wrapInt (d.sweetness_level_ - 3) < 0 then 0 else wrapInt (d.sweetness_level_ - 3))
        else d.sweetness_level_ := by
  unfold Dessert.dietaryAccommodations
  cases request.nut_free <;> cases request.low_sugar <;> cases request.vegan <;>
    simp only [Bool.false_eq_true, if_false, if_true] <;> first | rfl | (split <;> rfl)

/-- C29, amended: for an `int` level from which 2 can be taken inside the
range of `int`, `Appetizer::dietaryAccommodations` leaves `spiciness_level_` at
`max(0, level - 2)` when `request.low_sodium` is set; for an `int` level from
which 3 can be taken inside the range, `Dessert::dietaryAccommodations` leaves
`sweetness_level_` at `max(0, level - 3)` when `request.low_sugar` is set;
without the flag the level is unchanged. -/
theorem low_sodium_low_sugar_levels (a : Appetizer) (d : Dessert) (request : DietaryRequest) :
    (request.low_sodium = true → INT_MIN + 2 ≤ a.spiciness_level_ →
      a.spiciness_level_ ≤ INT_MAX →
      (a.dietaryAccommodations request).spiciness_level_ = max 0 (a.spiciness_level_ - 2)) ∧
    (request.low_sodium = false →
      (a.dietaryAccommodations request).spiciness_level_ = a.spiciness_level_) ∧
    (request.low_sugar = true → INT_MIN + 3 ≤ d.sweetness_level_ →
      d.sweetness_level_ ≤ INT_MAX →
      (d.dietaryAccommodations request).sweetness_level_ = max 0 (d.sweetness_level_ - 3)) ∧
    (request.low_sugar = false →
      (d.dietaryAccommodations request).sweetness_level_ = d.sweetness_level_) := by
  refine ⟨?_, ?_, ?_, ?_⟩
  · intro hf hmin hmax
    have h1 : INT_MIN ≤ a.spiciness_level_ - 2 := by omega
    have h2 : a.spiciness_level_ - 2 ≤ INT_MAX := by omega
    rw [appetizer_level, if_pos hf, wrapInt_of_inRange _ h1 h2, clamp_eq_max]
  · intro hf
    rw [appetizer_level, if_neg (by rw [hf]; decide)]
  · intro hf hmin hmax
    have h1 : INT_MIN ≤ d.sweetness_level_ - 3 := by omega
    have h2 : d.sweetness_level_ - 3 ≤ INT_MAX := by omega
    rw [dessert_level, if_pos hf, wrapInt_of_inRange _ h1 h2, clamp_eq_max]
  · intro hf
    rw [dessert_level, if_neg (by rw [hf]; decide)]

/-! ## The Project 4 kitchen and dishes at concrete states -/

/-- Witness for C23: an empty kitchen with room for ten dishes takes the order
of an elaborate dish. -/
theorem newOrder_on_empty_kitchen_witness :
    0 < 10 ∧
    (Kitchen.newOrder (fun _ => Project3.exampleFeast) 10
      (Kitchen.empty (fun _ => 0)) 0).2.elaborateDishCount = 1 ∧
    (Kitchen.newOrder (fun _ => Project3.exampleFeast) 10
      (Kitchen.empty (fun _ => 0)) 0).2.calculateElaboratePercentage = 100 :=
  ⟨by decide,
    (newOrder_on_empty_kitchen (fun _ => Project3.exampleFeast) 10 (fun _ => 0) 0
      (by decide)).1 (by decide)⟩

/-- Witness for C26: releasing the dishes below 22 minutes from the kitchen
with the two Italian dishes. -/
theorem releaseDishesBelowPrepTime_spec_witness :
    exampleItalianKitchen.bag.toList.Nodup ∧
    ((Kitchen.releaseDishesBelowPrepTime exampleMenu exampleItalianKitchen 22).2.bag.toList.Perm
        (exampleItalianKitchen.bag.toList.filter
          (fun p => decide (¬ (exampleMenu p).getPrepTime < 22))) ∧
      (Kitchen.releaseDishesBelowPrepTime exampleMenu exampleItalianKitchen 22).1
        = ((exampleItalianKitchen.bag.toList.filter
            (fun p => decide ((exampleMenu p).getPrepTime < 22))).length : Int)) :=
  ⟨by decide,
    releaseDishesBelowPrepTime_spec exampleMenu exampleItalianKitchen 22 (by decide)⟩

/-- C27 at the kitchen with the two Italian dishes:
`releaseDishesOfCuisineType("ITALIAN")` returns `1` and the dish at address
`1`, which is Italian, is still in the kitchen. -/
theorem release_italian_leaves_pizza :
    exampleItalianKitchen.bag.toList = [0, 1] ∧
    (exampleMenu 0).getCuisineType = "ITALIAN" ∧
    (exampleMenu 1).getCuisineType = "ITALIAN" ∧
    (Kitchen.releaseDishesOfCuisineType exampleMenu exampleItalianKitchen "ITALIAN").1 = 1 ∧
    (Kitchen.releaseDishesOfCuisineType exampleMenu exampleItalianKitchen
      "ITALIAN").2.bag.toList = [1] := by
  decide

/-- C29 fails as stated: at the least `int` the differences `level - 2` and
`level - 3` are not values of an `int`; the levels that the members leave are
far above `0`, which is `max(0, level - 2)` and `max(0, level - 3)` there. -/
theorem least_level_wraps_around :
    (exampleMildAppetizer.dietaryAccommodations
      ⟨false, false, false, false, true, false⟩).spiciness_level_ = 2147483646 ∧
    max 0 (exampleMildAppetizer.spiciness_level_ - 2) = 0 ∧
    (exampleTartDessert.dietaryAccommodations
      ⟨false, false, false, false, false, true⟩).sweetness_level_ = 2147483645 ∧
    max 0 (exampleTartDessert.sweetness_level_ - 3) = 0 := by
  decide

/-- Witness for C29: the spiciness level `1` of an appetizer under a low-sodium
request. -/
theorem low_sodium_low_sugar_levels_witness :
    ((⟨false, false, false, false, true, false⟩ : DietaryRequest).low_sodium = true ∧
      INT_MIN + 2 ≤ exampleAppetizer.spiciness_level_ ∧
      exampleAppetizer.spiciness_level_ ≤ INT_MAX) ∧
    (exampleAppetizer.dietaryAccommodations
      ⟨false, false, false, false, true, false⟩).spiciness_level_
      = max 0 (exampleAppetizer.spiciness_level_ - 2) :=
  ⟨by decide,
    (low_sodium_low_sugar_levels exampleAppetizer exampleTartDessert
      ⟨false, false, false, false, true, false⟩).1 rfl (by decide) (by decide)⟩

/-- Witness for C28: an appetizer with three non-vegetarian ingredients and a
main course with one. -/
theorem vegetarian_accommodation_witness :
    ((⟨true, false, false, false, false, false⟩ : DietaryRequest).vegetarian = true ∧
      (⟨true, false, false, false, false, false⟩ : DietaryRequest).vegan = false ∧
      (⟨true, false, false, false, false, false⟩ : DietaryRequest).gluten_free = false ∧
      (⟨true, false, false, false, false, false⟩ : DietaryRequest).nut_free = false ∧
      (⟨true, false, false, false, false, false⟩ : DietaryRequest).low_sodium = false ∧
      (⟨true, false, false, false, false, false⟩ : DietaryRequest).low_sugar = false) ∧
    ((exampleAppetizer.dietaryAccommodations
        ⟨true, false, false, false, false, false⟩).ingredients_
        = vegetarianVersion exampleAppetizer.ingredients_ ∧
      (exampleMainCourse.dietaryAccommodations
        ⟨true, false, false, false, false, false⟩).ingredients_
        = vegetarianVersion exampleMainCourse.ingredients_) :=
  ⟨by decide,
    vegetarian_accommodation exampleAppetizer exampleMainCourse
      ⟨true, false, false, false, false, false⟩ rfl rfl rfl rfl rfl rfl⟩

end Project4

namespace Project5

open KitchenStation StationManager

/-! ## Quantities stay non-negative -/

theorem firstIngredients_unique (D : DishStore) (n : String) (p : DishPtr)
    (dishes : List DishPtr) (hp : p ∈ dishes) (hname : (D p).name_ = n)
    (huniq : ∀ q ∈ dishes, (D q).name_ = n → q = p) :
    KitchenStation.firstIngredients D n dishes = (D p).ingredients_ := by
  induction dishes with
  | nil => simp at hp
  | cons q rest ih =>
    by_cases hq : (D q).name_ = n
    · have hqp : q = p := huniq q (List.mem_cons_self _ _) hq
      rw [KitchenStation.firstIngredients, if_pos hq, hqp]
    · have hpr : p ∈ rest := by
        rcases List.mem_cons.1 hp with h | h
        · rw [h] at hname; exact absurd hname hq
        · exact h
      simp only [KitchenStation.firstIngredients, if_neg hq]
      exact ih hpr (fun a ha => huniq a (List.mem_cons_of_mem _ ha))

theorem usedOnce_quantity (e a : Ingredient) (h : KitchenStation.usedOnce e = some a) :
    a.quantity = e.quantity - e.required_quantity := by
  unfold KitchenStation.usedOnce at h
  split at h
  · exact Option.noConfusion h
  · rw [← Option.some.inj h]

/-- C30, amended: on a stock with pairwise distinct names and non-negative
quantities and required quantities, for an assigned dish that is the only
assigned dish of its name and whose ingredient names are pairwise distinct,
every stock entry has a non-negative quantity after `prepareDish` on the name
of that dish. -/
theorem prepareDish_quantities_nonneg (D : DishStore) (s : KitchenStation) (p : DishPtr)
    (hstock : (s.ingredients_stock_.map Ingredient.name).Nodup)
    (hnonneg : ∀ e ∈ s.ingredients_stock_, 0 ≤ e.quantity ∧ 0 ≤ e.required_quantity)
    (hp : p ∈ s.dishes_)
    (huniq : ∀ q ∈ s.dishes_, (D q).name_ = (D p).name_ → q = p)
    (hing : ((D p).ingredients_.map Ingredient.name).Nodup) :
    ∀ e ∈ (s.prepareDish D (D p).name_).2.ingredients_stock_, 0 ≤ e.quantity := by
  unfold KitchenStation.prepareDish
  by_cases hcan : s.canCompleteOrder D (D p).name_ = true
  · simp only [hcan, not_true_eq_false, if_false]
    have hlast : KitchenStation.lastIngredients D (D p).name_ s.dishes_ = (D p).ingredients_ := by
      unfold KitchenStation.lastIngredients
      rw [lastIngredients_unique D (D p).name_ p s.dishes_ huniq, if_pos ⟨p, hp, rfl⟩]
    rw [hlast, foldl_deplete _ hing _ hstock]
    have hall : KitchenStation.allInStock s.ingredients_stock_ (D p).ingredients_ = true := by
      unfold KitchenStation.canCompleteOrder at hcan
      rw [firstIngredients_unique D (D p).name_ p s.dishes_ hp rfl huniq] at hcan
      by_contra hne
      simp [hne] at hcan
    rw [allInStock_iff] at hall
    intro e he
    unfold KitchenStation.stockAfterPreparing at he
    rw [List.mem_filterMap] at he
    obtain ⟨e0, he0, hstep⟩ := he
    by_cases hin : e0.name ∈ (D p).ingredients_.map Ingredient.name
    · rw [if_pos hin] at hstep
      obtain ⟨g, hg, hgn⟩ := List.mem_map.1 hin
      have hsuff := (hall g hg).1 e0 he0 hgn.symm
      rw [usedOnce_quantity e0 e hstep]
      omega
    · rw [if_neg hin] at hstep
      rw [← Option.some.inj hstep]
      exact (hnonneg e0 he0).1
  · simp only [hcan, not_false_eq_true, if_true]
    exact fun e he => (hnonneg e he).1

/-- C30 fails as stated: the only dish of the station lists "Salt" twice; the
stock holds 3 of it and uses 2 at a time, so `prepareDish` returns `true` and
leaves a quantity of `-1`. -/
theorem salt_twice_goes_negative :
    (exampleSaltStation.ingredients_stock_.map Ingredient.name).Nodup ∧
    (∀ e ∈ exampleSaltStation.ingredients_stock_,
      0 ≤ e.quantity ∧ 0 ≤ e.required_quantity) ∧
    0 ∈ exampleSaltStation.dishes_ ∧
    (exampleSaltStation.prepareDish exampleSaltTwice (exampleSaltTwice 0).name_).1 = true ∧
    ∃ e ∈ (exampleSaltStation.prepareDish exampleSaltTwice
        (exampleSaltTwice 0).name_).2.ingredients_stock_, e.quantity < 0 := by
  decide

/-- Witness for C30, amended: preparing "Stew". -/
theorem prepareDish_quantities_nonneg_witness :
    ((exampleStewStation.ingredients_stock_.map Ingredient.name).Nodup ∧
      (∀ e ∈ exampleStewStation.ingredients_stock_,
        0 ≤ e.quantity ∧ 0 ≤ e.required_quantity) ∧
      3 ∈ exampleStewStation.dishes_ ∧
      (∀ q ∈ exampleStewStation.dishes_,
        (exampleDishes q).name_ = (exampleDishes 3).name_ → q = 3) ∧
      ((exampleDishes 3).ingredients_.map Ingredient.name).Nodup) ∧
    ∀ e ∈ (exampleStewStation.prepareDish exampleDishes
        (exampleDishes 3).name_).2.ingredients_stock_,
      0 ≤ e.quantity :=
  ⟨by decide,
    prepareDish_quantities_nonneg exampleDishes exampleStewStation 3 (by decide) (by decide)
      (by decide) (by decide) (by decide)⟩

end Project5

namespace Project5

open KitchenStation StationManager

/-! ## Merging in a manager with pairwise distinct station names -/

theorem afterUnlink_absent (st : StationPtr → KitchenStation) (name : String) :
    ∀ (k : Nat) (items : List StationPtr), items.length ≤ k →
      (∀ q ∈ items, (st q).getName ≠ name) →
        StationManager.afterUnlink st name items = items := by
  intro k
  induction k with
  | zero =>
    intro items hlen _
    have : items = [] := List.length_eq_zero.1 (Nat.le_zero.1 hlen)
    subst this
    rfl
  | succ k ih =>
    intro items hlen h
    match items, hlen, h with
    | [], _, _ => rfl
    | [a], _, h =>
      have ha : ¬ name = (st a).getName := fun e => h a (List.mem_singleton.2 rfl) e.symm
      simp only [StationManager.afterUnlink, if_neg ha]
    | a :: b :: rest, hlen, h =>
      have ha : ¬ name = (st a).getName := fun e => h a (List.mem_cons_self _ _) e.symm
      simp only [StationManager.afterUnlink, if_neg ha]
      rw [ih (b :: rest) (by simpa using hlen) (fun q hq => h q (List.mem_cons_of_mem _ hq))]

/-- The first loop of `mergeStations` when a single item is named `name`: that
item is unlinked and the others stay in their order. -/
theorem afterUnlink_single (st : StationPtr → KitchenStation) (name : String) (p : StationPtr)
    (post : List StationPtr) (hp : (st p).getName = name)
    (hpost : ∀ q ∈ post, (st q).getName ≠ name) :
    ∀ pre : List StationPtr, (∀ q ∈ pre, (st q).getName ≠ name) →
      StationManager.afterUnlink st name (pre ++ p :: post) = pre ++ post := by
  intro pre
  induction pre with
  | nil =>
    intro _
    cases post with
    | nil => simp [StationManager.afterUnlink, hp]
    | cons f rest =>
      simp only [List.nil_append, StationManager.afterUnlink, if_pos hp.symm]
      rw [afterUnlink_absent st name rest.length rest (le_refl _)
        (fun q hq => hpost q (List.mem_cons_of_mem _ hq))]
  | cons a pre ih =>
    intro hpre
    have ha : ¬ name = (st a).getName := fun e => hpre a (List.mem_cons_self _ _) e.symm
    obtain ⟨x, r, hxr⟩ : ∃ x r, pre ++ p :: post = x :: r := by
      cases pre with
      | nil => exact ⟨p, post, rfl⟩
      | cons y ys => exact ⟨y, ys ++ p :: post, rfl⟩
    rw [List.cons_append, hxr]
    simp only [StationManager.afterUnlink, if_neg ha]
    rw [← hxr, ih (fun q hq => hpre q (List.mem_cons_of_mem _ hq))]
    rfl

/-- In a list with pairwise distinct station names, the item `p` splits the
list into two parts without a station of its name. -/
theorem split_unique_named (st : StationPtr → KitchenStation) (items : List StationPtr)
    (p : StationPtr) (hnd : (items.map (fun q => (st q).getName)).Nodup) (hp : p ∈ items) :
    ∃ pre post, items = pre ++ p :: post ∧ p ∉ pre ∧
      (∀ q ∈ pre, (st q).getName ≠ (st p).getName) ∧
      (∀ q ∈ post, (st q).getName ≠ (st p).getName) := by
  obtain ⟨pre, post, hsplit⟩ := List.append_of_mem hp
  subst hsplit
  rw [List.map_append, List.map_cons, List.nodup_append] at hnd
  obtain ⟨_, hpost, hdisj⟩ := hnd
  rw [List.nodup_cons] at hpost
  have hpre : ∀ q ∈ pre, (st q).getName ≠ (st p).getName := by
    intro q hq e
    exact hdisj (List.mem_map.2 ⟨q, hq, rfl⟩) (e ▸ List.mem_cons_self _ _)
  refine ⟨pre, post, rfl, ?_, hpre, ?_⟩
  · intro hmem
    exact hpre p hmem rfl
  · intro q hq e
    exact hpost.1 (List.mem_map.2 ⟨q, hq, e⟩)

theorem erase_middle (pre post : List StationPtr) (p : StationPtr) (hp : p ∉ pre) :
    (pre ++ p :: post).erase p = pre ++ post := by
  rw [List.erase_append_right _ hp, List.erase_cons_head]

/-- The stations that `mergeStations` does not write to. -/
theorem mergeStations_other (D : DishStore) (m : StationManager) (A B : String)
    (p1 p2 : StationPtr) (h1 : m.findStation A = some p1) (h2 : m.findStation B = some p2)
    (q : StationPtr) (hq : q ≠ p1) :
    (StationManager.mergeStations D m A B).2.stations q = m.stations q := by
  rw [mergeStations_found D m A B p1 p2 h1 h2]
  simp [Function.update_noteq hq]

/-- The list after `mergeStations` in a manager with pairwise distinct station
names. -/
theorem mergeStations_items_erase (D : DishStore) (m : StationManager) (A B : String)
    (p1 p2 : StationPtr)
    (hnd : (m.items.map (fun q => (m.stations q).getName)).Nodup)
    (h1 : m.findStation A = some p1) (h2 : m.findStation B = some p2) :
    (StationManager.mergeStations D m A B).2.items = m.items.erase p2 ∧
    ∀ q ∈ m.items.erase p2, (m.stations q).getName ≠ B := by
  obtain ⟨hname, hmem⟩ := findStation_some_name m B p2 h2
  obtain ⟨pre, post, hsplit, hnotin, hpre, hpost⟩ :=
    split_unique_named m.stations m.items p2 hnd hmem
  rw [hname] at hpre hpost
  rw [mergeStations_items D m A B p1 p2 h1 h2, hsplit, erase_middle pre post p2 hnotin,
    afterUnlink_single m.stations B p2 post hname hpost pre hpre]
  refine ⟨rfl, ?_⟩
  intro q hq
  rcases List.mem_append.1 hq with h | h
  · exact hpre q h
  · exact hpost q h

/-- C32: in a manager with pairwise distinct station names that holds stations
named `A` and `B`, `A` different from `B`, `mergeStations(A, B)` leaves the list
without the station named `B`, one item shorter and otherwise in its order, and
leaves the dishes and the stock of every station but `A` as they were. -/
theorem mergeStations_frame (D : DishStore) (m : StationManager) (A B : String)
    (p1 p2 : StationPtr)
    (hnd : (m.items.map (fun q => (m.stations q).getName)).Nodup)
    (h1 : m.findStation A = some p1) (h2 : m.findStation B = some p2) (_hne : A ≠ B) :
    (StationManager.mergeStations D m A B).2.items = m.items.erase p2 ∧
    (StationManager.mergeStations D m A B).2.items.length + 1 = m.items.length ∧
    (StationManager.mergeStations D m A B).2.items.Sublist m.items ∧
    ∀ q, q ≠ p1 →
      ((StationManager.mergeStations D m A B).2.stations q).dishes_ = (m.stations q).dishes_ ∧
      ((StationManager.mergeStations D m A B).2.stations q).ingredients_stock_
        = (m.stations q).ingredients_stock_ := by
  have hmem := (findStation_some_name m B p2 h2).2
  have hitems := (mergeStations_items_erase D m A B p1 p2 hnd h1 h2).1
  refine ⟨hitems, ?_, ?_, ?_⟩
  · rw [hitems, List.length_erase_of_mem hmem]
    have : 0 < m.items.length := List.length_pos_of_mem hmem
    omega
  · rw [hitems]
    exact List.erase_sublist _ _
  · intro q hq
    rw [mergeStations_other D m A B p1 p2 h1 h2 q hq]
    exact ⟨rfl, rfl⟩

/-- C38: in a manager with pairwise distinct station names that holds a station
named `n`, `mergeStations(n, n)` returns `true` and unlinks that station:
`findStation(n)` is `nullptr` afterwards, the list is one item shorter and
otherwise in its order, and every other station is unchanged. -/
theorem mergeStations_same_name (D : DishStore) (m : StationManager) (n : String)
    (p : StationPtr)
    (hnd : (m.items.map (fun q => (m.stations q).getName)).Nodup)
    (h : m.findStation n = some p) :
    (StationManager.mergeStations D m n n).1 = true ∧
    (StationManager.mergeStations D m n n).2.findStation n = none ∧
    (StationManager.mergeStations D m n n).2.items = m.items.erase p ∧
    (StationManager.mergeStations D m n n).2.items.length + 1 = m.items.length ∧
    ∀ q, q ≠ p → (StationManager.mergeStations D m n n).2.stations q = m.stations q := by
  have hmem := (findStation_some_name m n p h).2
  obtain ⟨hitems, hnames⟩ := mergeStations_items_erase D m n n p p hnd h h
  refine ⟨?_, ?_, hitems, ?_, ?_⟩
  · rw [mergeStations_found D m n n p p h h]
  · rw [findStation_none_iff, hitems]
    intro q hq
    rw [mergeStations_name]
    exact hnames q hq
  · rw [hitems, List.length_erase_of_mem hmem]
    have : 0 < m.items.length := List.length_pos_of_mem hmem
    omega
  · intro q hq
    exact mergeStations_other D m n n p p h h q hq

/-! ## Moving a station to the front twice -/

/-- C39: calling `moveStationToFront(n)` twice leaves the manager that one call
leaves, and the list after a call is a permutation of the list before it. -/
theorem moveStationToFront_idempotent (m : StationManager) (n : String) :
    ((m.moveStationToFront n).2.moveStationToFront n).2 = (m.moveStationToFront n).2 ∧
    ((m.moveStationToFront n).2.moveStationToFront n).2.items
      = (m.moveStationToFront n).2.items ∧
    (m.moveStationToFront n).2.items.Perm m.items := by
  rcases split_first_named m.stations n m.items with hnone | ⟨pre, p, post, hsplit, hpre, hp⟩
  · rw [moveStationToFront_none m n hnone]
    simp only
    rw [moveStationToFront_none m n hnone]
    exact ⟨rfl, rfl, List.Perm.refl _⟩
  · rw [moveStationToFront_found m n pre post p hsplit hpre hp]
    simp only
    rw [moveStationToFront_found { m with items := p :: (pre ++ post) } n [] (pre ++ post) p rfl
      (by simp) hp]
    refine ⟨rfl, rfl, ?_⟩
    rw [hsplit]
    exact List.perm_middle.symm

/-! ## A dish without ingredients -/

theorem prepareDish_of_not_completable (D : DishStore) (s : KitchenStation) (n : String)
    (h : s.canCompleteOrder D n = false) : s.prepareDish D n = (false, s) := by
  unfold KitchenStation.prepareDish
  simp [h]

theorem prepareDish_of_completable (D : DishStore) (s : KitchenStation) (n : String)
    (h : s.canCompleteOrder D n = true) :
    s.prepareDish D n
      = (true, { s with
          ingredients_stock_ :=
            (KitchenStation.lastIngredients D n s.dishes_).foldl
              (fun stock g => KitchenStation.deplete stock g.name) s.ingredients_stock_ }) := by
  unfold KitchenStation.prepareDish
  simp [h]

/-- C37: when the assigned dish named `n` (the first one of that name) has an
empty ingredient list, `canCompleteOrder(n)` and `prepareDish(n)` return `false`
and the station stays as it is, which is what both do on a station without a
dish named `n`. -/
theorem dish_without_ingredients_not_completable (D : DishStore) (s : KitchenStation)
    (n : String) (pre post : List DishPtr) (p : DishPtr)
    (hdishes : s.dishes_ = pre ++ p :: post) (hpre : ∀ q ∈ pre, (D q).name_ ≠ n)
    (hp : (D p).name_ = n) (hempty : (D p).ingredients_ = []) :
    (s.canCompleteOrder D n = false ∧ s.prepareDish D n = (false, s)) ∧
    ∀ s0 : KitchenStation, (∀ q ∈ s0.dishes_, (D q).name_ ≠ n) →
      s0.canCompleteOrder D n = false ∧ s0.prepareDish D n = (false, s0) := by
  have hcan : s.canCompleteOrder D n = false := by
    unfold KitchenStation.canCompleteOrder
    rw [hdishes, firstIngredients_eq D n pre post p hpre hp, hempty]
    rfl
  refine ⟨⟨hcan, prepareDish_of_not_completable D s n hcan⟩, ?_⟩
  intro s0 h0
  have h := canCompleteOrder_absent D s0 n h0
  exact ⟨h, prepareDish_of_not_completable D s0 n h⟩

/-! ## Replenishing keeps an order completable -/

theorem addQuantity_required (x e : Ingredient) :
    (KitchenStation.addQuantity x e).required_quantity = e.required_quantity := by
  unfold KitchenStation.addQuantity
  split <;> rfl

theorem addQuantity_quantity_le (x e : Ingredient) (hx : 0 ≤ x.quantity)
    (hsum : e.name = x.name →
      INT_MIN ≤ e.quantity + x.quantity ∧ e.quantity + x.quantity ≤ INT_MAX) :
    e.quantity ≤ (KitchenStation.addQuantity x e).quantity := by
  unfold KitchenStation.addQuantity
  split
  · rename_i hname
    show e.quantity ≤ wrapInt (e.quantity + x.quantity)
    rw [wrapInt_of_inRange _ (hsum hname).1 (hsum hname).2]
    omega
  · exact le_refl _

theorem allInStock_replenish (s : KitchenStation) (x : Ingredient) (ingre : List Ingredient)
    (hx : 0 ≤ x.quantity)
    (hsum : ∀ e ∈ s.ingredients_stock_, e.name = x.name →
      INT_MIN ≤ e.quantity + x.quantity ∧ e.quantity + x.quantity ≤ INT_MAX)
    (h : KitchenStation.allInStock s.ingredients_stock_ ingre = true) :
    KitchenStation.allInStock (s.replenishStationIngredients x).ingredients_stock_ ingre
      = true := by
  rw [allInStock_iff] at h ⊢
  intro g hg
  obtain ⟨hall, e0, he0, hname0⟩ := h g hg
  by_cases hpres : ∃ e ∈ s.ingredients_stock_, e.name = x.name
  · rw [replenish_stock_present s x hpres]
    constructor
    · intro e he hname
      obtain ⟨a, ha, rfl⟩ := List.mem_map.1 he
      rw [addQuantity_name] at hname
      have h1 := hall a ha hname
      have h2 := addQuantity_quantity_le x a hx (hsum a ha)
      rw [addQuantity_required]
      omega
    · exact ⟨KitchenStation.addQuantity x e0, List.mem_map.2 ⟨e0, he0, rfl⟩,
        by rw [addQuantity_name]; exact hname0⟩
  · have habs : ∀ e ∈ s.ingredients_stock_, e.name ≠ x.name := by
      intro e he hn
      exact hpres ⟨e, he, hn⟩
    rw [replenish_stock_absent s x habs]
    constructor
    · intro e he hname
      rcases List.mem_append.1 he with h1 | h1
      · exact hall e h1 hname
      · rw [List.mem_singleton.1 h1] at hname
        exact absurd (hname0.trans hname.symm) (habs e0 he0)
    · exact ⟨e0, List.mem_append_left _ he0, hname0⟩

/-- C35: an order that `canCompleteOrder(n)` accepts is still accepted after
`replenishStationIngredients(x)` with a quantity `x.quantity` that is not
negative, when no sum that the call stores leaves the range of `int` (no
integer overflow). -/
theorem replenish_keeps_order_completable (D : DishStore) (s : KitchenStation) (n : String)
    (x : Ingredient) (hx : 0 ≤ x.quantity)
    (hsum : ∀ e ∈ s.ingredients_stock_, e.name = x.name →
      INT_MIN ≤ e.quantity + x.quantity ∧ e.quantity + x.quantity ≤ INT_MAX)
    (h : s.canCompleteOrder D n = true) :
    (s.replenishStationIngredients x).canCompleteOrder D n = true := by
  unfold KitchenStation.canCompleteOrder at h ⊢
  rw [replenish_dishes]
  by_cases hlen : (KitchenStation.firstIngredients D n s.dishes_).length = 0
  · simp [hlen] at h
  · simp only [hlen, if_false] at h ⊢
    exact allInStock_replenish s x _ hx hsum h

/-! ## Only the names of a dish's ingredients matter -/

theorem stockScan_congr (stock : List Ingredient) (a b : String) (h : a = b) (found : Bool) :
    KitchenStation.stockScan a stock found = KitchenStation.stockScan b stock found := by
  rw [h]

theorem allInStock_names (stock : List Ingredient) :
    ∀ l1 l2 : List Ingredient, l1.map Ingredient.name = l2.map Ingredient.name →
      KitchenStation.allInStock stock l1 = KitchenStation.allInStock stock l2 := by
  intro l1
  induction l1 with
  | nil =>
    intro l2 h
    cases l2 with
    | nil => rfl
    | cons b r => simp at h
  | cons a r ih =>
    intro l2 h
    cases l2 with
    | nil => simp at h
    | cons b r2 =>
      simp only [List.map_cons, List.cons.injEq] at h
      simp only [KitchenStation.allInStock]
      rw [h.1, ih r2 h.2]

theorem foldl_deplete_names (l : List Ingredient) (stock : List Ingredient) :
    l.foldl (fun st g => KitchenStation.deplete st g.name) stock
      = (l.map Ingredient.name).foldl KitchenStation.deplete stock := by
  rw [List.foldl_map]

theorem firstIngredients_names (D1 D2 : DishStore) (n : String) (dishes : List DishPtr)
    (hsame : ∀ p ∈ dishes, (D1 p).name_ = (D2 p).name_ ∧
      (D1 p).ingredients_.map Ingredient.name = (D2 p).ingredients_.map Ingredient.name) :
    (KitchenStation.firstIngredients D1 n dishes).map Ingredient.name
      = (KitchenStation.firstIngredients D2 n dishes).map Ingredient.name := by
  induction dishes with
  | nil => rfl
  | cons q rest ih =>
    have hq := hsame q (List.mem_cons_self _ _)
    simp only [KitchenStation.firstIngredients, ← hq.1]
    split
    · exact hq.2
    · exact ih (fun p hp => hsame p (List.mem_cons_of_mem _ hp))

theorem lastIngredients_names (D1 D2 : DishStore) (n : String) (dishes : List DishPtr)
    (hsame : ∀ p ∈ dishes, (D1 p).name_ = (D2 p).name_ ∧
      (D1 p).ingredients_.map Ingredient.name = (D2 p).ingredients_.map Ingredient.name) :
    ∀ acc1 acc2 : List Ingredient, acc1.map Ingredient.name = acc2.map Ingredient.name →
      (dishes.foldl
          (fun ingre q => if (D1 q).name_ = n then (D1 q).ingredients_ else ingre) acc1).map
          Ingredient.name
        = (dishes.foldl
          (fun ingre q => if (D2 q).name_ = n then (D2 q).ingredients_ else ingre) acc2).map
          Ingredient.name := by
  induction dishes with
  | nil => intro acc1 acc2 h; exact h
  | cons q rest ih =>
    intro acc1 acc2 h
    have hq := hsame q (List.mem_cons_self _ _)
    simp only [List.foldl_cons]
    apply ih (fun p hp => hsame p (List.mem_cons_of_mem _ hp))
    rw [← hq.1]
    split
    · exact hq.2
    · exact h

/-- C34: two dish stores that give the assigned dishes of a station the same
names and the same ingredient names, whatever the quantities, required
quantities and prices inside the ingredient lists, give the same result of
`canCompleteOrder(n)` and the same result and station of `prepareDish(n)`. -/
theorem order_depends_on_ingredient_names (D1 D2 : DishStore) (s : KitchenStation) (n : String)
    (hsame : ∀ p ∈ s.dishes_, (D1 p).name_ = (D2 p).name_ ∧
      (D1 p).ingredients_.map Ingredient.name = (D2 p).ingredients_.map Ingredient.name) :
    s.canCompleteOrder D1 n = s.canCompleteOrder D2 n ∧
    s.prepareDish D1 n = s.prepareDish D2 n := by
  have hfirst := firstIngredients_names D1 D2 n s.dishes_ hsame
  have hcan : s.canCompleteOrder D1 n = s.canCompleteOrder D2 n := by
    unfold KitchenStation.canCompleteOrder
    have hlen : (KitchenStation.firstIngredients D1 n s.dishes_).length
        = (KitchenStation.firstIngredients D2 n s.dishes_).length := by
      have := congrArg List.length hfirst
      simpa using this
    simp only [hlen]
    rw [allInStock_names s.ingredients_stock_ _ _ hfirst]
  refine ⟨hcan, ?_⟩
  cases h2 : s.canCompleteOrder D2 n with
  | false =>
    rw [prepareDish_of_not_completable D1 s n (hcan.trans h2),
      prepareDish_of_not_completable D2 s n h2]
  | true =>
    rw [prepareDish_of_completable D1 s n (hcan.trans h2),
      prepareDish_of_completable D2 s n h2, foldl_deplete_names, foldl_deplete_names]
    unfold KitchenStation.lastIngredients
    rw [lastIngredients_names D1 D2 n s.dishes_ hsame [] [] rfl]

/-! ## Assigned dishes have pairwise distinct names -/

theorem assign_names_nodup (D : DishStore) (s : KitchenStation) (d : DishPtr)
    (h : (s.dishes_.map (fun p => (D p).name_)).Nodup) :
    ((s.assignDishToStation D d).2.dishes_.map (fun p => (D p).name_)).Nodup := by
  unfold KitchenStation.assignDishToStation
  by_cases hn : KitchenStation.nameAssigned D s.dishes_ d = true
  · simp only [hn, if_true]
    exact h
  · simp only [hn, Bool.false_eq_true, if_false, List.map_append, List.map_cons, List.map_nil]
    rw [nameAssigned_iff] at hn
    rw [List.nodup_append]
    refine ⟨h, List.nodup_singleton _, ?_⟩
    intro a ha hb
    rw [List.mem_singleton] at hb
    obtain ⟨p, hp, hpa⟩ := List.mem_map.1 ha
    exact hn ⟨p, hp, hpa.trans hb⟩

theorem afterCall_names_nodup (D Dc : DishStore) (hnames : ∀ p, (Dc p).name_ = (D p).name_)
    (s : KitchenStation) (c : StationCall)
    (h : (s.dishes_.map (fun p => (D p).name_)).Nodup) :
    ((s.afterCall Dc c).dishes_.map (fun p => (D p).name_)).Nodup := by
  have hfun : (fun p => (D p).name_) = (fun p => (Dc p).name_) := by
    funext p
    exact (hnames p).symm
  cases c with
  | assignDishToStation d =>
    rw [hfun] at h ⊢
    exact assign_names_nodup Dc s d h
  | replenishStationIngredients x =>
    show ((s.replenishStationIngredients x).dishes_.map _).Nodup
    rw [replenish_dishes]
    exact h
  | prepareDish n =>
    show ((s.prepareDish Dc n).2.dishes_.map _).Nodup
    cases hc : s.canCompleteOrder Dc n with
    | false => rw [prepareDish_of_not_completable Dc s n hc]; exact h
    | true => rw [prepareDish_of_completable Dc s n hc]; exact h

theorem afterCalls_names_nodup (D : DishStore) (calls : List (DishStore × StationCall))
    (hnames : ∀ c ∈ calls, ∀ p, (c.1 p).name_ = (D p).name_) :
    ∀ s : KitchenStation, (s.dishes_.map (fun p => (D p).name_)).Nodup →
      ((s.afterCalls calls).dishes_.map (fun p => (D p).name_)).Nodup := by
  induction calls with
  | nil => intro s h; exact h
  | cons c rest ih =>
    intro s h
    have hstep := afterCall_names_nodup D c.1 (hnames c (List.mem_cons_self _ _)) s c.2 h
    exact ih (fun c2 hc2 => hnames c2 (List.mem_cons_of_mem _ hc2)) _ hstep

theorem assignEach_names_nodup (D : DishStore) (ds : List DishPtr) :
    ∀ s : KitchenStation, (s.dishes_.map (fun p => (D p).name_)).Nodup →
      ((s.assignEach D ds).dishes_.map (fun p => (D p).name_)).Nodup := by
  induction ds with
  | nil => intro s h; exact h
  | cons d rest ih =>
    intro s h
    rw [assignEach_cons]
    exact ih _ (assign_names_nodup D s d h)

/-- Among dishes with pairwise distinct names the lookup of `canCompleteOrder`
and the lookup of `prepareDish` end with the same ingredients. -/
theorem first_eq_last_of_nodup (D : DishStore) (n : String) (dishes : List DishPtr)
    (h : (dishes.map (fun p => (D p).name_)).Nodup) :
    KitchenStation.firstIngredients D n dishes = KitchenStation.lastIngredients D n dishes := by
  unfold KitchenStation.lastIngredients
  by_cases hex : ∃ p ∈ dishes, (D p).name_ = n
  · obtain ⟨p, hp, hpn⟩ := hex
    have huniq : ∀ q ∈ dishes, (D q).name_ = n → q = p := by
      intro q hq hqn
      exact List.inj_on_of_nodup_map h hq hp (hqn.trans hpn.symm)
    rw [firstIngredients_unique D n p dishes hp hpn huniq,
      lastIngredients_unique D n p dishes huniq [], if_pos ⟨p, hp, hpn⟩]
  · have habs : ∀ q ∈ dishes, (D q).name_ ≠ n := fun q hq e => hex ⟨q, hq, e⟩
    rw [firstIngredients_absent D n dishes habs,
      lastIngredients_unique D n 0 dishes (fun q hq e => absurd e (habs q hq)) [], if_neg hex]

/-- C33: a station that starts as a newly constructed one and goes through any
calls of its members, the names of the dishes being the same at every call, has
no two assigned dishes of the same name, so the first dish named `n` that
`canCompleteOrder` looks up and the last one that `prepareDish` looks up have
the same ingredients; the manager's `assignDishToStation` and `mergeStations`
keep the names of the assigned dishes of every station distinct. -/
theorem assigned_dish_names_distinct (D : DishStore) (station_name : String)
    (calls : List (DishStore × StationCall))
    (hnames : ∀ c ∈ calls, ∀ p, (c.1 p).name_ = (D p).name_) :
    ((((KitchenStation.mk_named station_name).afterCalls calls).dishes_.map
        (fun p => (D p).name_)).Nodup ∧
      ∀ n : String,
        KitchenStation.firstIngredients D n
            ((KitchenStation.mk_named station_name).afterCalls calls).dishes_
          = KitchenStation.lastIngredients D n
            ((KitchenStation.mk_named station_name).afterCalls calls).dishes_) ∧
    (∀ (m : StationManager) (name : String) (d : DishPtr) (q : StationPtr),
      ((m.stations q).dishes_.map (fun p => (D p).name_)).Nodup →
      (((StationManager.assignDishToStation D m name d).2.stations q).dishes_.map
        (fun p => (D p).name_)).Nodup) ∧
    (∀ (m : StationManager) (A B : String) (q : StationPtr),
      ((m.stations q).dishes_.map (fun p => (D p).name_)).Nodup →
      (((StationManager.mergeStations D m A B).2.stations q).dishes_.map
        (fun p => (D p).name_)).Nodup) := by
  have hnd := afterCalls_names_nodup D calls hnames (KitchenStation.mk_named station_name)
    (by simp [KitchenStation.mk_named])
  refine ⟨⟨hnd, fun n => first_eq_last_of_nodup D n _ hnd⟩, ?_, ?_⟩
  · intro m name d q hq
    unfold StationManager.assignDishToStation
    cases hf : m.findStation name with
    | none => exact hq
    | some p =>
      simp only
      by_cases hqp : q = p
      · subst hqp
        rw [Function.update_same]
        exact assign_names_nodup D _ d hq
      · rw [Function.update_noteq hqp]
        exact hq
  · intro m A B q hq
    cases h1 : m.findStation A with
    | none =>
      simp only [StationManager.mergeStations, h1]
      exact hq
    | some p1 =>
      cases h2 : m.findStation B with
      | none =>
        simp only [StationManager.mergeStations, h1, h2]
        exact hq
      | some p2 =>
        rw [mergeStations_found D m A B p1 p2 h1 h2]
        simp only
        by_cases hqp : q = p1
        · subst hqp
          simp only [Function.update_same, replenishEach_dishes]
          exact assignEach_names_nodup D _ _ hq
        · simp only [Function.update_noteq hqp]
          exact hq

/-! ## Preparing a dish of one ingredient again and again -/

/-- The loop over `k` of `prepareDish` on a stock with a single entry named
`X`: that entry is used once, the others stay. -/
theorem afterDeplete_single (X : String) (e : Ingredient) (post : List Ingredient)
    (he : e.name = X) (hpost : ∀ a ∈ post, a.name ≠ X) :
    ∀ pre : List Ingredient, (∀ a ∈ pre, a.name ≠ X) →
      KitchenStation.afterDeplete X (pre ++ e :: post)
        = pre ++ (if e.quantity - e.required_quantity = 0 then []
            else [{ e with quantity := e.quantity - e.required_quantity }]) ++ post := by
  intro pre
  induction pre with
  | nil =>
    intro _
    cases post with
    | nil =>
      simp only [List.nil_append, KitchenStation.afterDeplete, if_pos he.symm, List.append_nil]
    | cons f rest =>
      have hrest : KitchenStation.afterDeplete X rest = rest :=
        afterDeplete_absent X rest (fun a ha => hpost a (List.mem_cons_of_mem _ ha))
      have hfrest : KitchenStation.afterDeplete X (f :: rest) = f :: rest :=
        afterDeplete_absent X (f :: rest) hpost
      simp only [List.nil_append, KitchenStation.afterDeplete, if_pos he.symm]
      split
      · rw [hrest]; rfl
      · rw [hfrest]; rfl
  | cons a pre ih =>
    intro hpre
    have ha : ¬ X = a.name := fun h => hpre a (List.mem_cons_self _ _) h.symm
    obtain ⟨x, r, hxr⟩ : ∃ x r, pre ++ e :: post = x :: r := by
      cases pre with
      | nil => exact ⟨e, post, rfl⟩
      | cons y ys => exact ⟨y, ys ++ e :: post, rfl⟩
    rw [List.cons_append, hxr]
    simp only [KitchenStation.afterDeplete, if_neg ha]
    rw [← hxr, ih (fun q hq => hpre q (List.mem_cons_of_mem _ hq))]
    simp

/-- One call of `prepareDish(n)` on a station whose dish named `n` has the
single ingredient `g` and whose stock holds, between `pre` and `post`, either
nothing named like `g` (and `rem = 0`) or one entry with quantity `rem` and
required quantity `r`. -/
theorem prepare_single_step (D : DishStore) (t : KitchenStation) (n : String) (p : DishPtr)
    (g : Ingredient) (r rem : Int) (pre mid post : List Ingredient)
    (hp : p ∈ t.dishes_) (hname : (D p).name_ = n)
    (huniq : ∀ q ∈ t.dishes_, (D q).name_ = n → q = p)
    (hing : (D p).ingredients_ = [g])
    (hstock : t.ingredients_stock_ = pre ++ mid ++ post)
    (hpre : ∀ a ∈ pre, a.name ≠ g.name) (hpost : ∀ a ∈ post, a.name ≠ g.name)
    (hmid : (mid = [] ∧ rem = 0) ∨
      ∃ e1 : Ingredient, mid = [e1] ∧ e1.name = g.name ∧ e1.required_quantity = r ∧
        e1.quantity = rem)
    (hr : 0 < r) :
    (rem < r → t.prepareDish D n = (false, t)) ∧
    (r ≤ rem → ∃ t1 mid1, t.prepareDish D n = (true, t1) ∧ t1.dishes_ = t.dishes_ ∧
      t1.ingredients_stock_ = pre ++ mid1 ++ post ∧
      ((mid1 = [] ∧ rem - r = 0) ∨
        ∃ e1 : Ingredient, mid1 = [e1] ∧ e1.name = g.name ∧ e1.required_quantity = r ∧
          e1.quantity = rem - r)) := by
  have hfirst : KitchenStation.firstIngredients D n t.dishes_ = [g] := by
    rw [firstIngredients_unique D n p t.dishes_ hp hname huniq, hing]
  have hlast : KitchenStation.lastIngredients D n t.dishes_ = [g] := by
    unfold KitchenStation.lastIngredients
    rw [lastIngredients_unique D n p t.dishes_ huniq [], if_pos ⟨p, hp, hname⟩, hing]
  have hcan : t.canCompleteOrder D n = KitchenStation.allInStock t.ingredients_stock_ [g] := by
    unfold KitchenStation.canCompleteOrder
    rw [hfirst]
    rfl
  rcases hmid with ⟨hnil, hrem⟩ | ⟨e1, hone, he1, hreq, hqty⟩
  · -- no entry named like `g`
    have hno : t.canCompleteOrder D n = false := by
      rw [hcan]
      by_contra hne
      rw [Bool.not_eq_false, allInStock_iff] at hne
      obtain ⟨_, a, ha, han⟩ := hne g (List.mem_singleton.2 rfl)
      rw [hstock, hnil, List.append_nil] at ha
      rcases List.mem_append.1 ha with h | h
      · exact hpre a h han
      · exact hpost a h han
    refine ⟨fun _ => prepareDish_of_not_completable D t n hno, ?_⟩
    intro hle
    omega
  · have hiff : t.canCompleteOrder D n = true ↔ r ≤ rem := by
      rw [hcan, allInStock_iff]
      constructor
      · intro h
        have h1 := (h g (List.mem_singleton.2 rfl)).1 e1
          (by rw [hstock, hone]; simp) he1
        rw [hreq, hqty] at h1
        omega
      · intro hle g1 hg1
        rw [List.mem_singleton.1 hg1]
        refine ⟨?_, e1, by rw [hstock, hone]; simp, he1⟩
        intro a ha han
        rw [hstock, hone] at ha
        rcases List.mem_append.1 ha with h | h
        · rcases List.mem_append.1 h with h2 | h2
          · exact absurd han (hpre a h2)
          · rw [List.mem_singleton.1 h2, hreq, hqty]
            omega
        · exact absurd han (hpost a h)
    constructor
    · intro hlt
      apply prepareDish_of_not_completable
      by_contra hne
      rw [Bool.not_eq_false, hiff] at hne
      omega
    · intro hle
      have hstock1 : t.ingredients_stock_ = pre ++ e1 :: post := by
        rw [hstock, hone]; simp
      refine ⟨_, (if e1.quantity - e1.required_quantity = 0 then []
          else [{ e1 with quantity := e1.quantity - e1.required_quantity }]),
        prepareDish_of_completable D t n (hiff.2 hle), rfl, ?_, ?_⟩
      · simp only [hlast, List.foldl_cons, List.foldl_nil]
        rw [deplete_eq, hstock1, afterDeplete_single g.name e1 post he1 hpost pre hpre]
      · by_cases hz : e1.quantity - e1.required_quantity = 0
        · left
          exact ⟨if_pos hz, by rw [← hqty, ← hreq]; exact hz⟩
        · right
          refine ⟨_, if_neg hz, he1, hreq, ?_⟩
          show e1.quantity - e1.required_quantity = rem - r
          rw [hqty, hreq]

theorem afterCalls_cons (s : KitchenStation) (c : DishStore × StationCall)
    (rest : List (DishStore × StationCall)) :
    s.afterCalls (c :: rest) = (s.afterCall c.1 c.2).afterCalls rest := rfl

/-- The result of the call of `prepareDish(n)` that follows `k` earlier ones. -/
theorem prepare_single_iter (D : DishStore) (n : String) (p : DishPtr) (g : Ingredient)
    (r : Int) (pre post : List Ingredient) (hname : (D p).name_ = n)
    (hing : (D p).ingredients_ = [g])
    (hpre : ∀ a ∈ pre, a.name ≠ g.name) (hpost : ∀ a ∈ post, a.name ≠ g.name) (hr : 0 < r) :
    ∀ (k : Nat) (t : KitchenStation) (rem : Int) (mid : List Ingredient),
      p ∈ t.dishes_ → (∀ q ∈ t.dishes_, (D q).name_ = n → q = p) →
      t.ingredients_stock_ = pre ++ mid ++ post →
      ((mid = [] ∧ rem = 0) ∨
        ∃ e1 : Ingredient, mid = [e1] ∧ e1.name = g.name ∧ e1.required_quantity = r ∧
          e1.quantity = rem) →
      0 ≤ rem →
      ((t.afterCalls (List.replicate k (D, StationCall.prepareDish n))).prepareDish D n).1
        = decide ((k : Int) < rem / r) := by
  intro k
  induction k with
  | zero =>
    intro t rem mid hp huniq hstock hmid hrem
    obtain ⟨hlt, hle⟩ :=
      prepare_single_step D t n p g r rem pre mid post hp hname huniq hing hstock hpre hpost
        hmid hr
    show (t.prepareDish D n).1 = _
    by_cases h : rem < r
    · rw [hlt h, Int.ediv_eq_zero_of_lt hrem h]
      exact (decide_eq_false (by omega)).symm
    · obtain ⟨t1, mid1, heq, _⟩ := hle (by omega)
      rw [heq]
      have h1 : 1 ≤ rem / r := (Int.le_ediv_iff_mul_le hr).2 (by omega)
      exact (decide_eq_true (by omega)).symm
  | succ k ih =>
    intro t rem mid hp huniq hstock hmid hrem
    obtain ⟨hlt, hle⟩ :=
      prepare_single_step D t n p g r rem pre mid post hp hname huniq hing hstock hpre hpost
        hmid hr
    rw [List.replicate_succ, afterCalls_cons]
    show (((t.prepareDish D n).2.afterCalls _).prepareDish D n).1 = _
    by_cases h : rem < r
    · rw [hlt h]
      show ((t.afterCalls _).prepareDish D n).1 = _
      rw [ih t rem mid hp huniq hstock hmid hrem, Int.ediv_eq_zero_of_lt hrem h]
      exact decide_eq_decide.2 (by omega)
    · obtain ⟨t1, mid1, heq, hd, hst, hmid1⟩ := hle (by omega)
      rw [heq]
      show ((t1.afterCalls _).prepareDish D n).1 = _
      rw [ih t1 (rem - r) mid1 (by rw [hd]; exact hp) (by rw [hd]; exact huniq) hst hmid1
        (by omega)]
      have hdiv : rem / r = (rem - r) / r + 1 := by
        have := Int.add_mul_ediv_right (rem - r) 1 (ne_of_gt hr)
        rw [one_mul, sub_add_cancel] at this
        exact this
      rw [hdiv]
      exact decide_eq_decide.2 (by omega)

theorem floor_div_of_pos (q r : Int) (hr : 0 < r) : ⌊(q : ℚ) / (r : ℚ)⌋ = q / r := by
  obtain ⟨d, rfl⟩ := Int.eq_ofNat_of_zero_le hr.le
  exact_mod_cast Rat.floor_intCast_div_natCast q d

/-- C36, amended: on a station whose dish named `n`, the only assigned dish of
that name, has the single ingredient `g` and
whose stock has exactly one entry `e` named like `g`, with a quantity `q` that
is not negative and a required quantity `r` above `0`, the call of
`prepareDish(n)` that follows `k` earlier calls returns `true` exactly when
`k` is less than the integer quotient of `q` by `r`, which is `floor(q / r)`:
the first `floor(q / r)` calls return `true` and every later call returns
`false`. -/
theorem prepareDish_succeeds_floor_times (D : DishStore) (s : KitchenStation) (n : String)
    (p : DishPtr) (g e : Ingredient) (pre post : List Ingredient)
    (hp : p ∈ s.dishes_) (hname : (D p).name_ = n)
    (huniq : ∀ q ∈ s.dishes_, (D q).name_ = n → q = p)
    (hing : (D p).ingredients_ = [g])
    (hstock : s.ingredients_stock_ = pre ++ e :: post) (he : e.name = g.name)
    (hpre : ∀ a ∈ pre, a.name ≠ g.name) (hpost : ∀ a ∈ post, a.name ≠ g.name)
    (hq : 0 ≤ e.quantity) (hr : 0 < e.required_quantity) (k : Nat) :
    ((s.afterCalls (List.replicate k (D, StationCall.prepareDish n))).prepareDish D n).1
      = decide ((k : Int) < e.quantity / e.required_quantity) ∧
    e.quantity / e.required_quantity = ⌊(e.quantity : ℚ) / (e.required_quantity : ℚ)⌋ :=
  ⟨prepare_single_iter D n p g e.required_quantity pre post hname hing hpre hpost hr k s
      e.quantity [e] hp huniq (by rw [hstock]; simp) (Or.inr ⟨e, rfl, he, rfl, rfl⟩) hq,
    (floor_div_of_pos e.quantity e.required_quantity hr).symm⟩

/-- C36 fails as stated: the station holds two dishes named "Soup"; the first
has the single ingredient "Salt", of which the stock has one entry with
quantity 5 and required quantity 2, so `floor(5 / 2)` is 2; yet the third call
of `prepareDish("Soup")` returns `true` again, and the salt is still at 5
(`canCompleteOrder` checks the first soup, `prepareDish` uses up the pepper of
the last one). -/
theorem two_soups_prepared_a_third_time :
    (0 ∈ exampleTwoSoups.dishes_ ∧ (exampleDishes 0).name_ = "Soup" ∧
      (exampleDishes 0).ingredients_ = [⟨"Salt", 1, 1, 2⟩] ∧
      exampleTwoSoups.ingredients_stock_
        = [] ++ ⟨"Salt", 5, 2, 1⟩ :: [⟨"Pepper", 5, 2, 1⟩] ∧
      (5 : Int) / 2 = 2) ∧
    ((exampleTwoSoups.afterCalls
        (List.replicate 2 (exampleDishes, StationCall.prepareDish "Soup"))).prepareDish
        exampleDishes "Soup").1 = true ∧
    (exampleTwoSoups.afterCalls
        (List.replicate 3 (exampleDishes, StationCall.prepareDish "Soup"))).ingredients_stock_
      = [⟨"Salt", 5, 2, 1⟩, ⟨"Pepper", -1, 2, 1⟩] := by
  decide

/-- Witness for C36, amended: salt for one soup and a half; the second call
fails. -/
theorem prepareDish_succeeds_floor_times_witness :
    (0 ∈ exampleSaltStation.dishes_ ∧ (exampleDishes 0).name_ = "Soup" ∧
      (∀ q ∈ exampleSaltStation.dishes_, (exampleDishes q).name_ = "Soup" → q = 0) ∧
      (exampleDishes 0).ingredients_ = [⟨"Salt", 1, 1, 2⟩] ∧
      exampleSaltStation.ingredients_stock_ = [] ++ ⟨"Salt", 3, 2, 1⟩ :: [] ∧
      (0 : Int) ≤ 3 ∧ (0 : Int) < 2) ∧
    (exampleSaltStation.prepareDish exampleDishes "Soup").1 = true ∧
    ((exampleSaltStation.afterCalls
        (List.replicate 1 (exampleDishes, StationCall.prepareDish "Soup"))).prepareDish
        exampleDishes "Soup").1 = false :=
  ⟨by decide,
    (prepareDish_succeeds_floor_times exampleDishes exampleSaltStation "Soup" 0
      ⟨"Salt", 1, 1, 2⟩ ⟨"Salt", 3, 2, 1⟩ [] [] (by decide) rfl (by decide) rfl rfl rfl
      (by simp) (by simp) (by decide) (by decide) 0).1.trans (by decide),
    (prepareDish_succeeds_floor_times exampleDishes exampleSaltStation "Soup" 0
      ⟨"Salt", 1, 1, 2⟩ ⟨"Salt", 3, 2, 1⟩ [] [] (by decide) rfl (by decide) rfl rfl rfl
      (by simp) (by simp) (by decide) (by decide) 1).1.trans (by decide)⟩

/-! ## The claims about merging, replenishing and preparing at concrete states -/

/-- Witness for C32: merging "B" into "A" in the manager with these two
stations. -/
theorem mergeStations_frame_witness :
    ((exampleTwoStations.items.map (fun q => (exampleTwoStations.stations q).getName)).Nodup ∧
      exampleTwoStations.findStation "A" = some 0 ∧
      exampleTwoStations.findStation "B" = some 1 ∧ "A" ≠ "B") ∧
    (StationManager.mergeStations exampleDishes exampleTwoStations "A" "B").2.items
      = exampleTwoStations.items.erase 1 ∧
    ((StationManager.mergeStations exampleDishes exampleTwoStations "A" "B").2.stations
      1).dishes_ = (exampleTwoStations.stations 1).dishes_ :=
  ⟨by decide,
    (mergeStations_frame exampleDishes exampleTwoStations "A" "B" 0 1 (by decide) (by decide)
      (by decide) (by decide)).1,
    ((mergeStations_frame exampleDishes exampleTwoStations "A" "B" 0 1 (by decide) (by decide)
      (by decide) (by decide)).2.2.2 1 (by decide)).1⟩

theorem exampleDishesRepriced_name (p : DishPtr) :
    (exampleDishesRepriced p).name_ = (exampleDishes p).name_ :=
  match p with
  | 0 => rfl
  | 1 => rfl
  | 2 => rfl
  | 3 => rfl
  | _ + 4 => rfl

/-- Witness for C33: a new station is assigned the two dishes named "Soup" and
the dish "Stew", the numbers inside the ingredient lists changing in between. -/
theorem assigned_dish_names_distinct_witness :
    (∀ c ∈ [(exampleDishes, StationCall.assignDishToStation 0),
        (exampleDishesRepriced, StationCall.assignDishToStation 1),
        (exampleDishes, StationCall.assignDishToStation 3)],
      ∀ p, (c.1 p).name_ = (exampleDishes p).name_) ∧
    (((KitchenStation.mk_named "Grill").afterCalls
      [(exampleDishes, StationCall.assignDishToStation 0),
        (exampleDishesRepriced, StationCall.assignDishToStation 1),
        (exampleDishes, StationCall.assignDishToStation 3)]).dishes_.map
      (fun p => (exampleDishes p).name_)).Nodup :=
  ⟨by simp [exampleDishesRepriced_name],
    (assigned_dish_names_distinct exampleDishes "Grill"
      [(exampleDishes, StationCall.assignDishToStation 0),
        (exampleDishesRepriced, StationCall.assignDishToStation 1),
        (exampleDishes, StationCall.assignDishToStation 3)]
      (by simp [exampleDishesRepriced_name])).1.1⟩

/-- Witness for C34: the station that prepares "Stew", with the dishes as they
are and with other numbers inside their ingredient lists. -/
theorem order_depends_on_ingredient_names_witness :
    (∀ p ∈ exampleStewStation.dishes_,
      (exampleDishes p).name_ = (exampleDishesRepriced p).name_ ∧
      (exampleDishes p).ingredients_.map Ingredient.name
        = (exampleDishesRepriced p).ingredients_.map Ingredient.name) ∧
    (exampleStewStation.canCompleteOrder exampleDishes "Stew"
        = exampleStewStation.canCompleteOrder exampleDishesRepriced "Stew" ∧
      exampleStewStation.prepareDish exampleDishes "Stew"
        = exampleStewStation.prepareDish exampleDishesRepriced "Stew") :=
  ⟨by decide,
    order_depends_on_ingredient_names exampleDishes exampleDishesRepriced exampleStewStation
      "Stew" (by decide)⟩

/-- Witness for C35: more salt for the station that can prepare "Stew". -/
theorem replenish_keeps_order_completable_witness :
    ((0 : Int) ≤ 4 ∧
      (∀ e ∈ exampleStewStation.ingredients_stock_, e.name = "Salt" →
        INT_MIN ≤ e.quantity + 4 ∧ e.quantity + 4 ≤ INT_MAX) ∧
      exampleStewStation.canCompleteOrder exampleDishes "Stew" = true) ∧
    (exampleStewStation.replenishStationIngredients ⟨"Salt", 4, 1, 2⟩).canCompleteOrder
      exampleDishes "Stew" = true :=
  ⟨by decide,
    replenish_keeps_order_completable exampleDishes exampleStewStation "Stew"
      ⟨"Salt", 4, 1, 2⟩ (by decide) (by decide) (by decide)⟩

/-- Witness for C37: the station whose dish "Water" has no ingredients. -/
theorem dish_without_ingredients_not_completable_witness :
    (exampleWaterStation.dishes_ = [] ++ 2 :: [] ∧ (exampleDishes 2).name_ = "Water" ∧
      (exampleDishes 2).ingredients_ = []) ∧
    exampleWaterStation.canCompleteOrder exampleDishes "Water" = false ∧
    exampleWaterStation.prepareDish exampleDishes "Water" = (false, exampleWaterStation) :=
  ⟨by decide,
    (dish_without_ingredients_not_completable exampleDishes exampleWaterStation "Water" [] []
      2 rfl (by simp) rfl rfl).1⟩

/-- Witness for C38: merging "B" with itself in the manager with the stations
"A" and "B". -/
theorem mergeStations_same_name_witness :
    ((exampleTwoStations.items.map (fun q => (exampleTwoStations.stations q).getName)).Nodup ∧
      exampleTwoStations.findStation "B" = some 1) ∧
    (StationManager.mergeStations exampleDishes exampleTwoStations "B" "B").1 = true ∧
    (StationManager.mergeStations exampleDishes exampleTwoStations "B" "B").2.findStation "B"
      = none :=
  ⟨by decide,
    (mergeStations_same_name exampleDishes exampleTwoStations "B" 1 (by decide) (by decide)).1,
    (mergeStations_same_name exampleDishes exampleTwoStations "B" 1 (by decide)
      (by decide)).2.1⟩

end Project5

namespace Project2

/-! ## The flavor profile that `displayDessert` prints -/

theorem flavorLabel_eq_name_iff (d : Dessert) :
    d.flavorLabel = d.flavor_profile_.name ↔
      d.flavor_profile_ ≠ FlavorProfile.SALTY ∧ d.flavor_profile_ ≠ FlavorProfile.UMAMI := by
  unfold Dessert.flavorLabel
  cases d.flavor_profile_ <;> decide

/-- C31 at a salty dessert: the enumerator is `SALTY`, and `displayDessert`
prints "UMAMI" on its "Flavor Profile:" line. -/
theorem salty_dessert_displays_umami :
    exampleSaltyDessert.flavor_profile_.name = "SALTY" ∧
    exampleSaltyDessert.flavorProfileLine = "Flavor Profile: UMAMI" ∧
    Dessert.displayDessert "" exampleSaltyDessert
      = "Flavor Profile: UMAMI\nSweetness Level: 2\nContains Nuts: False\n" := by
  decide

end Project2
